import Mathlib

/-!
# Dockerfile COPY/ADD source extraction (`cmd/dockerfile_parser.go`)

A shallow embedding of the parser in `cmd/dockerfile_parser.go` and proofs
about it.

Modelling conventions.

* A Go `string` is a `List Char` (`Str`): a sequence of Unicode code points.
  Every delimiter the parser looks for is ASCII, so byte offsets and code
  point offsets cut a valid UTF-8 string at the same places.
* A Go result pair `([]string, error)` is `List Str × Option GoError`; a
  `nil` slice is `[]` and a `nil` error is `none`.
* `path/filepath` is modelled for Unix (separator `/`, no volume names).
* The file system is a parameter (`FS`): the outcome of `os.Stat`,
  `filepath.Glob` and the visits of `filepath.Walk` are functions of the
  path, fixed for the duration of one parse.
* Loops whose Go condition is not a structural descent carry a fuel
  argument that is initialised with a bound on the number of iterations.
-/

namespace DockerfileParser

/-- Go `string`, as a sequence of code points. -/
abbrev Str := List Char

/-- The double quote character. -/
def dquote : Char := Char.ofNat 34

/-- The single quote character. -/
def squote : Char := Char.ofNat 39

/-- The backslash character. -/
def backslash : Char := Char.ofNat 92

/-! ## Go `strings` -/

/-- Go `strings.HasPrefix`. -/
def HasPrefix (s pre : Str) : Bool := pre.isPrefixOf s

/-- Go `strings.HasSuffix`. -/
def HasSuffix (s suf : Str) : Bool := suf.isSuffixOf s

/-- Go `unicode.IsSpace`. -/
def isSpace (c : Char) : Bool :=
  let n := c.toNat
  (9 ≤ n && n ≤ 13) || n = 32 || n = 0x85 || n = 0xA0 || n = 0x1680 ||
  (0x2000 ≤ n && n ≤ 0x200A) || n = 0x2028 || n = 0x2029 || n = 0x202F ||
  n = 0x205F || n = 0x3000

/-- Go `strings.TrimLeft s cutset`. -/
def TrimLeft (s cutset : Str) : Str := s.dropWhile (fun c => cutset.contains c)

/-- Go `strings.TrimRight s cutset`. -/
def TrimRight (s cutset : Str) : Str := s.rdropWhile (fun c => cutset.contains c)

/-- Go `strings.TrimSpace`. -/
def TrimSpace (s : Str) : Str := (s.dropWhile isSpace).rdropWhile isSpace

/-- Go `strings.TrimSuffix`. -/
def TrimSuffix (s suf : Str) : Str :=
  if HasSuffix s suf then s.take (s.length - suf.length) else s

/-- Index of the first character satisfying `p`, Go's `-1` being `none`. -/
def indexWhere (p : Char → Bool) : Str → Option Nat
  | [] => none
  | c :: cs => if p c then some 0 else (indexWhere p cs).map (· + 1)

/-- Go `strings.IndexByte` (also `strings.Index` with a one-character
separator). -/
def IndexByte (s : Str) (c : Char) : Option Nat := indexWhere (fun x => x = c) s

/-- Go `strings.IndexAny`. -/
def IndexAny (s chars : Str) : Option Nat := indexWhere (fun x => chars.contains x) s

/-- Go `strings.Contains` with a one-character substring. -/
def Contains (s : Str) (c : Char) : Bool := s.contains c

/-- Go `unicode.ToUpper` as far as ASCII results are concerned: ASCII letters,
and the two non-ASCII code points whose upper case is ASCII (dotless i and
long s). Other non-ASCII letters are mapped among non-ASCII code points by
Go, which no comparison in the parser observes; they are left unchanged. -/
def upperRune (c : Char) : Char :=
  if c.toNat = 0x131 then 'I' else if c.toNat = 0x17F then 'S' else c.toUpper

/-- Go `unicode.ToLower` as far as ASCII results are concerned: ASCII letters,
and the two non-ASCII code points whose lower case is ASCII (dotted capital
I and the Kelvin sign). -/
def lowerRune (c : Char) : Char :=
  if c.toNat = 0x130 then 'i' else if c.toNat = 0x212A then 'k' else c.toLower

/-- Go `strings.ToUpper`. -/
def ToUpper (s : Str) : Str := s.map upperRune

/-- Go `strings.ToLower`. -/
def ToLower (s : Str) : Str := s.map lowerRune

/-! ## Go `path/filepath` (Unix) -/

/-- The elements of a path between separators: `a/b` has two, `/a` has an
empty one and `a`, the empty path has one empty element. -/
def splitSlash : Str → List Str
  | [] => [[]]
  | c :: cs =>
    if c = '/' then [] :: splitSlash cs
    else match splitSlash cs with
      | [] => [[c]]
      | s :: ss => (c :: s) :: ss

/-- Elements joined by the separator. -/
def joinSlash : List Str → Str
  | [] => []
  | [s] => s
  | s :: ss => s ++ '/' :: joinSlash ss

/-- One element of the reading loop of `filepath.Clean`, on the stack of
elements written so far (last written first). Empty and `.` elements are
dropped; `..` removes the last written element when there is one that is not
itself a leading `..`, is dropped at the root of a rooted path, and is
written otherwise; any other element is written. -/
def cleanStep (rooted : Bool) (stk : List Str) (seg : Str) : List Str :=
  if seg = [] then stk
  else if seg = ['.'] then stk
  else if seg = ['.', '.'] then
    match stk with
    | [] => if rooted then [] else [seg]
    | top :: below =>
      if top = ['.', '.'] then (if rooted then stk else seg :: stk) else below
  else seg :: stk

/-- The reading loop of `filepath.Clean` over the elements of the path. -/
def cleanElems (rooted : Bool) : List Str → List Str → List Str
  | [], stk => stk
  | seg :: segs, stk => cleanElems rooted segs (cleanStep rooted stk seg)

/-- Go `filepath.Clean`. -/
def Clean (path : Str) : Str :=
  if path = [] then ['.']
  else
    let rooted := path.head? = some '/'
    let stk := cleanElems rooted (splitSlash path) []
    if rooted then '/' :: joinSlash stk.reverse
    else if stk = [] then ['.']
    else joinSlash stk.reverse

/-- Go `filepath.IsAbs`. -/
def IsAbs (path : Str) : Bool := HasPrefix path ['/']

/-- Go `filepath.Join` of two elements: the elements from the first non-empty
one on are joined by the separator and cleaned. -/
def Join (a b : Str) : Str :=
  if a ≠ [] then Clean (a ++ '/' :: b)
  else if b ≠ [] then Clean b
  else []

/-- The elements the comparison loop of `filepath.Rel` walks over in a
cleaned path: none in the empty path, and no element after a final
separator (which only the root has). -/
def relElems (p : Str) : List Str :=
  if p = [] then [] else if p = ['/'] then [[]] else splitSlash p

/-- The comparison loop of `filepath.Rel`: the elements of base and target
left at the first difference, and whether the loop stopped at a
difference (rather than at the end of one of the paths). -/
def relLoop : List Str → List Str → List Str × List Str × Bool
  | b :: bs, t :: ts => if t = b then relLoop bs ts else (b :: bs, t :: ts, true)
  | bs, ts => (bs, ts, false)

/-- The text `..` repeated for every base element left, joined by the
separator. -/
def upDirs : Nat → Str
  | 0 => []
  | 1 => ['.', '.']
  | n + 1 => '.' :: '.' :: '/' :: upDirs n

/-- Go `filepath.Rel`; `none` is the error `Rel: can't make ... relative`.
The model follows the library for an absolute base path, which is the case
every theorem below that depends on its value assumes; for a relative base
path it is not claimed to agree with the library. -/
def Rel (basepath targpath : Str) : Option Str :=
  let base := Clean basepath
  let targ := Clean targpath
  if targ = base then some ['.']
  else
    let base := if base = ['.'] then [] else base
    let baseSlashed := base.head? = some '/'
    let targSlashed := targ.head? = some '/'
    if baseSlashed ≠ targSlashed then none
    else
      match relLoop (relElems base) (relElems targ) with
      | (bs, ts, stopped) =>
        if stopped ∧ bs.head? = some ['.', '.'] then none
        else if bs ≠ [] then
          some (upDirs bs.length ++ (if ts ≠ [] then '/' :: joinSlash ts else []))
        else some (joinSlash ts)

/-- Go `filepath.ToSlash` (the identity where the separator is `/`). -/
def ToSlash (p : Str) : Str := p


/-! ## Errors and the file system -/

/-- A Go `error` value: one made by `fmt.Errorf` in the parser, or one
returned by the `os` and `path/filepath` calls and handed on unchanged. -/
inductive GoError where
  | errorf (msg : Str)
  | lib (msg : Str)
  deriving DecidableEq, Repr

/-- Go `err.Error()`. -/
def GoError.Error : GoError → Str
  | .errorf msg => msg
  | .lib msg => msg

/-- Go result pair `([]string, error)`. -/
abbrev Result := List Str × Option GoError

/-- Outcome of `os.Stat`: the `IsDir()` of the file info, or an error with
the verdict of `os.IsNotExist` on it. -/
inductive StatResult where
  | info (isDir : Bool)
  | err (isNotExist : Bool) (msg : Str)
  deriving DecidableEq, Repr

/-- What `filepath.Walk` passes to its callback at one visit: an error, a
directory, or another file. -/
inductive WalkEntry where
  | err (msg : Str)
  | dir
  | file
  deriving DecidableEq, Repr

/-- The file system as the parser observes it. -/
structure FS where
  /-- Outcome of `os.Stat path`. -/
  stat : Str → StatResult
  /-- Outcome of `filepath.Glob pattern`: the matches, or an error. -/
  glob : Str → Except Str (List Str)
  /-- The visits of `filepath.Walk dir`, in order, for a callback that
  returns `nil` (the walk stops at the first visit for which the callback
  returns an error). -/
  walk : Str → List (Str × WalkEntry)

/-! ## `cmd/dockerfile_parser.go` -/

/-- Go `IsURL`. -/
def IsURL (s : Str) : Bool :=
  HasPrefix s "http://".toList || HasPrefix s "https://".toList

/-- The callback loop of `walkFiles`: an error visit stops the walk with
the paths collected so far, a directory adds nothing, a file is appended. -/
def walkLoop : List (Str × WalkEntry) → List Str → Result
  | [], out => (out, none)
  | (path, entry) :: visits, out =>
    match entry with
    | .err msg => (out, some (.lib msg))
    | .dir => walkLoop visits out
    | .file => walkLoop visits (out ++ [path])

/-- Go `walkFiles`. -/
def walkFiles (fs : FS) (dir : Str) : Result := walkLoop (fs.walk dir) []

/-- The loop over the glob matches in `ExpandSource`. -/
def globLoop (fs : FS) : List Str → List Str → Result
  | [], files => (files, none)
  | m :: ms, files =>
    match fs.stat m with
    | .err _ _ => globLoop fs ms files
    | .info isDir =>
      if isDir then
        match walkFiles fs m with
        | (_, some err) => ([], some err)
        | (sub, none) => globLoop fs ms (files ++ sub)
      else globLoop fs ms (files ++ [m])

/-- The test `err != nil || strings.HasPrefix(rel, "..")` of `ExpandSource`
on the outcome of `filepath.Rel`. -/
def relEscapes (rel : Option Str) : Bool :=
  match rel with
  | none => true
  | some r => HasPrefix r ['.', '.']

/-- Go `ExpandSource`. -/
def ExpandSource (fs : FS) (contextDir source : Str) : Result :=
  let source := Clean source
  if IsAbs source then
    ([], some (.errorf ("absolute source path not supported: ".toList ++ source)))
  else
    let pattern := Clean (Join contextDir source)
    if relEscapes (Rel contextDir pattern) then
      ([], some (.errorf ("source path escapes context: ".toList ++ source)))
    else if Contains source '*' then
      match fs.glob pattern with
      | .error msg => ([], some (.lib msg))
      | .ok found => globLoop fs found []
    else
      match fs.stat pattern with
      | .err isNotExist msg =>
        if isNotExist then
          ([], some (.errorf ("source not found: ".toList ++ source)))
        else ([], some (.lib msg))
      | .info isDir =>
        if isDir then walkFiles fs pattern else ([pattern], none)

/-- Go `RelativePathForUpload`; `none` is the error of `filepath.Rel`. -/
def RelativePathForUpload (contextDir absolutePath : Str) : Option Str :=
  match Rel contextDir absolutePath with
  | none => none
  | some rel => some (ToSlash rel)

/-- A quote character that opens a quoted token. -/
def isQuote (c : Char) : Bool := c = dquote || c = squote

/-- The loop of Go `tokenizeJSONArray`. -/
def jsonLoop : Nat → Str → List Str → Result
  | 0, _, tokens => (tokens, none)
  | fuel + 1, rest, tokens =>
    match TrimLeft rest [' ', '\t', ','] with
    | [] => (tokens, none)
    | c :: tl =>
      if c = ']' then (tokens, none)
      else if !isQuote c then
        ([], some (.errorf "expected quoted string in array".toList))
      else
        match IndexByte tl c with
        | none => ([], some (.errorf "unclosed quote".toList))
        | some e => jsonLoop fuel (tl.drop (e + 1)) (tokens ++ [tl.take e])

/-- Go `tokenizeJSONArray`. -/
def tokenizeJSONArray (rest : Str) : Result :=
  let rest := TrimSpace rest
  if !HasPrefix rest ['['] then ([], some (.errorf "not json array".toList))
  else
    let rest := TrimSpace (rest.drop 1)
    jsonLoop (rest.length + 1) rest []

/-- The shell-form loop of Go `TokenizeInstruction`. -/
def shellLoop : Nat → Str → List Str → Result
  | 0, _, tokens => (tokens, none)
  | fuel + 1, rest, tokens =>
    match TrimLeft rest [' ', '\t'] with
    | [] => (tokens, none)
    | c :: tl =>
      if isQuote c then
        match IndexByte tl c with
        | none => ([], some (.errorf "unclosed quote".toList))
        | some e => shellLoop fuel (tl.drop (e + 1)) (tokens ++ [tl.take e])
      else
        let i := ((c :: tl).takeWhile (fun x => x ≠ ' ' && x ≠ '\t')).length
        shellLoop fuel ((c :: tl).drop i) (tokens ++ [(c :: tl).take i])

/-- Go `TokenizeInstruction`. -/
def TokenizeInstruction (rest : Str) : Result :=
  if HasPrefix rest ['['] then tokenizeJSONArray rest
  else shellLoop (rest.length + 1) rest []

/-- After a line ending at `s[idx]`, the second character of a two-character
line ending is skipped: `if len(s) > 0 && (s[0] == '\n' || s[0] == '\r')`. -/
def skipLineEnd (s : Str) : Str :=
  match s with
  | [] => []
  | c :: cs => if c = '\n' ∨ c = '\r' then cs else c :: cs

/-- The continuation loop of `SplitDockerfileLines`
(`for strings.HasSuffix(line, "\\")`): the logical line and the remaining
input. -/
def joinContinued : Nat → Str → Str → Str × Str
  | 0, line, s => (line, s)
  | fuel + 1, line, s =>
    if HasSuffix line [backslash] then
      let line := TrimRight (TrimSuffix line [backslash]) [' ', '\t']
      match IndexAny s ['\n', '\r'] with
      | none => (line ++ ' ' :: TrimSpace s, [])
      | some next =>
        joinContinued fuel (line ++ ' ' :: TrimSpace (s.take next))
          (skipLineEnd (s.drop (next + 1)))
    else (line, s)

/-- The outer loop of `SplitDockerfileLines`. -/
def splitLoop : Nat → Str → List Str → List Str
  | 0, _, lines => lines
  | fuel + 1, s, lines =>
    match IndexAny s ['\n', '\r'] with
    | none =>
      let line := TrimSpace s
      if line ≠ [] then lines ++ [line] else lines
    | some idx =>
      let line := TrimRight (s.take idx) ['\r', '\n']
      let s := skipLineEnd (s.drop (idx + 1))
      match joinContinued (s.length + 1) line s with
      | (line, s) => splitLoop fuel s (lines ++ [TrimSpace line])

/-- Go `SplitDockerfileLines`. -/
def SplitDockerfileLines (content : Str) : List Str :=
  splitLoop (content.length + 1) content []

/-- Lines 15-27 of `ParseCOPYADDSources`: whether the logical line is a
`COPY` or `ADD` instruction, and then whether it is `ADD` (the test of
line 54) and its argument string. -/
def instruction (line : Str) : Option (Bool × Str) :=
  let line := TrimSpace line
  if line = [] ∨ HasPrefix line ['#'] then none
  else
    let upper := ToUpper line
    if !HasPrefix upper "COPY ".toList && !HasPrefix upper "ADD ".toList then none
    else
      match IndexByte line ' ' with
      | none => none
      | some idx =>
        some (HasPrefix (ToUpper line) "ADD ".toList, TrimSpace (line.drop (idx + 1)))

/-- Lines 39-50 of `ParseCOPYADDSources`: the flag filter over the candidate
sources. The Go loop compacts the kept tokens to the front of the slice it
ranges over and cuts the slice there; a token is always written at or before
the position it was read from, so the kept tokens are these. -/
def filterSources : List Str → List Str
  | [] => []
  | t :: ts =>
    if HasPrefix t ['-', '-'] then
      if HasPrefix (ToLower t) "--from=".toList then [] else filterSources ts
    else t :: filterSources ts

/-- Lines 32-56 of `ParseCOPYADDSources`: the source tokens of an instruction
that are handed to `ExpandSource`, from its tokens. -/
def sourcesOfTokens (isAdd : Bool) (tokens : List Str) : List Str :=
  if tokens.length < 2 then []
  else
    let sources := filterSources tokens.dropLast
    match sources with
    | [] => []
    | first :: _ => if isAdd && IsURL first then [] else sources

/-- Lines 15-56 of `ParseCOPYADDSources`: the source tokens of one logical
line that are handed to `ExpandSource`; none when the line is skipped. -/
def lineSources (line : Str) : List Str :=
  match instruction line with
  | none => []
  | some (isAdd, rest) =>
    match TokenizeInstruction rest with
    | (_, some _) => []
    | (tokens, none) => sourcesOfTokens isAdd tokens

/-- The accumulator of `ParseCOPYADDSources`: the keys of `seen` and the
slice `out`. -/
structure Acc where
  seen : List Str
  out : List Str
  deriving DecidableEq, Repr

/-- Lines 62-68 of `ParseCOPYADDSources`: the loop over the paths of one
source. -/
def addPaths : List Str → Acc → Acc
  | [], acc => acc
  | p :: ps, acc =>
    if p ∈ acc.seen then addPaths ps acc
    else addPaths ps ⟨p :: acc.seen, acc.out ++ [p]⟩

/-- Lines 57-69 of `ParseCOPYADDSources`: the loop over the sources of one
instruction; an error of `ExpandSource` ends the parse. -/
def expandSources (fs : FS) (contextDir : Str) : List Str → Acc → Except GoError Acc
  | [], acc => .ok acc
  | src :: srcs, acc =>
    match ExpandSource fs contextDir src with
    | (_, some err) => .error err
    | (absPaths, none) => expandSources fs contextDir srcs (addPaths absPaths acc)

/-- The loop over the logical lines of `ParseCOPYADDSources`. -/
def parseLoop (fs : FS) (contextDir : Str) : List Str → Acc → Result
  | [], acc => (acc.out, none)
  | line :: lines, acc =>
    match expandSources fs contextDir (lineSources line) acc with
    | .error err => ([], some err)
    | .ok acc => parseLoop fs contextDir lines acc

/-- Go `ParseCOPYADDSources`. -/
def ParseCOPYADDSources (fs : FS) (dockerfileContent contextDir : Str) : Result :=
  parseLoop fs contextDir (SplitDockerfileLines dockerfileContent) ⟨[], []⟩

/-- A file system for examples: `/ctx` holds the files `app.py`,
`requirements.txt`, `local.txt` and the directory `code` with `main.py`. -/
def fsDemo : FS where
  stat := fun p =>
    if p = "/ctx".toList ∨ p = "/ctx/code".toList then .info true
    else if p = "/ctx/app.py".toList ∨ p = "/ctx/requirements.txt".toList ∨
        p = "/ctx/local.txt".toList ∨ p = "/ctx/code/main.py".toList then .info false
    else .err true ("stat: no such file or directory".toList)
  glob := fun p =>
    if p = "/ctx/*.py".toList then .ok ["/ctx/app.py".toList] else .ok []
  walk := fun d =>
    if d = "/ctx/code".toList then
      [("/ctx/code".toList, .dir), ("/ctx/code/main.py".toList, .file)]
    else []

/-! ## Specification-side definitions -/

/-- A list of paths with every occurrence of a path after its first one
removed. -/
def keepFirst : List Str → List Str
  | [] => []
  | x :: xs => x :: (keepFirst xs).filter (fun y => y ≠ x)

/-- The path `p` is the directory `root` itself or lies beneath it: it
continues `root` after a separator. -/
def within (root p : Str) : Bool :=
  p = root || HasPrefix p (if root = ['/'] then root else root ++ ['/'])

/-- A token that is not a flag: it does not begin with `--`. -/
def nonFlag (t : Str) : Bool := !HasPrefix t ['-', '-']

/-- The three message prefixes of the errors `ExpandSource` makes itself. -/
def expandErrorPrefixes : List Str :=
  ["absolute source path not supported: ".toList, "source path escapes context: ".toList,
    "source not found: ".toList]

/-- The messages of the errors the tokenizer makes. -/
def tokenizeErrors : List GoError :=
  [.errorf "unclosed quote".toList, .errorf "expected quoted string in array".toList,
    .errorf "not json array".toList]

/-- The source tokens of a Dockerfile that are handed to `ExpandSource`, in
document order: instruction by instruction, and token by token within an
instruction. -/
def survivors (content : Str) : List Str :=
  (SplitDockerfileLines content).flatMap lineSources

/-- The paths `ExpandSource` returns for the tokens of a list, concatenated in
the order of the tokens. -/
def expandedPaths (fs : FS) (contextDir : Str) (tokens : List Str) : List Str :=
  tokens.flatMap (fun t => (ExpandSource fs contextDir t).1)

/-- The accumulator invariant: `out` has no duplicate and `seen` holds
exactly its elements. -/
def AccOk (acc : Acc) : Prop := acc.out.Nodup ∧ ∀ x, x ∈ acc.seen ↔ x ∈ acc.out

/-- The elements `filepath.Clean` writes for a rooted path: non-empty, neither
`.` nor `..`, without a separator. -/
def Canon (stk : List Str) : Prop :=
  ∀ seg ∈ stk, seg ≠ [] ∧ seg ≠ ['.'] ∧ seg ≠ ['.', '.'] ∧ '/' ∉ seg

/-- The elements `filepath.Clean` writes for a relative path: non-empty, not
`.`, without a separator (`..` may occur). -/
def RelCanon (stk : List Str) : Prop :=
  ∀ seg ∈ stk, seg ≠ [] ∧ seg ≠ ['.'] ∧ '/' ∉ seg

/-- The first whitespace-delimited word of a logical line. -/
def firstWord (line : Str) : Str := (TrimSpace line).takeWhile (fun c => !isSpace c)

/-- A logical line that is empty, starts with `#`, or whose first word is
neither `COPY` nor `ADD` in any letter case. -/
def ignorable (line : Str) : Bool :=
  TrimSpace line = [] || HasPrefix (TrimSpace line) ['#'] ||
    (ToUpper (firstWord line) != "COPY".toList && ToUpper (firstWord line) != "ADD".toList)

/-- The three line endings. -/
def lineEndings : List Str := [['\n'], ['\r'], ['\r', '\n']]

/-- A physical line that holds no line-ending character, is not blank after
trimming and does not end in a backslash. -/
def plainLine (l : Str) : Bool :=
  l.all (fun c => c != '\n' && c != '\r') && TrimSpace l != [] && !HasSuffix l [backslash]

/-- Physical lines, each followed by its line ending, and then a last line
without line ending (empty when the text ends with a line ending). -/
def joinPhysical (ls : List (Str × Str)) (last : Str) : Str :=
  ls.flatMap (fun p => p.1 ++ p.2) ++ last

/-- The text does not begin with a line-ending character. -/
def startsLine (s : Str) : Bool :=
  match s with
  | [] => true
  | c :: _ => c != '\n' && c != '\r'

/-- A text that holds no line-ending character. -/
def noLineEnd (l : Str) : Bool := l.all (fun c => c != '\n' && c != '\r')

/-- What the line joiner keeps of a continued physical line, given without
its final backslash: leading whitespace and trailing spaces and tabs are
removed. -/
def piece (a : Str) : Str := TrimRight (a.dropWhile isSpace) [' ', '\t']

/-- The text of the continued lines after the first one: each physical line
is given without its final backslash and with the line ending that follows
the backslash. -/
def continuedText (middle : List (Str × Str)) : Str :=
  middle.flatMap (fun p => p.1 ++ backslash :: p.2)

/-- A run of continued physical lines: `first` and the lines of `middle` end
in a backslash (they are given without it, with their line ending), and
`lastLine` ends the run. -/
def continuedRun (first : Str × Str) (middle : List (Str × Str)) (lastLine : Str) : Str :=
  first.1 ++ backslash :: first.2 ++ (continuedText middle ++ lastLine)

/-- The pieces of a run joined by one space each. -/
def joinedRun (first : Str × Str) (middle : List (Str × Str)) (lastLine : Str) : Str :=
  piece first.1 ++ middle.flatMap (fun p => ' ' :: piece p.1) ++ ' ' :: TrimSpace lastLine

/-- A space or a tab. -/
def isBlank (c : Char) : Bool := c = ' ' || c = '\t'

/-- A shell-form token as it is written: bare, or between two quote
characters of the same kind. -/
inductive ShellTok where
  | bare (s : Str)
  | quoted (q : Char) (content : Str)
  deriving DecidableEq, Repr

/-- The text of a shell-form token. -/
def ShellTok.text : ShellTok → Str
  | .bare s => s
  | .quoted q content => q :: content ++ [q]

/-- The content of a shell-form token: the text itself, or the text between
the quotes. -/
def ShellTok.value : ShellTok → Str
  | .bare s => s
  | .quoted _ content => content

/-- A bare token is non-empty, holds no space or tab and does not start with
a quote character; a quoted token is written with a quote character that
its content does not hold. -/
def ShellTok.wellFormed : ShellTok → Bool
  | .bare s =>
    (match s with
      | [] => false
      | c :: _ => !isQuote c) && s.all (fun c => !isBlank c)
  | .quoted q content => isQuote q && !content.contains q

/-- A run of one or more spaces and tabs. -/
def blankRun (sep : Str) : Bool := sep != [] && sep.all isBlank

/-- Tokens joined by separators: the first token, then each further token
after its separator. -/
def shellText (first : ShellTok) (more : List (Str × ShellTok)) : Str :=
  first.text ++ more.flatMap (fun p => p.1 ++ p.2.text)

/-- The text is empty or begins with a space or a tab. -/
def endsToken (r : Str) : Bool :=
  match r with
  | [] => true
  | c :: _ => isBlank c

/-- A character skipped between the entries of an exec-form array: space, tab
or comma. -/
def isSeparator (c : Char) : Bool := c = ' ' || c = '\t' || c = ','

/-- An entry of an exec-form array as it is written: the separators before
it, its quote character and its content. -/
structure ExecItem where
  sep : Str
  quote : Char
  content : Str
  deriving DecidableEq, Repr

/-- The text of an entry with the separators before it. -/
def ExecItem.text (i : ExecItem) : Str := i.sep ++ i.quote :: i.content ++ [i.quote]

/-- The separators are spaces, tabs and commas, the quote is a quote
character and the content does not hold it. -/
def ExecItem.wellFormed (i : ExecItem) : Bool :=
  i.sep.all isSeparator && isQuote i.quote && !i.content.contains i.quote

/-- The entries and the closing bracket, after the separators `fin`. -/
def execBody (items : List ExecItem) (fin : Str) : Str :=
  items.flatMap ExecItem.text ++ fin ++ [']']

/-- An exec-form array. -/
def execText (items : List ExecItem) (fin : Str) : Str := '[' :: execBody items fin

/-- Scanning a shell-form text from the left, token by token, reaches a token
that opens with a quote character which has no later occurrence. A quoted
token ends at the first later occurrence of its quote character, a bare
token at the next space or tab. -/
inductive ShellUnclosed : Str → Prop
  | here (r : Str) (q : Char) (tl : Str) :
      r.dropWhile isBlank = q :: tl → isQuote q = true → q ∉ tl → ShellUnclosed r
  | afterQuoted (r : Str) (q : Char) (content after : Str) :
      r.dropWhile isBlank = q :: (content ++ q :: after) → isQuote q = true → q ∉ content →
      ShellUnclosed after → ShellUnclosed r
  | afterBare (r : Str) (c : Char) (tl : Str) :
      r.dropWhile isBlank = c :: tl → isQuote c = false →
      ShellUnclosed ((c :: tl).dropWhile (fun x => !isBlank x)) → ShellUnclosed r

/-- Scanning the entries of an exec-form array from the left reaches an entry
that opens with a quote character which has no later occurrence. The scan
ends at `]` or at the end of the text. -/
inductive ExecUnclosed : Str → Prop
  | here (r : Str) (q : Char) (tl : Str) :
      r.dropWhile isSeparator = q :: tl → isQuote q = true → q ∉ tl → ExecUnclosed r
  | afterEntry (r : Str) (q : Char) (content after : Str) :
      r.dropWhile isSeparator = q :: (content ++ q :: after) → isQuote q = true →
      q ∉ content → ExecUnclosed after → ExecUnclosed r

/-- Scanning the entries of an exec-form array from the left reaches an entry
that starts with neither a quote character nor `]`. -/
inductive ExecUnquoted : Str → Prop
  | here (r : Str) (c : Char) (tl : Str) :
      r.dropWhile isSeparator = c :: tl → c ≠ ']' → isQuote c = false → ExecUnquoted r
  | afterEntry (r : Str) (q : Char) (content after : Str) :
      r.dropWhile isSeparator = q :: (content ++ q :: after) → isQuote q = true →
      q ∉ content → ExecUnquoted after → ExecUnquoted r

/-- The text whose entries are scanned in exec form: what follows the opening
bracket of the trimmed argument string, trimmed. -/
def execScanned (rest : Str) : Str := TrimSpace ((TrimSpace rest).drop 1)

/-- The path `p` lies beneath the directory `root`: it is within `root` and
is not `root` itself. -/
def beneath (root p : Str) : Bool := within root p && (p != root)

/-- A file system in which the context root `/ctx` is a regular file. -/
def fsRootFile : FS where
  stat := fun p =>
    if p = "/ctx".toList then .info false
    else .err true ("stat: no such file or directory".toList)
  glob := fun _ => .ok []
  walk := fun _ => []

/-- A file system in which the context root `/ctx` is a symbolic link to a
directory that holds `app.py`: `os.Stat` follows the link and reports a
directory, while `filepath.Walk` examines its root with `os.Lstat`, finds a
link rather than a directory, and visits it as a single file. -/
def fsRootLink : FS where
  stat := fun p =>
    if p = "/ctx".toList then .info true
    else if p = "/ctx/app.py".toList then .info false
    else .err true ("stat: no such file or directory".toList)
  glob := fun p =>
    if p = "/ctx/*.py".toList then .ok ["/ctx/app.py".toList] else .ok []
  walk := fun d =>
    if d = "/ctx".toList then [("/ctx".toList, .file)] else []

/-! ## The accumulator -/

theorem mem_keepFirst (l : List Str) (x : Str) : x ∈ keepFirst l ↔ x ∈ l := by
  induction l with
  | nil => simp [keepFirst]
  | cons a l ih =>
    simp only [keepFirst, List.mem_cons, List.mem_filter, ih]
    by_cases h : x = a <;> simp [h]

theorem nodup_keepFirst (l : List Str) : (keepFirst l).Nodup := by
  induction l with
  | nil => simp [keepFirst]
  | cons a l ih =>
    simp only [keepFirst, List.nodup_cons]
    exact ⟨by simp [List.mem_filter], ih.filter _⟩

theorem keepFirst_append (a b : List Str) :
    keepFirst (a ++ b) = keepFirst a ++ (keepFirst b).filter (fun y => y ∉ a) := by
  induction a with
  | nil => simp [keepFirst]
  | cons x a ih =>
    rw [List.cons_append, keepFirst, keepFirst, ih, List.filter_append, List.filter_filter,
      List.cons_append]
    congr 2
    apply List.filter_congr
    intro y _
    by_cases h : y = x <;> simp [h]

theorem addPaths_spec (ps : List Str) (acc : Acc) (h : AccOk acc) :
    AccOk (addPaths ps acc) ∧
      (addPaths ps acc).out = acc.out ++ (keepFirst ps).filter (fun y => y ∉ acc.out) := by
  induction ps generalizing acc with
  | nil => simp [addPaths, keepFirst, h]
  | cons p ps ih =>
    by_cases hp : p ∈ acc.seen
    · have hpo : p ∈ acc.out := (h.2 p).1 hp
      obtain ⟨h1, h2⟩ := ih acc h
      simp only [addPaths, hp, if_true]
      refine ⟨h1, ?_⟩
      rw [h2]
      simp only [keepFirst, List.filter_cons, hpo, not_true_eq_false, decide_False,
        List.filter_filter]
      congr 1
      apply List.filter_congr
      intro y _
      by_cases hy : y = p <;> simp [hy, hpo]
    · have hpo : p ∉ acc.out := fun hc => hp ((h.2 p).2 hc)
      have hok : AccOk ⟨p :: acc.seen, acc.out ++ [p]⟩ := by
        refine ⟨?_, ?_⟩
        · simp only [List.nodup_append, List.nodup_singleton, true_and]
          exact ⟨h.1, by simpa [List.disjoint_singleton] using hpo⟩
        · intro x
          simp only [List.mem_cons, List.mem_append, List.mem_singleton, h.2 x]
          tauto
      obtain ⟨h1, h2⟩ := ih _ hok
      simp only [addPaths, hp, if_false]
      refine ⟨h1, ?_⟩
      rw [h2]
      simp only [keepFirst, List.filter_cons, hpo, not_false_eq_true, decide_True, if_true,
        List.filter_filter, List.append_assoc, List.singleton_append]
      congr 2
      apply List.filter_congr
      intro y _
      by_cases hy : y = p <;> simp [hy, hpo]

theorem expandSources_append (fs : FS) (ctx : Str) (a b : List Str) (acc : Acc) :
    expandSources fs ctx (a ++ b) acc =
      (match expandSources fs ctx a acc with
        | .error err => .error err
        | .ok acc1 => expandSources fs ctx b acc1) := by
  induction a generalizing acc with
  | nil => simp [expandSources]
  | cons t a ih =>
    simp only [List.cons_append, expandSources]
    rcases hE : ExpandSource fs ctx t with ⟨ps, _ | err⟩
    · simp [ih]
    · simp

theorem parseLoop_eq (fs : FS) (ctx : Str) (lines : List Str) (acc : Acc) :
    parseLoop fs ctx lines acc =
      (match expandSources fs ctx (lines.flatMap lineSources) acc with
        | .error err => ([], some err)
        | .ok acc1 => (acc1.out, none)) := by
  induction lines generalizing acc with
  | nil => simp [parseLoop, expandSources]
  | cons l lines ih =>
    simp only [parseLoop, List.flatMap_cons, expandSources_append]
    rcases hE : expandSources fs ctx (lineSources l) acc with err | acc1
    · simp
    · simp [ih]

theorem ParseCOPYADDSources_eq (fs : FS) (content ctx : Str) :
    ParseCOPYADDSources fs content ctx =
      (match expandSources fs ctx (survivors content) ⟨[], []⟩ with
        | .error err => ([], some err)
        | .ok acc1 => (acc1.out, none)) := by
  simp [ParseCOPYADDSources, survivors, parseLoop_eq]

theorem expandSources_ok (fs : FS) (ctx : Str) (toks : List Str) (acc acc1 : Acc)
    (h : AccOk acc) (hE : expandSources fs ctx toks acc = .ok acc1) :
    AccOk acc1 ∧
      acc1.out = acc.out ++
        (keepFirst (expandedPaths fs ctx toks)).filter (fun y => y ∉ acc.out) := by
  induction toks generalizing acc with
  | nil =>
    simp only [expandSources, Except.ok.injEq] at hE
    subst hE
    simp [expandedPaths, keepFirst, h]
  | cons t toks ih =>
    simp only [expandSources] at hE
    rcases hX : ExpandSource fs ctx t with ⟨ps, _ | err⟩
    · rw [hX] at hE
      simp only at hE
      obtain ⟨hok, hout⟩ := addPaths_spec ps acc h
      obtain ⟨h1, h2⟩ := ih _ hok hE
      refine ⟨h1, ?_⟩
      rw [h2, hout]
      have hexp : expandedPaths fs ctx (t :: toks) = ps ++ expandedPaths fs ctx toks := by
        simp [expandedPaths, hX]
      rw [hexp, keepFirst_append, List.filter_append, List.filter_filter, List.append_assoc]
      congr 2
      apply List.filter_congr
      intro y _
      simp only [List.mem_append, List.mem_filter, mem_keepFirst, decide_eq_true_eq,
        Bool.decide_and, Bool.decide_eq_true, not_or, not_and, not_not]
      by_cases hy : y ∈ acc.out <;> by_cases hy2 : y ∈ ps <;> simp [hy, hy2]
    · rw [hX] at hE
      simp at hE

theorem expandSources_error (fs : FS) (ctx : Str) (pre : List Str) (t : Str)
    (post ps : List Str) (err : GoError) (acc : Acc)
    (hpre : ∀ s ∈ pre, (ExpandSource fs ctx s).2 = none)
    (ht : ExpandSource fs ctx t = (ps, some err)) :
    expandSources fs ctx (pre ++ t :: post) acc = .error err := by
  induction pre generalizing acc with
  | nil => simp [expandSources, ht]
  | cons s pre ih =>
    have hs := hpre s (List.mem_cons_self _ _)
    rcases hX : ExpandSource fs ctx s with ⟨qs, _ | e⟩
    · simp only [List.cons_append, expandSources, hX]
      exact ih _ (fun s1 h1 => hpre s1 (List.mem_cons_of_mem _ h1))
    · rw [hX] at hs
      simp at hs

/-! ## Path elements -/

theorem splitSlash_ne_nil (s : Str) : splitSlash s ≠ [] := by
  cases s with
  | nil => simp [splitSlash]
  | cons c cs =>
    simp only [splitSlash]
    split
    · simp
    · split <;> simp

theorem joinSlash_cons_cons (a b : Str) (l : List Str) :
    joinSlash (a :: b :: l) = a ++ '/' :: joinSlash (b :: l) := rfl

theorem joinSlash_cons_of_ne_nil (a : Str) (l : List Str) (h : l ≠ []) :
    joinSlash (a :: l) = a ++ '/' :: joinSlash l := by
  cases l with
  | nil => exact absurd rfl h
  | cons b l => rfl

theorem joinSlash_splitSlash (s : Str) : joinSlash (splitSlash s) = s := by
  induction s with
  | nil => rfl
  | cons c cs ih =>
    simp only [splitSlash]
    split
    · next hc =>
      rw [joinSlash_cons_of_ne_nil _ _ (splitSlash_ne_nil cs), ih, hc]
      rfl
    · split
      · next h => exact absurd h (splitSlash_ne_nil cs)
      · next x xs h =>
        rw [h] at ih
        cases xs with
        | nil => simpa [joinSlash] using ih
        | cons y ys =>
          rw [joinSlash_cons_cons] at ih ⊢
          simp [← ih]

theorem splitSlash_noSlash (s : Str) : ∀ seg ∈ splitSlash s, '/' ∉ seg := by
  induction s with
  | nil => simp [splitSlash]
  | cons c cs ih =>
    simp only [splitSlash]
    split
    · intro seg hseg
      rcases List.mem_cons.1 hseg with h | h
      · simp [h]
      · exact ih seg h
    · next hc =>
      split
      · next h => exact absurd h (splitSlash_ne_nil cs)
      · next x xs h =>
        rw [h] at ih
        intro seg hseg
        rcases List.mem_cons.1 hseg with h1 | h1
        · subst h1
          have := ih x (List.mem_cons_self _ _)
          simp only [List.mem_cons, not_or]
          exact ⟨fun e => hc e.symm, this⟩
        · exact ih seg (List.mem_cons_of_mem _ h1)

theorem splitSlash_of_noSlash (seg : Str) (h : '/' ∉ seg) : splitSlash seg = [seg] := by
  induction seg with
  | nil => rfl
  | cons c cs ih =>
    simp only [List.mem_cons, not_or] at h
    have hc : c ≠ '/' := fun e => h.1 e.symm
    simp [splitSlash, hc, ih h.2]

theorem splitSlash_append_slash (a b : Str) :
    splitSlash (a ++ '/' :: b) = splitSlash a ++ splitSlash b := by
  induction a with
  | nil => simp [splitSlash]
  | cons c cs ih =>
    by_cases hc : c = '/'
    · simp [splitSlash, hc, ih]
    · rw [List.cons_append]
      simp only [splitSlash, hc, if_false]
      rw [ih]
      rcases h : splitSlash cs with _ | ⟨x, xs⟩
      · exact absurd h (splitSlash_ne_nil cs)
      · simp

theorem splitSlash_joinSlash (l : List Str) (hne : l ≠ [])
    (h : ∀ seg ∈ l, '/' ∉ seg) : splitSlash (joinSlash l) = l := by
  induction l with
  | nil => exact absurd rfl hne
  | cons a l ih =>
    cases l with
    | nil => simpa [joinSlash] using splitSlash_of_noSlash a (h a (List.mem_cons_self _ _))
    | cons b l =>
      rw [joinSlash_cons_cons, splitSlash_append_slash,
        splitSlash_of_noSlash a (h a (List.mem_cons_self _ _)),
        ih (by simp) (fun seg hs => h seg (List.mem_cons_of_mem _ hs))]
      rfl

theorem joinSlash_append (a b : List Str) (ha : a ≠ []) (hb : b ≠ []) :
    joinSlash (a ++ b) = joinSlash a ++ '/' :: joinSlash b := by
  induction a with
  | nil => exact absurd rfl ha
  | cons x a ih =>
    cases a with
    | nil =>
      simp only [List.singleton_append]
      rw [joinSlash_cons_of_ne_nil _ _ hb]
      rfl
    | cons y a =>
      rw [List.cons_append, List.cons_append, joinSlash_cons_cons, ← List.cons_append,
        ih (by simp), joinSlash_cons_cons]
      simp

theorem cleanElems_append (r : Bool) (a b stk : List Str) :
    cleanElems r (a ++ b) stk = cleanElems r b (cleanElems r a stk) := by
  induction a generalizing stk with
  | nil => rfl
  | cons x a ih => simp [cleanElems, ih]

theorem cleanStep_canon (stk : List Str) (seg : Str) (h : Canon stk) (hs : '/' ∉ seg) :
    Canon (cleanStep true stk seg) := by
  unfold cleanStep
  split
  · exact h
  · split
    · exact h
    · split
      · cases stk with
        | nil => simpa using h
        | cons top below =>
          have htop := (h top (List.mem_cons_self _ _)).2.2.1
          simp only [htop, if_false]
          exact fun seg hseg => h seg (List.mem_cons_of_mem _ hseg)
      · next h1 h2 h3 =>
        intro x hx
        rcases List.mem_cons.1 hx with e | e
        · subst e
          exact ⟨h1, h2, h3, hs⟩
        · exact h x e

theorem cleanElems_canon (segs stk : List Str) (h : Canon stk)
    (hs : ∀ seg ∈ segs, '/' ∉ seg) : Canon (cleanElems true segs stk) := by
  induction segs generalizing stk with
  | nil => exact h
  | cons x segs ih =>
    exact ih _ (cleanStep_canon stk x h (hs x (List.mem_cons_self _ _)))
      (fun seg hseg => hs seg (List.mem_cons_of_mem _ hseg))

theorem cleanElems_of_canon (l stk : List Str) (h : Canon l) :
    cleanElems true l stk = l.reverse ++ stk := by
  induction l generalizing stk with
  | nil => rfl
  | cons x l ih =>
    obtain ⟨h1, h2, h3, _⟩ := h x (List.mem_cons_self _ _)
    simp only [cleanElems, cleanStep, h1, h2, h3, if_false]
    rw [ih _ (fun seg hseg => h seg (List.mem_cons_of_mem _ hseg))]
    simp

theorem Clean_rooted_eq (path : Str) (h : path.head? = some '/') :
    Clean path = '/' :: joinSlash (cleanElems true (splitSlash path) []).reverse := by
  have hne : path ≠ [] := by
    intro e
    simp [e] at h
  simp [Clean, hne, h]

theorem Clean_idem_rooted (path : Str) (h : path.head? = some '/') :
    Clean (Clean path) = Clean path := by
  rw [Clean_rooted_eq path h]
  have hcanon : Canon (cleanElems true (splitSlash path) []) :=
    cleanElems_canon _ _ (by simp [Canon]) (splitSlash_noSlash path)
  generalize cleanElems true (splitSlash path) [] = stk at hcanon
  rw [Clean_rooted_eq _ (by simp)]
  congr 2
  by_cases hstk : stk = []
  · subst hstk
    decide
  · have hr : Canon stk.reverse := fun seg hseg => hcanon seg (List.mem_reverse.1 hseg)
    have hsp : splitSlash ('/' :: joinSlash stk.reverse) = [] :: stk.reverse := by
      have := splitSlash_joinSlash stk.reverse (by simpa using hstk)
        (fun seg hseg => (hr seg hseg).2.2.2)
      simp [splitSlash, this]
    rw [hsp]
    simp only [cleanElems, cleanStep, if_true]
    rw [cleanElems_of_canon _ _ hr]
    simp

theorem IsAbs_iff (p : Str) : IsAbs p = true ↔ p.head? = some '/' := by
  cases p with
  | nil => simp [IsAbs, HasPrefix, List.isPrefixOf]
  | cons c cs =>
    by_cases hc : c = '/'
    · subst hc
      simp [IsAbs, HasPrefix, List.isPrefixOf]
    · have hc2 : ¬ '/' = c := fun e => hc e.symm
      simp [IsAbs, HasPrefix, List.isPrefixOf, hc, hc2]

theorem Clean_isAbs_of_isAbs (p : Str) (h : IsAbs p = true) : IsAbs (Clean p) = true := by
  rw [Clean_rooted_eq p ((IsAbs_iff p).1 h)]
  simp [IsAbs, HasPrefix, List.isPrefixOf]

/-! ## Containment -/

theorem HasPrefix_iff (s pre : Str) : HasPrefix s pre = true ↔ pre <+: s := by
  simp [HasPrefix, List.isPrefixOf_iff_prefix]

theorem within_iff (root p : Str) :
    within root p = true ↔
      p = root ∨ (if root = ['/'] then root else root ++ ['/']) <+: p := by
  simp [within, HasPrefix_iff]

theorem within_refl (root : Str) : within root root = true := by
  simp [within]

theorem dirPrefix_self (b : Str) : b <+: (if b = ['/'] then b else b ++ ['/']) := by
  split
  · exact List.prefix_refl b
  · exact List.prefix_append b _

theorem within_trans (a b c : Str) (hab : within a b = true) (hbc : within b c = true) :
    within a c = true := by
  rw [within_iff] at hab hbc ⊢
  rcases hbc with rfl | hbc
  · exact hab
  · rcases hab with rfl | hab
    · exact Or.inr hbc
    · exact Or.inr (hab.trans ((dirPrefix_self b).trans hbc))

theorem within_isAbs (root p : Str) (hroot : IsAbs root = true) (h : within root p = true) :
    IsAbs p = true := by
  rw [within_iff] at h
  rw [IsAbs, HasPrefix_iff] at hroot ⊢
  rcases h with rfl | h
  · exact hroot
  · exact (hroot.trans (dirPrefix_self root)).trans h

theorem relLoop_nil (bs ts rest : List Str) (st : Bool)
    (h : relLoop bs ts = ([], rest, st)) : ts = bs ++ rest := by
  induction bs generalizing ts with
  | nil =>
    cases ts <;> simp [relLoop] at h <;> simp [h.1]
  | cons b bs ih =>
    cases ts with
    | nil => simp [relLoop] at h
    | cons t ts =>
      simp only [relLoop] at h
      split at h
      · next e => rw [ih ts h, e]; rfl
      · simp at h

theorem upDirs_prefix (n : Nat) (hn : n ≠ 0) (x : Str) :
    HasPrefix (upDirs n ++ x) ['.', '.'] = true := by
  cases n with
  | zero => exact absurd rfl hn
  | succ n =>
    cases n with
    | zero => simp [upDirs, HasPrefix, List.isPrefixOf]
    | succ n => simp [upDirs, HasPrefix, List.isPrefixOf]

theorem within_of_not_relEscapes (root targ : Str) (hroot : IsAbs root = true)
    (hclean : Clean root = root) (htarg : IsAbs targ = true) (hct : Clean targ = targ)
    (h : relEscapes (Rel root targ) = false) : within root targ = true := by
  have hr := (IsAbs_iff root).1 hroot
  have ht := (IsAbs_iff targ).1 htarg
  by_cases heq : targ = root
  · rw [heq]; exact within_refl root
  have hdot : root ≠ ['.'] := by
    intro e
    rw [e] at hr
    simp at hr
  rw [within_iff]
  right
  by_cases hslash : root = ['/']
  · simp only [hslash, if_true]
    rw [← HasPrefix_iff]
    exact htarg
  simp only [hslash, if_false]
  have hrne : root ≠ [] := by
    intro e
    rw [e] at hr
    simp at hr
  have htne : targ ≠ [] := by
    intro e
    rw [e] at ht
    simp at ht
  simp only [Rel, hclean, hct, heq, hdot, if_false, hr, ht, ne_eq, not_true_eq_false] at h
  rcases hloop : relLoop (relElems root) (relElems targ) with ⟨bs, ts, st⟩
  rw [hloop] at h
  simp only at h
  split at h
  · simp [relEscapes] at h
  · split at h
    · next hbs =>
      have hlen : bs.length ≠ 0 := by simpa using hbs
      simp [relEscapes, upDirs_prefix _ hlen] at h
    · next hbs =>
      have hbs0 : bs = [] := by simpa using hbs
      subst hbs0
      have hel := relLoop_nil _ _ _ _ hloop
      have hre : relElems root = splitSlash root := by simp [relElems, hrne, hslash]
      rw [hre] at hel
      have hte : relElems targ = splitSlash targ := by
        by_cases h1 : targ = ['/']
        · exfalso
          have h2 : relElems targ = [[]] := by rw [h1]; decide
          rw [h2] at hel
          rcases hsp : splitSlash root with _ | ⟨x, xs⟩
          · exact splitSlash_ne_nil root hsp
          · rw [hsp] at hel
            simp only [List.cons_append, List.cons.injEq] at hel
            have hxs : xs = [] := (List.append_eq_nil.1 hel.2.symm).1
            have hx : x = [] := hel.1.symm
            have := joinSlash_splitSlash root
            rw [hsp, hxs, hx] at this
            exact hrne this.symm
        · simp [relElems, htne, h1]
      rw [hte] at hel
      have hj := joinSlash_splitSlash targ
      rw [hel] at hj
      by_cases hts : ts = []
      · subst hts
        rw [List.append_nil, joinSlash_splitSlash] at hj
        exact absurd hj.symm heq
      · rw [joinSlash_append _ _ (splitSlash_ne_nil root) hts, joinSlash_splitSlash] at hj
        rw [← hj]
        simp

theorem append_slash_head (root src : Str) (hroot : IsAbs root = true) :
    (root ++ '/' :: src).head? = some '/' := by
  have hr := (IsAbs_iff root).1 hroot
  cases root with
  | nil => simp at hr
  | cons c cs => simpa using hr

theorem Join_eq (root src : Str) (hroot : IsAbs root = true) :
    Join root src = Clean (root ++ '/' :: src) := by
  have hr := (IsAbs_iff root).1 hroot
  have hrne : root ≠ [] := by
    intro e
    rw [e] at hr
    simp at hr
  simp [Join, hrne]

theorem pattern_eq (root src : Str) (hroot : IsAbs root = true) :
    Clean (Join root src) = Clean (root ++ '/' :: src) := by
  rw [Join_eq root src hroot]
  exact Clean_idem_rooted _ (append_slash_head root src hroot)

theorem pattern_isAbs (root src : Str) (hroot : IsAbs root = true) :
    IsAbs (Clean (Join root src)) = true := by
  rw [pattern_eq root src hroot]
  exact Clean_isAbs_of_isAbs _ ((IsAbs_iff _).2 (append_slash_head root src hroot))

theorem pattern_clean (root src : Str) (hroot : IsAbs root = true) :
    Clean (Clean (Join root src)) = Clean (Join root src) := by
  rw [pattern_eq root src hroot]
  exact Clean_idem_rooted _ (append_slash_head root src hroot)

theorem pattern_within (root src : Str) (hroot : IsAbs root = true)
    (hclean : Clean root = root)
    (h : relEscapes (Rel root (Clean (Join root src))) = false) :
    within root (Clean (Join root src)) = true :=
  within_of_not_relEscapes root _ hroot hclean (pattern_isAbs root src hroot)
    (pattern_clean root src hroot) h

/-! ## Cleaning a relative token before joining it -/

theorem cleanStep_relCanon (stk : List Str) (seg : Str) (h : RelCanon stk)
    (hs : '/' ∉ seg) : RelCanon (cleanStep false stk seg) := by
  unfold cleanStep
  split
  · exact h
  · split
    · exact h
    · next h1 h2 =>
      have hpush : RelCanon (seg :: stk) := by
        intro x hx
        rcases List.mem_cons.1 hx with e | e
        · subst e
          exact ⟨h1, h2, hs⟩
        · exact h x e
      split
      · cases stk with
        | nil =>
          intro x hx
          simp only [Bool.false_eq_true, if_false, List.mem_singleton] at hx
          subst hx
          exact ⟨h1, h2, hs⟩
        | cons top below =>
          simp only [Bool.false_eq_true, if_false]
          split
          · exact hpush
          · exact fun x hx => h x (List.mem_cons_of_mem _ hx)
      · exact hpush

theorem cleanElems_relCanon (segs stk : List Str) (h : RelCanon stk)
    (hs : ∀ seg ∈ segs, '/' ∉ seg) : RelCanon (cleanElems false segs stk) := by
  induction segs generalizing stk with
  | nil => exact h
  | cons x segs ih =>
    exact ih _ (cleanStep_relCanon stk x h (hs x (List.mem_cons_self _ _)))
      (fun seg hseg => hs seg (List.mem_cons_of_mem _ hseg))

theorem cleanStep_sim (stk0 stk : List Str) (seg : Str) (h : RelCanon stk0) :
    cleanStep true (cleanElems true stk0.reverse stk) seg =
      cleanElems true (cleanStep false stk0 seg).reverse stk := by
  have hpush : cleanStep true (cleanElems true stk0.reverse stk) seg =
      cleanElems true (seg :: stk0).reverse stk := by
    rw [List.reverse_cons, cleanElems_append]
    rfl
  by_cases h1 : seg = []
  · simp [cleanStep, h1]
  by_cases h2 : seg = ['.']
  · simp [cleanStep, h2]
  by_cases h3 : seg = ['.', '.']
  · cases stk0 with
    | nil =>
      subst h3
      simp [cleanStep, cleanElems]
    | cons top below =>
      by_cases ht : top = ['.', '.']
      · rw [hpush]
        simp [cleanStep, h3, ht]
      · obtain ⟨t1, t2, _⟩ := h top (List.mem_cons_self _ _)
        have e : cleanStep false (top :: below) seg = below := by
          simp [cleanStep, h3, ht]
        rw [e, List.reverse_cons, cleanElems_append]
        subst h3
        simp [cleanElems, cleanStep, t1, t2, ht]
  · rw [hpush]
    simp [cleanStep, h1, h2, h3]

theorem cleanElems_sim (segs stk0 stk : List Str) (h : RelCanon stk0)
    (hs : ∀ seg ∈ segs, '/' ∉ seg) :
    cleanElems true segs (cleanElems true stk0.reverse stk) =
      cleanElems true (cleanElems false segs stk0).reverse stk := by
  induction segs generalizing stk0 with
  | nil => rfl
  | cons x segs ih =>
    simp only [cleanElems]
    rw [cleanStep_sim stk0 stk x h]
    exact ih _ (cleanStep_relCanon stk0 x h (hs x (List.mem_cons_self _ _)))
      (fun seg hseg => hs seg (List.mem_cons_of_mem _ hseg))

theorem Clean_relative_eq (tok : Str) (hne : tok ≠ []) (h : IsAbs tok = false) :
    Clean tok =
      (if cleanElems false (splitSlash tok) [] = [] then ['.']
       else joinSlash (cleanElems false (splitSlash tok) []).reverse) := by
  have hh : ¬ tok.head? = some '/' := by
    intro e
    rw [(IsAbs_iff tok).2 e] at h
    exact Bool.noConfusion h
  simp [Clean, hne, hh]

theorem cleanElems_Clean (tok : Str) (stk : List Str) (h : IsAbs tok = false) :
    cleanElems true (splitSlash (Clean tok)) stk = cleanElems true (splitSlash tok) stk := by
  by_cases hne : tok = []
  · subst hne
    simp [Clean, splitSlash, cleanElems, cleanStep]
  · have hsim := cleanElems_sim (splitSlash tok) [] stk (by simp [RelCanon])
      (splitSlash_noSlash tok)
    simp only [List.reverse_nil, cleanElems] at hsim
    rw [hsim, Clean_relative_eq tok hne h]
    have hcanon : RelCanon (cleanElems false (splitSlash tok) []) :=
      cleanElems_relCanon _ _ (by simp [RelCanon]) (splitSlash_noSlash tok)
    generalize cleanElems false (splitSlash tok) [] = S at hcanon
    by_cases hS : S = []
    · subst hS
      simp [splitSlash, cleanElems, cleanStep]
    · simp only [hS, if_false]
      rw [splitSlash_joinSlash S.reverse (by simpa using hS)
        (fun seg hseg => (hcanon seg (List.mem_reverse.1 hseg)).2.2)]

theorem Clean_join_Clean (root tok : Str) (hroot : IsAbs root = true)
    (h : IsAbs tok = false) : Clean (Join root (Clean tok)) = Clean (Join root tok) := by
  rw [pattern_eq root _ hroot, pattern_eq root _ hroot,
    Clean_rooted_eq _ (append_slash_head root _ hroot),
    Clean_rooted_eq _ (append_slash_head root _ hroot),
    splitSlash_append_slash, splitSlash_append_slash, cleanElems_append, cleanElems_append,
    cleanElems_Clean tok _ h]

theorem joinSlash_head (x : Str) (l : List Str) (c : Char) (cs : Str) (hx : x = c :: cs) :
    (joinSlash (x :: l)).head? = some c := by
  subst hx
  cases l with
  | nil => rfl
  | cons y l => rfl

theorem Clean_isAbs (tok : Str) : IsAbs (Clean tok) = IsAbs tok := by
  cases hab : IsAbs tok with
  | true => exact Clean_isAbs_of_isAbs tok hab
  | false =>
    by_cases hne : tok = []
    · subst hne
      decide
    · rw [Clean_relative_eq tok hne hab]
      have hcanon : RelCanon (cleanElems false (splitSlash tok) []) :=
        cleanElems_relCanon _ _ (by simp [RelCanon]) (splitSlash_noSlash tok)
      generalize cleanElems false (splitSlash tok) [] = S at hcanon
      by_cases hS : S = []
      · subst hS
        decide
      · simp only [hS, if_false]
        have hr : S.reverse ≠ [] := by simpa using hS
        rcases hrev : S.reverse with _ | ⟨x, l⟩
        · exact absurd hrev hr
        · have hx : x ∈ S := List.mem_reverse.1 (by rw [hrev]; exact List.mem_cons_self _ _)
          obtain ⟨x1, _, x3⟩ := hcanon x hx
          cases x with
          | nil => exact absurd rfl x1
          | cons c cs =>
            have hc : c ≠ '/' := by
              intro e
              apply x3
              rw [e]
              exact List.mem_cons_self _ _
            cases hb : IsAbs (joinSlash ((c :: cs) :: l)) with
            | false => rfl
            | true =>
              have := (IsAbs_iff _).1 hb
              rw [joinSlash_head (c :: cs) l c cs rfl] at this
              exact absurd (Option.some.inj this) hc

/-! ## Results of `walkFiles` and of the glob loop -/

theorem walkLoop_mem (visits : List (Str × WalkEntry)) (out ps : List Str)
    (err : Option GoError) (h : walkLoop visits out = (ps, err)) :
    ∀ p ∈ ps, p ∈ out ∨ (p, WalkEntry.file) ∈ visits := by
  induction visits generalizing out with
  | nil =>
    simp only [walkLoop, Prod.mk.injEq] at h
    intro p hp
    rw [← h.1] at hp
    exact Or.inl hp
  | cons v visits ih =>
    obtain ⟨path, entry⟩ := v
    cases entry with
    | err msg =>
      simp only [walkLoop, Prod.mk.injEq] at h
      intro p hp
      rw [← h.1] at hp
      exact Or.inl hp
    | dir =>
      simp only [walkLoop] at h
      intro p hp
      rcases ih out h p hp with h1 | h1
      · exact Or.inl h1
      · exact Or.inr (List.mem_cons_of_mem _ h1)
    | file =>
      simp only [walkLoop] at h
      intro p hp
      rcases ih _ h p hp with h1 | h1
      · rcases List.mem_append.1 h1 with h2 | h2
        · exact Or.inl h2
        · rw [List.mem_singleton.1 h2]
          exact Or.inr (List.mem_cons_self _ _)
      · exact Or.inr (List.mem_cons_of_mem _ h1)

theorem walkFiles_mem (fs : FS) (dir : Str) (ps : List Str) (err : Option GoError)
    (h : walkFiles fs dir = (ps, err)) : ∀ p ∈ ps, (p, WalkEntry.file) ∈ fs.walk dir := by
  intro p hp
  rcases walkLoop_mem _ _ _ _ h p hp with h1 | h1
  · simp at h1
  · exact h1

theorem walkLoop_error (visits : List (Str × WalkEntry)) (out ps : List Str)
    (err : GoError) (h : walkLoop visits out = (ps, some err)) : ∃ msg, err = .lib msg := by
  induction visits generalizing out with
  | nil => simp [walkLoop] at h
  | cons v visits ih =>
    obtain ⟨path, entry⟩ := v
    cases entry with
    | err msg =>
      simp only [walkLoop, Prod.mk.injEq, Option.some.injEq] at h
      exact ⟨msg, h.2.symm⟩
    | dir => exact ih out (by simpa [walkLoop] using h)
    | file => exact ih _ (by simpa [walkLoop] using h)

theorem globLoop_mem (fs : FS) (found files ps : List Str)
    (h : globLoop fs found files = (ps, none)) :
    ∀ p ∈ ps, p ∈ files ∨ p ∈ found ∨ ∃ m ∈ found, (p, WalkEntry.file) ∈ fs.walk m := by
  induction found generalizing files with
  | nil =>
    simp only [globLoop, Prod.mk.injEq] at h
    intro p hp
    rw [← h.1] at hp
    exact Or.inl hp
  | cons m ms ih =>
    have step : ∀ files1, (∀ q ∈ files1, q ∈ files ∨ q = m ∨ (q, WalkEntry.file) ∈ fs.walk m) →
        globLoop fs ms files1 = (ps, none) →
        ∀ p ∈ ps, p ∈ files ∨ p ∈ m :: ms ∨
          ∃ m1 ∈ m :: ms, (p, WalkEntry.file) ∈ fs.walk m1 := by
      intro files1 hf hg p hp
      rcases ih files1 hg p hp with h1 | h1 | ⟨m1, hm1, hw⟩
      · rcases hf p h1 with h2 | h2 | h2
        · exact Or.inl h2
        · exact Or.inr (Or.inl (by rw [h2]; exact List.mem_cons_self _ _))
        · exact Or.inr (Or.inr ⟨m, List.mem_cons_self _ _, h2⟩)
      · exact Or.inr (Or.inl (List.mem_cons_of_mem _ h1))
      · exact Or.inr (Or.inr ⟨m1, List.mem_cons_of_mem _ hm1, hw⟩)
    simp only [globLoop] at h
    rcases hst : fs.stat m with isDir | ⟨ne, msg⟩
    · rw [hst] at h
      simp only at h
      cases isDir with
      | true =>
        simp only [if_true] at h
        rcases hw : walkFiles fs m with ⟨sub, _ | e⟩
        · rw [hw] at h
          simp only at h
          refine step _ ?_ h
          intro q hq
          rcases List.mem_append.1 hq with h1 | h1
          · exact Or.inl h1
          · exact Or.inr (Or.inr (walkFiles_mem fs m sub none hw q h1))
        · rw [hw] at h
          simp at h
      | false =>
        simp only [Bool.false_eq_true, if_false] at h
        refine step _ ?_ h
        intro q hq
        rcases List.mem_append.1 hq with h1 | h1
        · exact Or.inl h1
        · exact Or.inr (Or.inl (List.mem_singleton.1 h1))
    · rw [hst] at h
      simp only at h
      exact step files (fun q hq => Or.inl hq) h

theorem globLoop_error (fs : FS) (found files ps : List Str) (err : GoError)
    (h : globLoop fs found files = (ps, some err)) : ∃ msg, err = .lib msg := by
  induction found generalizing files with
  | nil => simp [globLoop] at h
  | cons m ms ih =>
    simp only [globLoop] at h
    rcases hst : fs.stat m with isDir | ⟨ne, msg⟩
    · rw [hst] at h
      simp only at h
      cases isDir with
      | true =>
        simp only [if_true] at h
        rcases hw : walkFiles fs m with ⟨sub, _ | e⟩
        · rw [hw] at h
          exact ih _ h
        · rw [hw] at h
          simp only [Prod.mk.injEq, Option.some.injEq] at h
          rw [← h.2]
          exact walkLoop_error _ _ _ _ hw
      | false =>
        simp only [Bool.false_eq_true, if_false] at h
        exact ih _ h
    · rw [hst] at h
      exact ih _ h

/-! ## Claims about `ParseCOPYADDSources` and `ExpandSource` -/

theorem expandSources_all_ok (fs : FS) (ctx : Str) (toks : List Str) (acc acc1 : Acc)
    (hE : expandSources fs ctx toks acc = .ok acc1) :
    ∀ t ∈ toks, (ExpandSource fs ctx t).2 = none := by
  induction toks generalizing acc with
  | nil => simp
  | cons t toks ih =>
    simp only [expandSources] at hE
    rcases hX : ExpandSource fs ctx t with ⟨ps, _ | err⟩
    · rw [hX] at hE
      intro x hx
      rcases List.mem_cons.1 hx with e | e
      · rw [e, hX]
      · exact ih _ hE x e
    · rw [hX] at hE
      simp at hE

/-- C1: when `ParseCOPYADDSources` succeeds, `ExpandSource` succeeded for every
surviving source token, the returned list has no path twice, and it is the
concatenation of the lists `ExpandSource` returns for the surviving tokens
(instruction by instruction, token by token) with every occurrence of a path
after its first one removed. -/
theorem ParseCOPYADDSources_first_seen_order (fs : FS) (content ctx : Str) (out : List Str)
    (h : ParseCOPYADDSources fs content ctx = (out, none)) :
    (∀ t ∈ survivors content, (ExpandSource fs ctx t).2 = none) ∧ out.Nodup ∧
      out = keepFirst ((survivors content).flatMap (fun t => (ExpandSource fs ctx t).1)) := by
  rw [ParseCOPYADDSources_eq] at h
  rcases hE : expandSources fs ctx (survivors content) ⟨[], []⟩ with err | acc1
  · rw [hE] at h
    simp at h
  · rw [hE] at h
    simp only [Prod.mk.injEq, and_true] at h
    have hok : AccOk ⟨[], []⟩ := by simp [AccOk]
    obtain ⟨h1, h2⟩ := expandSources_ok fs ctx _ _ _ hok hE
    refine ⟨expandSources_all_ok fs ctx _ _ _ hE, ?_, ?_⟩
    · rw [← h]
      exact h1.1
    · rw [← h, h2]
      simp [expandedPaths]

/-- Witness for C1: two instructions that share a source; the shared path is
kept at its first position. -/
theorem ParseCOPYADDSources_first_seen_order_witness :
    ParseCOPYADDSources fsDemo
        "COPY app.py code /app/\nADD requirements.txt app.py /app/".toList "/ctx".toList
      = (["/ctx/app.py".toList, "/ctx/code/main.py".toList,
          "/ctx/requirements.txt".toList], none) ∧
    ((∀ t ∈ survivors "COPY app.py code /app/\nADD requirements.txt app.py /app/".toList,
        (ExpandSource fsDemo "/ctx".toList t).2 = none) ∧
      ["/ctx/app.py".toList, "/ctx/code/main.py".toList,
          "/ctx/requirements.txt".toList].Nodup ∧
      ["/ctx/app.py".toList, "/ctx/code/main.py".toList, "/ctx/requirements.txt".toList] =
        keepFirst ((survivors
          "COPY app.py code /app/\nADD requirements.txt app.py /app/".toList).flatMap
            (fun t => (ExpandSource fsDemo "/ctx".toList t).1))) :=
  ⟨by decide, ParseCOPYADDSources_first_seen_order fsDemo _ _ _ (by decide)⟩

/-- C2: if `ExpandSource` fails for a surviving source token and succeeds for
every surviving token before it in document order, `ParseCOPYADDSources`
returns that error together with the empty (nil) list. -/
theorem ParseCOPYADDSources_first_error (fs : FS) (content ctx : Str) (pre : List Str)
    (t : Str) (post ps : List Str) (err : GoError)
    (hs : survivors content = pre ++ t :: post)
    (hpre : ∀ s ∈ pre, (ExpandSource fs ctx s).2 = none)
    (ht : ExpandSource fs ctx t = (ps, some err)) :
    ParseCOPYADDSources fs content ctx = ([], some err) := by
  rw [ParseCOPYADDSources_eq, hs, expandSources_error fs ctx pre t post ps err _ hpre ht]

/-- Witness for C2: the first instruction resolves, the second names a missing
file, the third an absolute path; the error is the one of the missing file
and no path is returned. -/
theorem ParseCOPYADDSources_first_error_witness :
    survivors "COPY app.py /app/\nCOPY nonexistent.py /app/\nCOPY /abs /x".toList
      = ["app.py".toList] ++ "nonexistent.py".toList :: ["/abs".toList] ∧
    ParseCOPYADDSources fsDemo
        "COPY app.py /app/\nCOPY nonexistent.py /app/\nCOPY /abs /x".toList "/ctx".toList
      = ([], some (.errorf "source not found: nonexistent.py".toList)) :=
  ⟨by decide,
    ParseCOPYADDSources_first_error fsDemo _ _ ["app.py".toList] "nonexistent.py".toList
      ["/abs".toList] [] _ (by decide) (by decide) (by decide)⟩

/-- C3 (as amended): for an absolute, cleaned context root, when `ExpandSource`
succeeds every returned path is absolute and is the context root or lies beneath it,
provided glob expansion of a pattern within the root only returns paths
within the root and a directory walk only returns files at or beneath the
directory walked. -/
theorem ExpandSource_within_root (fs : FS) (root tok : Str) (ps : List Str)
    (hroot : IsAbs root = true) (hclean : Clean root = root)
    (hglob : ∀ pat found, within root pat = true → fs.glob pat = .ok found →
      ∀ m ∈ found, within root m = true)
    (hwalk : ∀ dir p, (p, WalkEntry.file) ∈ fs.walk dir → within dir p = true)
    (h : ExpandSource fs root tok = (ps, none)) :
    ∀ p ∈ ps, IsAbs p = true ∧ within root p = true := by
  suffices hw : ∀ p ∈ ps, within root p = true from
    fun p hp => ⟨within_isAbs root p hroot (hw p hp), hw p hp⟩
  simp only [ExpandSource] at h
  split at h
  · simp at h
  split at h
  · simp at h
  next hesc =>
  have hpat := pattern_within root (Clean tok) hroot hclean (by simpa using hesc)
  split at h
  · split at h
    · simp at h
    · next found hg =>
      intro p hp
      rcases globLoop_mem fs found [] ps h p hp with h1 | h1 | ⟨m, hm, hwm⟩
      · simp at h1
      · exact hglob _ found hpat hg p h1
      · exact within_trans root m p (hglob _ found hpat hg m hm) (hwalk m p hwm)
  · split at h
    · split at h <;> simp at h
    · split at h
      · intro p hp
        exact within_trans root _ p hpat (hwalk _ p (walkFiles_mem fs _ ps none h p hp))
      · simp only [Prod.mk.injEq, and_true] at h
        intro p hp
        rw [← h] at hp
        rw [List.mem_singleton.1 hp]
        exact hpat

theorem fsDemo_glob_within (pat : Str) (found : List Str)
    (hg : fsDemo.glob pat = .ok found) : ∀ m ∈ found, within "/ctx".toList m = true := by
  simp only [fsDemo] at hg
  split at hg
  · simp only [Except.ok.injEq] at hg
    rw [← hg]
    decide
  · simp only [Except.ok.injEq] at hg
    rw [← hg]
    simp

theorem fsDemo_walk_within (dir p : Str) (h : (p, WalkEntry.file) ∈ fsDemo.walk dir) :
    within dir p = true := by
  simp only [fsDemo] at h
  split at h
  · next hd =>
    rw [hd]
    simp only [List.mem_cons, Prod.mk.injEq] at h
    rcases h with h | h | h
    · exact WalkEntry.noConfusion h.2
    · rw [h.1]
      decide
    · simp at h
  · simp at h

/-- Witness for C3 (as amended): a directory source under `/ctx` expands to
the file beneath it. -/
theorem ExpandSource_within_root_witness :
    ExpandSource fsDemo "/ctx".toList "./code".toList = (["/ctx/code/main.py".toList], none) ∧
    ∀ p ∈ ["/ctx/code/main.py".toList], IsAbs p = true ∧ within "/ctx".toList p = true :=
  ⟨by decide,
    ExpandSource_within_root fsDemo "/ctx".toList "./code".toList _ (by decide) (by decide)
      (fun pat found _ hg => fsDemo_glob_within pat found hg) fsDemo_walk_within (by decide)⟩

/-- Counterexample to C3 as stated: for the token `.` the candidate is the
context root, and `ExpandSource` returns the root itself, which does not lie
beneath the root, when the root is a regular file and when it is a symbolic
link to a directory; in both file systems glob expansion and directory
walking only return paths at or beneath the path asked about. -/
theorem ExpandSource_returns_root :
    IsAbs "/ctx".toList = true ∧ Clean "/ctx".toList = "/ctx".toList ∧
    ExpandSource fsRootFile "/ctx".toList ".".toList = (["/ctx".toList], none) ∧
    ExpandSource fsRootLink "/ctx".toList ".".toList = (["/ctx".toList], none) ∧
    beneath "/ctx".toList "/ctx".toList = false ∧
    (∀ dir p, (p, WalkEntry.file) ∈ fsRootFile.walk dir → within dir p = true) ∧
    (∀ dir p, (p, WalkEntry.file) ∈ fsRootLink.walk dir → within dir p = true) ∧
    (∀ pat found, fsRootFile.glob pat = .ok found → ∀ m ∈ found, within "/ctx".toList m = true) ∧
    (∀ pat found, fsRootLink.glob pat = .ok found →
      ∀ m ∈ found, within "/ctx".toList m = true) := by
  refine ⟨by decide, by decide, by decide, by decide, by decide, ?_, ?_, ?_, ?_⟩
  · intro dir p h
    simp [fsRootFile] at h
  · intro dir p h
    simp only [fsRootLink] at h
    split at h
    · next hd =>
      simp only [List.mem_singleton, Prod.mk.injEq, and_true] at h
      rw [h, hd]
      decide
    · simp at h
  · intro pat found h m hm
    simp only [fsRootFile, Except.ok.injEq] at h
    rw [← h] at hm
    simp at hm
  · intro pat found h m hm
    simp only [fsRootLink] at h
    split at h
    · simp only [Except.ok.injEq] at h
      rw [← h] at hm
      rw [List.mem_singleton.1 hm]
      decide
    · simp only [Except.ok.injEq] at h
      rw [← h] at hm
      simp at hm

/-- C4: a source token whose cleaned form is an absolute path makes
`ExpandSource` fail with `absolute source path not supported: ` followed by
the cleaned token, whatever the file system holds; a Dockerfile whose first
surviving source token is such a token makes `ParseCOPYADDSources` fail with
that error. -/
theorem ExpandSource_absolute (fs : FS) (ctx tok : Str) (h : IsAbs (Clean tok) = true) :
    ExpandSource fs ctx tok =
        ([], some (.errorf ("absolute source path not supported: ".toList ++ Clean tok))) ∧
      ∀ content rest, survivors content = tok :: rest →
        ParseCOPYADDSources fs content ctx =
          ([], some (.errorf ("absolute source path not supported: ".toList ++ Clean tok))) := by
  have hx : ExpandSource fs ctx tok =
      ([], some (.errorf ("absolute source path not supported: ".toList ++ Clean tok))) := by
    simp [ExpandSource, h]
  refine ⟨hx, ?_⟩
  intro content rest hs
  rw [ParseCOPYADDSources_eq, hs]
  simp [expandSources, hx]

/-- Witness for C4: the test case `COPY /absolute/path /app/`, on a file system
where nothing exists at that path. -/
theorem ExpandSource_absolute_witness :
    IsAbs (Clean "/absolute/path".toList) = true ∧
    survivors "FROM ubuntu:20.04\nCOPY /absolute/path /app/\n".toList
      = "/absolute/path".toList :: [] ∧
    ExpandSource fsDemo "/ctx".toList "/absolute/path".toList
      = ([], some (.errorf "absolute source path not supported: /absolute/path".toList)) ∧
    ParseCOPYADDSources fsDemo "FROM ubuntu:20.04\nCOPY /absolute/path /app/\n".toList
        "/ctx".toList
      = ([], some (.errorf "absolute source path not supported: /absolute/path".toList)) :=
  ⟨by decide, by decide,
    (ExpandSource_absolute fsDemo "/ctx".toList "/absolute/path".toList (by decide)).1,
    (ExpandSource_absolute fsDemo "/ctx".toList "/absolute/path".toList (by decide)).2
      _ [] (by decide)⟩

/-- C5: for an absolute, cleaned context root and a non-absolute source token
whose candidate `Clean(Join(root, token))` is neither the root nor beneath
it, `ExpandSource` fails with `source path escapes context: ` followed by
the cleaned token, whatever the file system holds and whether or not the
token contains `*`. -/
theorem ExpandSource_escape (fs : FS) (root tok : Str)
    (hroot : IsAbs root = true) (hclean : Clean root = root) (hrel : IsAbs tok = false)
    (hout : within root (Clean (Join root tok)) = false) :
    ExpandSource fs root tok =
      ([], some (.errorf ("source path escapes context: ".toList ++ Clean tok))) := by
  have habs : IsAbs (Clean tok) = false := by rw [Clean_isAbs, hrel]
  have hesc : relEscapes (Rel root (Clean (Join root (Clean tok)))) = true := by
    cases hc : relEscapes (Rel root (Clean (Join root (Clean tok)))) with
    | true => rfl
    | false =>
      have := pattern_within root (Clean tok) hroot hclean hc
      rw [Clean_join_Clean root tok hroot hrel, hout] at this
      exact Bool.noConfusion this
  simp [ExpandSource, habs, hesc]

/-- Witness for C5: a wildcard token that climbs out of `/ctx`, where nothing
exists at the candidate. -/
theorem ExpandSource_escape_witness :
    within "/ctx".toList (Clean (Join "/ctx".toList "../out/*.txt".toList)) = false ∧
    ExpandSource fsDemo "/ctx".toList "../out/*.txt".toList =
      ([], some (.errorf ("source path escapes context: ".toList
        ++ Clean "../out/*.txt".toList))) :=
  ⟨by decide,
    ExpandSource_escape fsDemo "/ctx".toList "../out/*.txt".toList (by decide) (by decide)
      (by decide) (by decide)⟩

theorem ExpandSource_errorf (fs : FS) (ctx tok : Str) (ps : List Str) (msg : Str)
    (h : ExpandSource fs ctx tok = (ps, some (.errorf msg))) :
    msg = "absolute source path not supported: ".toList ++ Clean tok ∨
      msg = "source path escapes context: ".toList ++ Clean tok ∨
      msg = "source not found: ".toList ++ Clean tok := by
  simp only [ExpandSource] at h
  split at h
  · simp only [Prod.mk.injEq, Option.some.injEq, GoError.errorf.injEq] at h
    exact Or.inl h.2.symm
  split at h
  · simp only [Prod.mk.injEq, Option.some.injEq, GoError.errorf.injEq] at h
    exact Or.inr (Or.inl h.2.symm)
  split at h
  · split at h
    · simp at h
    · obtain ⟨m, hm⟩ := globLoop_error fs _ _ _ _ h
      exact GoError.noConfusion hm
  · split at h
    · split at h
      · simp only [Prod.mk.injEq, Option.some.injEq, GoError.errorf.injEq] at h
        exact Or.inr (Or.inr h.2.symm)
      · simp at h
    · split at h
      · obtain ⟨m, hm⟩ := walkLoop_error _ _ _ _ h
        exact GoError.noConfusion hm
      · simp at h

/-- C6 (as amended): when `ExpandSource` fails with the absolute-source,
context-escape or not-found error, the text after the message prefix is the
cleaned token `Clean(token)`, not the token as passed in. -/
theorem ExpandSource_error_names_cleaned_token (fs : FS) (ctx tok : Str) (ps : List Str)
    (msg pre : Str) (hpre : pre ∈ expandErrorPrefixes)
    (h : ExpandSource fs ctx tok = (ps, some (.errorf msg)))
    (hp : HasPrefix msg pre = true) : msg = pre ++ Clean tok := by
  simp only [expandErrorPrefixes, List.mem_cons, List.mem_singleton, List.not_mem_nil,
    or_false] at hpre
  rcases ExpandSource_errorf fs ctx tok ps msg h with hm | hm | hm <;>
    rcases hpre with e | e | e <;> subst e <;> subst hm <;>
      first
        | rfl
        | (exfalso; simp [HasPrefix, List.isPrefixOf] at hp)

/-- Witness for C6 (as amended): the token `./missing.txt` is named
`missing.txt` in the error. -/
theorem ExpandSource_error_names_cleaned_token_witness :
    "source not found: ".toList ∈ expandErrorPrefixes ∧
    ExpandSource fsDemo "/ctx".toList "./missing.txt".toList
      = ([], some (.errorf "source not found: missing.txt".toList)) ∧
    HasPrefix "source not found: missing.txt".toList "source not found: ".toList = true ∧
    "source not found: missing.txt".toList
      = "source not found: ".toList ++ Clean "./missing.txt".toList :=
  ⟨by decide, by decide, by decide,
    ExpandSource_error_names_cleaned_token fsDemo "/ctx".toList "./missing.txt".toList []
      _ _ (by decide) (by decide) (by decide)⟩

/-- Counterexample to C6 as stated: for the token `./missing.txt` the
not-found error reads `source not found: missing.txt`; the text after the
colon is not the token as it was passed in. -/
theorem ExpandSource_error_not_original_token :
    ExpandSource fsDemo "/ctx".toList "./missing.txt".toList
      = ([], some (.errorf "source not found: missing.txt".toList)) ∧
    ExpandSource fsDemo "/ctx".toList "./missing.txt".toList
      ≠ ([], some (.errorf ("source not found: ".toList ++ "./missing.txt".toList))) := by
  decide

/-- C7 at the token `..data`: the candidate `/ctx/..data` lies beneath the root
`/ctx`, the token is not absolute and has no `*`, and yet `ExpandSource`
answers with the context-escape error whatever the file system holds (so
neither `source not found` when nothing is there, nor the candidate when it
is a file). -/
theorem ExpandSource_dotdot_name_rejected (fs : FS) :
    IsAbs "/ctx".toList = true ∧ Clean "/ctx".toList = "/ctx".toList ∧
    IsAbs "..data".toList = false ∧ Contains "..data".toList '*' = false ∧
    Clean (Join "/ctx".toList "..data".toList) = "/ctx/..data".toList ∧
    within "/ctx".toList (Clean (Join "/ctx".toList "..data".toList)) = true ∧
    ExpandSource fs "/ctx".toList "..data".toList
      = ([], some (.errorf "source path escapes context: ..data".toList)) := by
  refine ⟨by decide, by decide, by decide, by decide, by decide, by decide, ?_⟩
  have h1 : IsAbs (Clean "..data".toList) = false := by decide
  have h2 : relEscapes (Rel "/ctx".toList (Clean (Join "/ctx".toList (Clean "..data".toList))))
      = true := by decide
  have h3 : Clean "..data".toList = "..data".toList := by decide
  simp only [ExpandSource, h1, h2, if_true, Bool.false_eq_true, if_false]
  rw [h3]
  rfl

theorem expandSources_error_origin (fs : FS) (ctx : Str) (toks : List Str) (acc : Acc)
    (err : GoError) (h : expandSources fs ctx toks acc = .error err) :
    ∃ t ∈ toks, (ExpandSource fs ctx t).2 = some err := by
  induction toks generalizing acc with
  | nil => simp [expandSources] at h
  | cons t toks ih =>
    simp only [expandSources] at h
    rcases hX : ExpandSource fs ctx t with ⟨ps, _ | e⟩
    · rw [hX] at h
      obtain ⟨t1, ht1, he⟩ := ih _ h
      exact ⟨t1, List.mem_cons_of_mem _ ht1, he⟩
    · rw [hX] at h
      simp only [Except.error.injEq] at h
      exact ⟨t, List.mem_cons_self _ _, by rw [hX, h]⟩

theorem ParseCOPYADDSources_error_origin (fs : FS) (content ctx : Str) (err : GoError)
    (h : (ParseCOPYADDSources fs content ctx).2 = some err) :
    ∃ t ∈ survivors content, (ExpandSource fs ctx t).2 = some err := by
  rw [ParseCOPYADDSources_eq] at h
  rcases hE : expandSources fs ctx (survivors content) ⟨[], []⟩ with e | acc1
  · rw [hE] at h
    simp only [Option.some.injEq] at h
    rw [← h]
    exact expandSources_error_origin fs ctx _ _ e hE
  · rw [hE] at h
    simp at h

theorem ParseCOPYADDSources_congr (fs : FS) (c1 c2 ctx : Str)
    (h : survivors c1 = survivors c2) :
    ParseCOPYADDSources fs c1 ctx = ParseCOPYADDSources fs c2 ctx := by
  rw [ParseCOPYADDSources_eq, ParseCOPYADDSources_eq, h]

/-- C8: a `COPY`/`ADD` logical line whose argument string `TokenizeInstruction`
rejects hands no token to `ExpandSource`, the parse is the one of the
Dockerfile without that line, and no error of `ParseCOPYADDSources` is a
tokenization error. -/
theorem ParseCOPYADDSources_skips_untokenizable (fs : FS) (content content1 ctx : Str)
    (pre : List Str) (bad : Str) (post : List Str) (isAdd : Bool) (rest : Str)
    (ps : List Str) (err : GoError)
    (hlines : SplitDockerfileLines content = pre ++ bad :: post)
    (hlines1 : SplitDockerfileLines content1 = pre ++ post)
    (hinstr : instruction bad = some (isAdd, rest))
    (htok : TokenizeInstruction rest = (ps, some err)) :
    lineSources bad = [] ∧
      ParseCOPYADDSources fs content ctx = ParseCOPYADDSources fs content1 ctx ∧
      ∀ e, (ParseCOPYADDSources fs content ctx).2 = some e → e ∉ tokenizeErrors := by
  have hbad : lineSources bad = [] := by simp [lineSources, hinstr, htok]
  refine ⟨hbad, ?_, ?_⟩
  · apply ParseCOPYADDSources_congr
    simp [survivors, hlines, hlines1, hbad]
  · intro e he hmem
    obtain ⟨t, _, ht⟩ := ParseCOPYADDSources_error_origin fs content ctx e he
    rcases hX : ExpandSource fs ctx t with ⟨qs, oe⟩
    rw [hX] at ht
    simp only at ht
    subst ht
    simp only [tokenizeErrors, List.mem_cons, List.mem_singleton, List.not_mem_nil,
      or_false] at hmem
    rcases hmem with e1 | e1 | e1 <;> subst e1 <;>
      rcases ExpandSource_errorf fs ctx t qs _ hX with hm | hm | hm <;> simp at hm

/-- Witness for C8: an instruction with an unclosed quote before a well-formed
one. -/
theorem ParseCOPYADDSources_skips_untokenizable_witness :
    SplitDockerfileLines ("COPY ".toList ++ dquote :: "open /app/\nCOPY app.py /app/".toList)
      = [] ++ ("COPY ".toList ++ dquote :: "open /app/".toList) :: ["COPY app.py /app/".toList] ∧
    TokenizeInstruction (dquote :: "open /app/".toList)
      = ([], some (.errorf "unclosed quote".toList)) ∧
    ParseCOPYADDSources fsDemo
        ("COPY ".toList ++ dquote :: "open /app/\nCOPY app.py /app/".toList) "/ctx".toList
      = ParseCOPYADDSources fsDemo "COPY app.py /app/".toList "/ctx".toList ∧
    ParseCOPYADDSources fsDemo "COPY app.py /app/".toList "/ctx".toList
      = (["/ctx/app.py".toList], none) :=
  ⟨by decide, by decide,
    (ParseCOPYADDSources_skips_untokenizable fsDemo
      ("COPY ".toList ++ dquote :: "open /app/\nCOPY app.py /app/".toList)
      "COPY app.py /app/".toList "/ctx".toList []
      ("COPY ".toList ++ dquote :: "open /app/".toList) ["COPY app.py /app/".toList]
      false (dquote :: "open /app/".toList) [] (.errorf "unclosed quote".toList)
      (by decide) (by decide) (by decide) (by decide)).2.1,
    by decide⟩

/-! ## Flags -/

theorem sourcesOfTokens_eq (isAdd : Bool) (tokens : List Str) :
    sourcesOfTokens isAdd tokens =
      (match filterSources tokens.dropLast with
        | [] => []
        | first :: more => if isAdd && IsURL first then [] else first :: more) := by
  unfold sourcesOfTokens
  split
  · next hlen =>
    cases tokens with
    | nil => simp [filterSources]
    | cons a l =>
      cases l with
      | nil => simp [filterSources]
      | cons b l =>
        simp only [List.length_cons] at hlen
        omega
  · generalize filterSources tokens.dropLast = l
    cases l <;> rfl

theorem filterSources_insert_flag (a c : List Str) (flag : Str)
    (hflag : HasPrefix flag ['-', '-'] = true)
    (hfrom : HasPrefix (ToLower flag) "--from=".toList = false) :
    filterSources (a ++ flag :: c) = filterSources (a ++ c) := by
  induction a with
  | nil =>
    simp only [List.nil_append, filterSources, hflag, hfrom, if_true, Bool.false_eq_true,
      if_false]
  | cons t a ih =>
    rw [List.cons_append, List.cons_append, filterSources, filterSources, ih]

/-- C9: in a `COPY`/`ADD` instruction, a token that begins with `--` and whose
lowercase form does not begin with `--from=`, inserted anywhere before the
destination, leaves the result of `ParseCOPYADDSources` unchanged: the
tokens handed to `ExpandSource` are the same, in the same order. -/
theorem ParseCOPYADDSources_flag_dropped (fs : FS) (content content1 ctx : Str)
    (pre : List Str) (line line1 : Str) (post : List Str) (isAdd : Bool) (rest rest1 : Str)
    (a b : List Str) (flag : Str)
    (hlines : SplitDockerfileLines content = pre ++ line :: post)
    (hlines1 : SplitDockerfileLines content1 = pre ++ line1 :: post)
    (hinstr : instruction line = some (isAdd, rest))
    (hinstr1 : instruction line1 = some (isAdd, rest1))
    (htok : TokenizeInstruction rest = (a ++ b, none))
    (htok1 : TokenizeInstruction rest1 = (a ++ flag :: b, none))
    (hdest : b ≠ [])
    (hflag : HasPrefix flag ['-', '-'] = true)
    (hfrom : HasPrefix (ToLower flag) "--from=".toList = false) :
    lineSources line1 = lineSources line ∧
      ParseCOPYADDSources fs content1 ctx = ParseCOPYADDSources fs content ctx := by
  have hl : lineSources line1 = lineSources line := by
    simp only [lineSources, hinstr, hinstr1, htok, htok1, sourcesOfTokens_eq]
    rw [List.dropLast_append_of_ne_nil _ (by simp), List.dropLast_append_of_ne_nil _ hdest,
      List.dropLast_cons_of_ne_nil hdest, filterSources_insert_flag a _ flag hflag hfrom]
  refine ⟨hl, ?_⟩
  apply ParseCOPYADDSources_congr
  simp [survivors, hlines, hlines1, hl]

/-- Witness for C9: `--chown=root:root` between two sources. -/
theorem ParseCOPYADDSources_flag_dropped_witness :
    TokenizeInstruction "app.py --chown=root:root requirements.txt /app/".toList
      = (["app.py".toList] ++ "--chown=root:root".toList ::
          ["requirements.txt".toList, "/app/".toList], none) ∧
    (lineSources "COPY app.py --chown=root:root requirements.txt /app/".toList
        = lineSources "COPY app.py requirements.txt /app/".toList ∧
      ParseCOPYADDSources fsDemo
          "FROM a\nCOPY app.py --chown=root:root requirements.txt /app/".toList "/ctx".toList
        = ParseCOPYADDSources fsDemo
          "FROM a\nCOPY app.py requirements.txt /app/".toList "/ctx".toList) ∧
    ParseCOPYADDSources fsDemo
        "FROM a\nCOPY app.py requirements.txt /app/".toList "/ctx".toList
      = (["/ctx/app.py".toList, "/ctx/requirements.txt".toList], none) :=
  ⟨by decide,
    ParseCOPYADDSources_flag_dropped fsDemo
      "FROM a\nCOPY app.py requirements.txt /app/".toList
      "FROM a\nCOPY app.py --chown=root:root requirements.txt /app/".toList "/ctx".toList
      ["FROM a".toList] "COPY app.py requirements.txt /app/".toList
      "COPY app.py --chown=root:root requirements.txt /app/".toList []
      false "app.py requirements.txt /app/".toList
      "app.py --chown=root:root requirements.txt /app/".toList
      ["app.py".toList] ["requirements.txt".toList, "/app/".toList] "--chown=root:root".toList
      (by decide) (by decide) (by decide) (by decide) (by decide) (by decide) (by decide)
      (by decide) (by decide),
    by decide⟩

theorem toLower_dash (c : Char) (h : c.toLower = '-') : c = '-' := by
  unfold Char.toLower at h
  simp only at h
  split at h
  · next hc =>
    exfalso
    obtain ⟨h1, h2⟩ := hc
    generalize c.toNat = n at h h1 h2
    interval_cases n <;> exact absurd h (by decide)
  · exact h

theorem lowerRune_dash (c : Char) (h : lowerRune c = '-') : c = '-' := by
  unfold lowerRune at h
  split at h
  · exact absurd h (by decide)
  · split at h
    · exact absurd h (by decide)
    · exact toLower_dash c h

theorem fromFlag_isFlag (t : Str) (h : HasPrefix (ToLower t) "--from=".toList = true) :
    HasPrefix t ['-', '-'] = true := by
  change List.isPrefixOf ['-', '-', 'f', 'r', 'o', 'm', '='] (List.map lowerRune t) = true at h
  cases t with
  | nil => simp [List.isPrefixOf] at h
  | cons c1 t =>
    cases t with
    | nil => simp [List.isPrefixOf] at h
    | cons c2 t =>
      simp only [List.map_cons, List.isPrefixOf, Bool.and_eq_true, beq_iff_eq] at h
      have e1 := lowerRune_dash c1 h.1.symm
      have e2 := lowerRune_dash c2 h.2.1.symm
      subst e1
      subst e2
      simp [HasPrefix, List.isPrefixOf]

theorem filterSources_from (a b : List Str) (f : Str)
    (hf : HasPrefix (ToLower f) "--from=".toList = true)
    (ha : ∀ t ∈ a, HasPrefix (ToLower t) "--from=".toList = false) :
    filterSources (a ++ f :: b) = a.filter nonFlag := by
  induction a with
  | nil =>
    simp only [List.nil_append, filterSources, hf, fromFlag_isFlag f hf, if_true,
      List.filter_nil]
  | cons t a ih =>
    have ht := ha t (List.mem_cons_self _ _)
    have ih1 := ih (fun x hx => ha x (List.mem_cons_of_mem _ hx))
    rw [List.cons_append, filterSources, ih1]
    cases hp : HasPrefix t ['-', '-'] with
    | true =>
      simp only [ht, if_true, Bool.false_eq_true, if_false, List.filter_cons, nonFlag, hp,
        Bool.not_true]
    | false =>
      simp only [Bool.false_eq_true, if_false, List.filter_cons, nonFlag, hp, Bool.not_false,
        if_true]

/-- C10 (as amended): in a `COPY`/`ADD` instruction whose candidate sources
hold a token with lowercase prefix `--from=`, the tokens handed to
`ExpandSource` are exactly the non-flag tokens before the first such token,
in order, unless the instruction is `ADD` and the first of them is an
`http://` or `https://` URL. -/
theorem lineSources_before_from (line : Str) (isAdd : Bool) (rest : Str)
    (a : List Str) (f : Str) (b : List Str) (dest : Str)
    (hinstr : instruction line = some (isAdd, rest))
    (htok : TokenizeInstruction rest = ((a ++ f :: b) ++ [dest], none))
    (hf : HasPrefix (ToLower f) "--from=".toList = true)
    (ha : ∀ t ∈ a, HasPrefix (ToLower t) "--from=".toList = false)
    (hurl : isAdd = false ∨ ∀ u, (a.filter nonFlag).head? = some u → IsURL u = false) :
    lineSources line = a.filter nonFlag := by
  simp only [lineSources, hinstr, htok, sourcesOfTokens_eq, List.dropLast_concat,
    filterSources_from a b f hf ha]
  rcases hfl : a.filter nonFlag with _ | ⟨u, more⟩
  · rfl
  · rcases hurl with h | h
    · simp [h]
    · simp [h u (by rw [hfl]; rfl)]

/-- Witness for C10 (as amended): `COPY app.py --from=builder x /app/` hands
`app.py` alone to `ExpandSource`. -/
theorem lineSources_before_from_witness :
    instruction "COPY app.py --from=builder x /app/".toList
      = some (false, "app.py --from=builder x /app/".toList) ∧
    TokenizeInstruction "app.py --from=builder x /app/".toList
      = ((["app.py".toList] ++ "--from=builder".toList :: ["x".toList]) ++ ["/app/".toList],
          none) ∧
    lineSources "COPY app.py --from=builder x /app/".toList
      = ["app.py".toList].filter nonFlag ∧
    ["app.py".toList].filter nonFlag = ["app.py".toList] :=
  ⟨by decide, by decide,
    lineSources_before_from "COPY app.py --from=builder x /app/".toList false
      "app.py --from=builder x /app/".toList ["app.py".toList] "--from=builder".toList
      ["x".toList] "/app/".toList (by decide) (by decide) (by decide) (by decide)
      (Or.inl rfl),
    by decide⟩

/-- Counterexample to C10 as stated: in `ADD http://x/a --from=b c /d` the
non-flag token before the `--from=` token is `http://x/a`, yet nothing is
handed to `ExpandSource`: the instruction is skipped by the URL rule. -/
theorem lineSources_before_from_url_skipped :
    instruction "ADD http://x/a --from=b c /d".toList
      = some (true, "http://x/a --from=b c /d".toList) ∧
    TokenizeInstruction "http://x/a --from=b c /d".toList
      = ((["http://x/a".toList] ++ "--from=b".toList :: ["c".toList]) ++ ["/d".toList],
          none) ∧
    HasPrefix (ToLower "--from=b".toList) "--from=".toList = true ∧
    ["http://x/a".toList].filter nonFlag = ["http://x/a".toList] ∧
    lineSources "ADD http://x/a --from=b c /d".toList = [] ∧
    lineSources "ADD http://x/a --from=b c /d".toList ≠ ["http://x/a".toList].filter nonFlag := by
  decide

/-! ## Tokens without a wildcard -/

theorem splitSlash_chars (s : Str) : ∀ seg ∈ splitSlash s, ∀ c ∈ seg, c ∈ s := by
  induction s with
  | nil => simp [splitSlash]
  | cons a s ih =>
    simp only [splitSlash]
    split
    · intro seg hseg c hc
      rcases List.mem_cons.1 hseg with h | h
      · rw [h] at hc
        simp at hc
      · exact List.mem_cons_of_mem _ (ih seg h c hc)
    · split
      · next h => exact absurd h (splitSlash_ne_nil s)
      · next x xs h =>
        rw [h] at ih
        intro seg hseg c hc
        rcases List.mem_cons.1 hseg with h1 | h1
        · rw [h1] at hc
          rcases List.mem_cons.1 hc with h2 | h2
          · rw [h2]
            exact List.mem_cons_self _ _
          · exact List.mem_cons_of_mem _ (ih x (List.mem_cons_self _ _) c h2)
        · exact List.mem_cons_of_mem _ (ih seg (List.mem_cons_of_mem _ h1) c hc)

theorem cleanStep_mem (r : Bool) (stk : List Str) (seg x : Str)
    (h : x ∈ cleanStep r stk seg) : x ∈ stk ∨ x = seg := by
  unfold cleanStep at h
  split at h
  · exact Or.inl h
  · split at h
    · exact Or.inl h
    · split at h
      · cases stk with
        | nil =>
          simp only at h
          split at h
          · simp at h
          · exact Or.inr (List.mem_singleton.1 h)
        | cons top below =>
          simp only at h
          split at h
          · split at h
            · exact Or.inl h
            · rcases List.mem_cons.1 h with e | e
              · exact Or.inr e
              · exact Or.inl e
          · exact Or.inl (List.mem_cons_of_mem _ h)
      · rcases List.mem_cons.1 h with e | e
        · exact Or.inr e
        · exact Or.inl e

theorem cleanElems_mem (r : Bool) (segs stk : List Str) (x : Str)
    (h : x ∈ cleanElems r segs stk) : x ∈ stk ∨ x ∈ segs := by
  induction segs generalizing stk with
  | nil => exact Or.inl h
  | cons seg segs ih =>
    rcases ih _ h with h1 | h1
    · rcases cleanStep_mem r stk seg x h1 with h2 | h2
      · exact Or.inl h2
      · exact Or.inr (by rw [h2]; exact List.mem_cons_self _ _)
    · exact Or.inr (List.mem_cons_of_mem _ h1)

theorem joinSlash_chars (l : List Str) (c : Char) (h : c ∈ joinSlash l) :
    c = '/' ∨ ∃ seg ∈ l, c ∈ seg := by
  induction l with
  | nil => simp [joinSlash] at h
  | cons a l ih =>
    cases l with
    | nil => exact Or.inr ⟨a, List.mem_cons_self _ _, by simpa [joinSlash] using h⟩
    | cons b l =>
      rw [joinSlash_cons_cons] at h
      rcases List.mem_append.1 h with h1 | h1
      · exact Or.inr ⟨a, List.mem_cons_self _ _, h1⟩
      · rcases List.mem_cons.1 h1 with h2 | h2
        · exact Or.inl h2
        · rcases ih h2 with h3 | ⟨seg, hseg, hc⟩
          · exact Or.inl h3
          · exact Or.inr ⟨seg, List.mem_cons_of_mem _ hseg, hc⟩

theorem Clean_chars (tok : Str) (c : Char) (h : c ∈ Clean tok) :
    c ∈ tok ∨ c = '.' ∨ c = '/' := by
  have key : ∀ r, c ∈ joinSlash (cleanElems r (splitSlash tok) []).reverse →
      c ∈ tok ∨ c = '.' ∨ c = '/' := by
    intro r hc
    rcases joinSlash_chars _ c hc with h1 | ⟨seg, hseg, hcs⟩
    · exact Or.inr (Or.inr h1)
    · rcases cleanElems_mem r _ _ seg (List.mem_reverse.1 hseg) with h2 | h2
      · simp at h2
      · exact Or.inl (splitSlash_chars tok seg h2 c hcs)
  unfold Clean at h
  split at h
  · exact Or.inr (Or.inl (List.mem_singleton.1 h))
  · simp only at h
    split at h
    · rcases List.mem_cons.1 h with h1 | h1
      · exact Or.inr (Or.inr h1)
      · exact key _ h1
    · split at h
      · exact Or.inr (Or.inl (List.mem_singleton.1 h))
      · exact key _ h

theorem Clean_no_star (tok : Str) (h : Contains tok '*' = false) :
    Contains (Clean tok) '*' = false := by
  cases hc : Contains (Clean tok) '*' with
  | false => rfl
  | true =>
    exfalso
    have hm : '*' ∈ Clean tok := by simpa [Contains] using hc
    rcases Clean_chars tok '*' hm with h1 | h1 | h1
    · have : Contains tok '*' = true := by simpa [Contains] using h1
      rw [h] at this
      exact Bool.noConfusion this
    · exact absurd h1 (by decide)
    · exact absurd h1 (by decide)

/-- For an absolute root and a non-absolute token without `*` whose candidate
passes the escape test of `ExpandSource` (the relative path of the candidate
does not begin with the two characters `..`), a candidate that does not
exist gives the not-found error and a candidate that is a non-directory file
gives the candidate alone. -/
theorem ExpandSource_plain_token (fs : FS) (root tok : Str)
    (hroot : IsAbs root = true) (hrel : IsAbs tok = false)
    (hstar : Contains tok '*' = false)
    (hesc : relEscapes (Rel root (Clean (Join root tok))) = false) :
    (∀ msg, fs.stat (Clean (Join root tok)) = .err true msg →
        ExpandSource fs root tok =
          ([], some (.errorf ("source not found: ".toList ++ Clean tok)))) ∧
      (fs.stat (Clean (Join root tok)) = .info false →
        ExpandSource fs root tok = ([Clean (Join root tok)], none)) := by
  have habs : IsAbs (Clean tok) = false := by rw [Clean_isAbs, hrel]
  have hpat := Clean_join_Clean root tok hroot hrel
  have hst := Clean_no_star tok hstar
  constructor
  · intro msg hs
    simp [ExpandSource, habs, hpat, hesc, hst, hs]
  · intro hs
    simp [ExpandSource, habs, hpat, hesc, hst, hs]

/-! ## The fuel of the loops is never used up

Each loop is started with more fuel than its input has characters, and each
iteration that continues consumes at least one character: with any two such
amounts of fuel the loop computes the same result, so the branch for
exhausted fuel is never the one that answers. -/

theorem dropWhile_head_false (p : Char → Bool) (l : Str) (c : Char) (tl : Str)
    (h : l.dropWhile p = c :: tl) : p c = false := by
  induction l with
  | nil => simp at h
  | cons a l ih =>
    rw [List.dropWhile_cons] at h
    split at h
    · exact ih h
    · next hp =>
      simp only [List.cons.injEq] at h
      rw [← h.1]
      simpa using hp

theorem dropWhile_length_le (p : Char → Bool) (l : Str) :
    (l.dropWhile p).length ≤ l.length := by
  induction l with
  | nil => simp
  | cons a l ih =>
    rw [List.dropWhile_cons]
    split
    · exact Nat.le_succ_of_le ih
    · exact Nat.le_refl _

theorem indexWhere_lt (p : Char → Bool) (s : Str) (i : Nat)
    (h : indexWhere p s = some i) : i < s.length := by
  induction s generalizing i with
  | nil => simp [indexWhere] at h
  | cons a s ih =>
    simp only [indexWhere] at h
    split at h
    · simp only [Option.some.injEq] at h
      simp [← h]
    · rcases hj : indexWhere p s with _ | j
      · simp [hj] at h
      · simp only [hj, Option.map_some', Option.some.injEq] at h
        have := ih j hj
        simp only [List.length_cons]
        omega

theorem skipLineEnd_length_le (s : Str) : (skipLineEnd s).length ≤ s.length := by
  cases s with
  | nil => simp [skipLineEnd]
  | cons c cs =>
    simp only [skipLineEnd]
    split <;> simp

theorem shellLoop_fuel (n m : Nat) (rest : Str) (toks : List Str)
    (hn : rest.length < n) (hm : rest.length < m) :
    shellLoop n rest toks = shellLoop m rest toks := by
  induction n generalizing m rest toks with
  | zero => omega
  | succ n ih =>
    cases m with
    | zero => omega
    | succ m =>
      simp only [shellLoop]
      have hlen := dropWhile_length_le (fun c => [' ', '\t'].contains c) rest
      rcases hT : TrimLeft rest [' ', '\t'] with _ | ⟨c, tl⟩
      · rfl
      · have hT1 : rest.dropWhile (fun c => [' ', '\t'].contains c) = c :: tl := hT
        rw [hT1, List.length_cons] at hlen
        simp only
        split
        · rcases IndexByte tl c with _ | e
          · rfl
          · simp only
            apply ih <;> (rw [List.length_drop]; omega)
        · have hc := dropWhile_head_false _ rest c tl hT1
          have hc1 : (c ≠ ' ' && c ≠ '\t') = true := by
            simp only [List.contains_cons, List.contains_nil, Bool.or_false, Bool.or_eq_false_iff,
              beq_eq_false_iff_ne, ne_eq] at hc
            simp [hc.1, hc.2]
          have hi : 1 ≤ ((c :: tl).takeWhile (fun x => x ≠ ' ' && x ≠ '\t')).length := by
            rw [List.takeWhile_cons, if_pos hc1]
            simp
          apply ih <;> (rw [List.length_drop, List.length_cons]; omega)

theorem jsonLoop_fuel (n m : Nat) (rest : Str) (toks : List Str)
    (hn : rest.length < n) (hm : rest.length < m) :
    jsonLoop n rest toks = jsonLoop m rest toks := by
  induction n generalizing m rest toks with
  | zero => omega
  | succ n ih =>
    cases m with
    | zero => omega
    | succ m =>
      simp only [jsonLoop]
      have hlen := dropWhile_length_le (fun c => [' ', '\t', ','].contains c) rest
      rcases hT : TrimLeft rest [' ', '\t', ','] with _ | ⟨c, tl⟩
      · rfl
      · have hT1 : rest.dropWhile (fun c => [' ', '\t', ','].contains c) = c :: tl := hT
        rw [hT1, List.length_cons] at hlen
        simp only
        split
        · rfl
        · split
          · rfl
          · rcases IndexByte tl c with _ | e
            · rfl
            · simp only
              apply ih <;> (rw [List.length_drop]; omega)

theorem joinContinued_fuel (n m : Nat) (line s : Str)
    (hn : s.length < n) (hm : s.length < m) :
    joinContinued n line s = joinContinued m line s := by
  induction n generalizing m line s with
  | zero => omega
  | succ n ih =>
    cases m with
    | zero => omega
    | succ m =>
      simp only [joinContinued]
      split
      · rcases hI : IndexAny s ['\n', '\r'] with _ | next
        · rfl
        · simp only
          have hlt := indexWhere_lt _ s next hI
          have hsk := skipLineEnd_length_le (s.drop (next + 1))
          rw [List.length_drop] at hsk
          apply ih <;> omega
      · rfl

theorem joinContinued_length_le (n : Nat) (line s : Str) :
    (joinContinued n line s).2.length ≤ s.length := by
  induction n generalizing line s with
  | zero => simp [joinContinued]
  | succ n ih =>
    simp only [joinContinued]
    split
    · rcases hI : IndexAny s ['\n', '\r'] with _ | next
      · simp
      · simp only
        have hsk := skipLineEnd_length_le (s.drop (next + 1))
        rw [List.length_drop] at hsk
        have := ih (TrimRight (TrimSuffix line [backslash]) [' ', '\t'] ++
          ' ' :: TrimSpace (s.take next)) (skipLineEnd (s.drop (next + 1)))
        omega
    · simp

theorem splitLoop_fuel (n m : Nat) (s : Str) (lines : List Str)
    (hn : s.length < n) (hm : s.length < m) :
    splitLoop n s lines = splitLoop m s lines := by
  induction n generalizing m s lines with
  | zero => omega
  | succ n ih =>
    cases m with
    | zero => omega
    | succ m =>
      simp only [splitLoop]
      rcases hI : IndexAny s ['\n', '\r'] with _ | idx
      · rfl
      · simp only
        have hlt := indexWhere_lt _ s idx hI
        have hsk := skipLineEnd_length_le (s.drop (idx + 1))
        rw [List.length_drop] at hsk
        have hj := joinContinued_length_le ((skipLineEnd (s.drop (idx + 1))).length + 1)
          (TrimRight (s.take idx) ['\r', '\n']) (skipLineEnd (s.drop (idx + 1)))
        rcases hJ : joinContinued ((skipLineEnd (s.drop (idx + 1))).length + 1)
          (TrimRight (s.take idx) ['\r', '\n']) (skipLineEnd (s.drop (idx + 1)))
          with ⟨line1, s1⟩
        rw [hJ] at hj
        simp only at hj ⊢
        apply ih <;> omega

/-! ## Instruction lines -/

theorem lineSources_nil_congr (fs : FS) (ctx : Str) (line : Str) (h : lineSources line = [])
    (content content1 : Str) (pre post : List Str)
    (hl : SplitDockerfileLines content = pre ++ line :: post)
    (hl1 : SplitDockerfileLines content1 = pre ++ post) :
    ParseCOPYADDSources fs content ctx = ParseCOPYADDSources fs content1 ctx := by
  apply ParseCOPYADDSources_congr
  simp [survivors, hl, hl1, h]

/-- C11 (as amended): in a `COPY`/`ADD` instruction whose candidate sources
hold a token with lowercase prefix `--from=`, look at the tokens before the
first such token. When all of them are flags, or the instruction is `ADD`
and the first non-flag one is an `http://` or `https://` URL, the
instruction hands nothing to `ExpandSource`: it contributes no path, causes
no error, and the parse is the one of the Dockerfile without it. In every
other case the non-flag tokens before the `--from=` token, of which there is
at least one, are the tokens of the instruction handed to `ExpandSource`, at
the instruction's place in document order. -/
theorem lineSources_from_flag (fs : FS) (ctx : Str) (line : Str) (isAdd : Bool)
    (rest : Str) (a : List Str) (f : Str) (b : List Str) (dest : Str)
    (hinstr : instruction line = some (isAdd, rest))
    (htok : TokenizeInstruction rest = ((a ++ f :: b) ++ [dest], none))
    (hf : HasPrefix (ToLower f) "--from=".toList = true)
    (ha : ∀ t ∈ a, HasPrefix (ToLower t) "--from=".toList = false) :
    (((∀ t ∈ a, HasPrefix t ['-', '-'] = true) ∨
          (isAdd = true ∧ ∃ u, (a.filter nonFlag).head? = some u ∧ IsURL u = true)) →
        lineSources line = [] ∧
          ∀ content content1 pre post, SplitDockerfileLines content = pre ++ line :: post →
            SplitDockerfileLines content1 = pre ++ post →
            ParseCOPYADDSources fs content ctx = ParseCOPYADDSources fs content1 ctx) ∧
      (¬ ((∀ t ∈ a, HasPrefix t ['-', '-'] = true) ∨
          (isAdd = true ∧ ∃ u, (a.filter nonFlag).head? = some u ∧ IsURL u = true)) →
        lineSources line = a.filter nonFlag ∧ a.filter nonFlag ≠ [] ∧
          ∀ content pre post, SplitDockerfileLines content = pre ++ line :: post →
            survivors content
              = pre.flatMap lineSources ++ a.filter nonFlag ++ post.flatMap lineSources) := by
  have hls : lineSources line = sourcesOfTokens isAdd ((a ++ f :: b) ++ [dest]) := by
    simp only [lineSources, hinstr, htok]
  have hsrc : lineSources line =
      (match a.filter nonFlag with
        | [] => []
        | first :: _ => if (isAdd && IsURL first) = true then [] else a.filter nonFlag) := by
    rw [hls]
    simp only [sourcesOfTokens_eq, List.dropLast_concat, filterSources_from a b f hf ha]
    cases a.filter nonFlag <;> rfl
  constructor
  · intro hc
    have hl : lineSources line = [] := by
      rw [hsrc]
      rcases hc with hc | ⟨hadd, u, hu1, hu2⟩
      · have hfil : a.filter nonFlag = [] := by
          apply List.filter_eq_nil_iff.2
          intro t ht
          simp [nonFlag, hc t ht]
        rw [hfil]
      · rcases hfl : a.filter nonFlag with _ | ⟨v, more⟩
        · rfl
        · rw [hfl] at hu1
          simp only [List.head?_cons, Option.some.injEq] at hu1
          simp [hu1, hadd, hu2]
    exact ⟨hl, fun content content1 pre post h1 h2 =>
      lineSources_nil_congr fs ctx line hl content content1 pre post h1 h2⟩
  · intro hc
    have hne : a.filter nonFlag ≠ [] := by
      intro hfil
      apply hc
      left
      intro t ht
      have := List.filter_eq_nil_iff.1 hfil t ht
      simpa [nonFlag] using this
    have hl : lineSources line = a.filter nonFlag := by
      rw [hsrc]
      rcases hfl : a.filter nonFlag with _ | ⟨v, more⟩
      · exact absurd hfl hne
      · have hnot : (isAdd && IsURL v) = false := by
          cases h1 : isAdd with
          | false => rfl
          | true =>
            cases h2 : IsURL v with
            | false => rfl
            | true => exact absurd (Or.inr ⟨h1, v, by rw [hfl]; rfl, h2⟩) hc
        simp [hnot]
    refine ⟨hl, hne, ?_⟩
    intro content pre post hsp
    simp [survivors, hsp, hl]

/-- Witness for C11 (as amended): `COPY --chown=1:1 --from=builder /src /app/`
and `ADD http://x/a --from=b c /d` hand nothing to `ExpandSource`, while
`COPY app.py --from=builder x /app/` hands it `app.py`. -/
theorem lineSources_from_flag_witness :
    lineSources "COPY --chown=1:1 --from=builder /src /app/".toList = [] ∧
    ParseCOPYADDSources fsDemo
        "COPY --chown=1:1 --from=builder /src /app/\nCOPY app.py /app/".toList "/ctx".toList
      = ParseCOPYADDSources fsDemo "COPY app.py /app/".toList "/ctx".toList ∧
    lineSources "ADD http://x/a --from=b c /d".toList = [] ∧
    lineSources "COPY app.py --from=builder x /app/".toList = ["app.py".toList].filter nonFlag ∧
    ["app.py".toList].filter nonFlag = ["app.py".toList] ∧
    ParseCOPYADDSources fsDemo "COPY app.py --from=builder x /app/".toList "/ctx".toList
      = (["/ctx/app.py".toList], none) :=
  ⟨((lineSources_from_flag fsDemo "/ctx".toList
      "COPY --chown=1:1 --from=builder /src /app/".toList false
      "--chown=1:1 --from=builder /src /app/".toList ["--chown=1:1".toList]
      "--from=builder".toList ["/src".toList] "/app/".toList
      (by decide) (by decide) (by decide) (by decide)).1 (Or.inl (by decide))).1,
    ((lineSources_from_flag fsDemo "/ctx".toList
      "COPY --chown=1:1 --from=builder /src /app/".toList false
      "--chown=1:1 --from=builder /src /app/".toList ["--chown=1:1".toList]
      "--from=builder".toList ["/src".toList] "/app/".toList
      (by decide) (by decide) (by decide) (by decide)).1 (Or.inl (by decide))).2
      "COPY --chown=1:1 --from=builder /src /app/\nCOPY app.py /app/".toList
      "COPY app.py /app/".toList [] ["COPY app.py /app/".toList] (by decide) (by decide),
    ((lineSources_from_flag fsDemo "/ctx".toList "ADD http://x/a --from=b c /d".toList true
      "http://x/a --from=b c /d".toList ["http://x/a".toList] "--from=b".toList
      ["c".toList] "/d".toList (by decide) (by decide) (by decide) (by decide)).1
      (Or.inr ⟨rfl, "http://x/a".toList, by decide, by decide⟩)).1,
    ((lineSources_from_flag fsDemo "/ctx".toList "COPY app.py --from=builder x /app/".toList
      false "app.py --from=builder x /app/".toList ["app.py".toList] "--from=builder".toList
      ["x".toList] "/app/".toList (by decide) (by decide) (by decide) (by decide)).2
      (fun h => h.elim (fun h1 => absurd (h1 _ (List.mem_singleton_self _)) (by decide))
        (fun h2 => Bool.noConfusion h2.1))).1,
    by decide, by decide⟩

/-- Counterexample to C11 as stated: `COPY app.py --from=builder x /app/` hands
`app.py` to `ExpandSource` and contributes `/ctx/app.py`; with a missing
file before the `--from=` token the instruction makes the parse fail. -/
theorem lineSources_from_keeps_earlier_sources :
    lineSources "COPY app.py --from=builder x /app/".toList = ["app.py".toList] ∧
    ParseCOPYADDSources fsDemo "COPY app.py --from=builder x /app/".toList "/ctx".toList
      = (["/ctx/app.py".toList], none) ∧
    ParseCOPYADDSources fsDemo "COPY gone.py --from=builder x /app/".toList "/ctx".toList
      = ([], some (.errorf "source not found: gone.py".toList)) := by
  decide

theorem IsURL_nonFlag (u : Str) (h : IsURL u = true) : HasPrefix u ['-', '-'] = false := by
  cases u with
  | nil => simp [IsURL, HasPrefix, List.isPrefixOf] at h
  | cons c t =>
    have hc : c = 'h' := by
      simp only [IsURL, HasPrefix, Bool.or_eq_true] at h
      rcases h with h | h
      · change (('h' == c) && _) = true at h
        simp only [Bool.and_eq_true, beq_iff_eq] at h
        exact h.1.symm
      · change (('h' == c) && _) = true at h
        simp only [Bool.and_eq_true, beq_iff_eq] at h
        exact h.1.symm
    subst hc
    simp [HasPrefix, List.isPrefixOf]

theorem addPaths_empty_out (ps : List Str) : (addPaths ps ⟨[], []⟩).out = keepFirst ps := by
  have h := (addPaths_spec ps ⟨[], []⟩ (by simp [AccOk])).2
  simpa using h

/-- C12: the URL rule applies to `ADD` only. For a token `u` that begins with
`http://` or `https://`, an instruction `ADD u dest` hands nothing to
`ExpandSource` and the parse is the one of the Dockerfile without it,
whatever the file system holds; an instruction `COPY u dest` hands `u` to
`ExpandSource`, and a Dockerfile made of that instruction alone returns
what `ExpandSource` returns for `u` (its paths without repetition, or its
error). -/
theorem lineSources_url_rule (fs : FS) (ctx : Str) (line : Str) (isAdd : Bool)
    (rest u dest : Str)
    (hinstr : instruction line = some (isAdd, rest))
    (htok : TokenizeInstruction rest = ([u, dest], none))
    (hu : IsURL u = true) :
    (isAdd = true → lineSources line = [] ∧
      ∀ content content1 pre post, SplitDockerfileLines content = pre ++ line :: post →
        SplitDockerfileLines content1 = pre ++ post →
        ParseCOPYADDSources fs content ctx = ParseCOPYADDSources fs content1 ctx) ∧
    (isAdd = false → lineSources line = [u] ∧
      ∀ content, SplitDockerfileLines content = [line] →
        ParseCOPYADDSources fs content ctx =
          (match ExpandSource fs ctx u with
            | (ps, none) => (keepFirst ps, none)
            | (_, some err) => ([], some err))) := by
  have hfil : filterSources [u] = [u] := by
    simp only [filterSources, IsURL_nonFlag u hu, Bool.false_eq_true, if_false]
  constructor
  · intro ha
    have hl : lineSources line = [] := by
      simp [lineSources, hinstr, htok, sourcesOfTokens_eq, hfil, ha, hu]
    exact ⟨hl, fun content content1 pre post h1 h2 =>
      lineSources_nil_congr fs ctx line hl content content1 pre post h1 h2⟩
  · intro ha
    have hl : lineSources line = [u] := by
      simp [lineSources, hinstr, htok, sourcesOfTokens_eq, hfil, ha]
    refine ⟨hl, ?_⟩
    intro content hc
    rw [ParseCOPYADDSources_eq]
    simp only [survivors, hc, List.flatMap_cons, List.flatMap_nil, List.append_nil, hl,
      expandSources]
    rcases ExpandSource fs ctx u with ⟨ps, _ | err⟩
    · simp [addPaths_empty_out]
    · simp

/-- Witness for C12: `ADD https://example.com/file.tar.gz /tmp/` against
`COPY https://example.com/file.tar.gz /tmp/` on a file system where nothing
exists at the candidate. -/
theorem lineSources_url_rule_witness :
    lineSources "ADD https://example.com/file.tar.gz /tmp/".toList = [] ∧
    ParseCOPYADDSources fsDemo
        "ADD https://example.com/file.tar.gz /tmp/\nCOPY local.txt /app/".toList "/ctx".toList
      = ParseCOPYADDSources fsDemo "COPY local.txt /app/".toList "/ctx".toList ∧
    lineSources "COPY https://example.com/file.tar.gz /tmp/".toList
      = ["https://example.com/file.tar.gz".toList] ∧
    ParseCOPYADDSources fsDemo "COPY https://example.com/file.tar.gz /tmp/".toList
        "/ctx".toList
      = (match ExpandSource fsDemo "/ctx".toList "https://example.com/file.tar.gz".toList with
          | (ps, none) => (keepFirst ps, none)
          | (_, some err) => ([], some err)) ∧
    ExpandSource fsDemo "/ctx".toList "https://example.com/file.tar.gz".toList
      = ([], some (.errorf "source not found: https:/example.com/file.tar.gz".toList)) :=
  ⟨((lineSources_url_rule fsDemo "/ctx".toList
        "ADD https://example.com/file.tar.gz /tmp/".toList true
        "https://example.com/file.tar.gz /tmp/".toList
        "https://example.com/file.tar.gz".toList "/tmp/".toList
        (by decide) (by decide) (by decide)).1 rfl).1,
    ((lineSources_url_rule fsDemo "/ctx".toList
        "ADD https://example.com/file.tar.gz /tmp/".toList true
        "https://example.com/file.tar.gz /tmp/".toList
        "https://example.com/file.tar.gz".toList "/tmp/".toList
        (by decide) (by decide) (by decide)).1 rfl).2
      "ADD https://example.com/file.tar.gz /tmp/\nCOPY local.txt /app/".toList
      "COPY local.txt /app/".toList [] ["COPY local.txt /app/".toList]
      (by decide) (by decide),
    ((lineSources_url_rule fsDemo "/ctx".toList
        "COPY https://example.com/file.tar.gz /tmp/".toList false
        "https://example.com/file.tar.gz /tmp/".toList
        "https://example.com/file.tar.gz".toList "/tmp/".toList
        (by decide) (by decide) (by decide)).2 rfl).1,
    ((lineSources_url_rule fsDemo "/ctx".toList
        "COPY https://example.com/file.tar.gz /tmp/".toList false
        "https://example.com/file.tar.gz /tmp/".toList
        "https://example.com/file.tar.gz".toList "/tmp/".toList
        (by decide) (by decide) (by decide)).2 rfl).2
      "COPY https://example.com/file.tar.gz /tmp/".toList (by decide),
    by decide⟩

theorem toUpper_cases (c : Char) :
    c.toUpper = c ∨ (97 ≤ c.toNat ∧ c.toNat ≤ 122 ∧ c.toUpper = Char.ofNat (c.toNat - 32)) := by
  unfold Char.toUpper
  simp only
  split
  · next h => exact Or.inr ⟨h.1, h.2, rfl⟩
  · exact Or.inl rfl

theorem isSpace_false_of_letter (c : Char) (h : 65 ≤ c.toNat ∧ c.toNat ≤ 122) :
    isSpace c = false := by
  simp only [isSpace, Bool.or_eq_false_iff, Bool.and_eq_false_iff, decide_eq_false_iff_not]
  omega

theorem upperRune_space (c : Char) (h : upperRune c = ' ') : c = ' ' := by
  unfold upperRune at h
  split at h
  · exact absurd h (by decide)
  · split at h
    · exact absurd h (by decide)
    · rcases toUpper_cases c with e | ⟨h1, h2, e⟩
      · rw [e] at h
        exact h
      · exfalso
        rw [e] at h
        generalize c.toNat = n at h h1 h2
        interval_cases n <;> exact absurd h (by decide)

theorem upperRune_letter (c x : Char) (hx : 65 ≤ x.toNat ∧ x.toNat ≤ 90)
    (h : upperRune c = x) : isSpace c = false := by
  unfold upperRune at h
  split at h
  · next hc =>
    simp only [isSpace, hc, Bool.or_eq_false_iff, Bool.and_eq_false_iff,
      decide_eq_false_iff_not]
    omega
  · split at h
    · next hc =>
      simp only [isSpace, hc, Bool.or_eq_false_iff, Bool.and_eq_false_iff,
        decide_eq_false_iff_not]
      omega
    · rcases toUpper_cases c with e | ⟨h1, h2, _⟩
      · rw [e] at h
        rw [h]
        exact isSpace_false_of_letter x ⟨hx.1, by omega⟩
      · exact isSpace_false_of_letter c ⟨by omega, h2⟩

theorem keyword_firstWord (kw l : Str) (hkw : ∀ x ∈ kw, 65 ≤ x.toNat ∧ x.toNat ≤ 90)
    (h : (kw ++ [' ']).isPrefixOf (l.map upperRune) = true) :
    (l.takeWhile (fun c => !isSpace c)).map upperRune = kw ∧
      IndexByte l ' ' = some kw.length := by
  induction kw generalizing l with
  | nil =>
    cases l with
    | nil => simp [List.isPrefixOf] at h
    | cons c r =>
      simp only [List.nil_append, List.map_cons, List.isPrefixOf, Bool.and_true,
        beq_iff_eq] at h
      have hc := upperRune_space c h.symm
      subst hc
      constructor
      · rw [List.takeWhile_cons]
        rfl
      · simp [IndexByte, indexWhere]
  | cons x kw ih =>
    cases l with
    | nil => simp [List.isPrefixOf] at h
    | cons c r =>
      simp only [List.cons_append, List.map_cons, List.isPrefixOf, Bool.and_eq_true,
        beq_iff_eq] at h
      obtain ⟨h1, h2⟩ := h
      have hsp := upperRune_letter c x (hkw x (List.mem_cons_self _ _)) h1.symm
      obtain ⟨i1, i2⟩ := ih r (fun y hy => hkw y (List.mem_cons_of_mem _ hy)) h2
      have hne : c ≠ ' ' := by
        intro e
        rw [e] at hsp
        exact absurd hsp (by decide)
      constructor
      · rw [List.takeWhile_cons]
        simp only [hsp, Bool.not_false, if_true, List.map_cons, i1, ← h1]
      · simp only [IndexByte, indexWhere, hne, decide_False, Bool.false_eq_true, if_false]
        simp only [IndexByte] at i2
        simp [i2]

theorem instruction_none_of_ignorable (line : Str) (h : ignorable line = true) :
    instruction line = none := by
  unfold instruction
  simp only
  split
  · rfl
  · next hn =>
    simp only [not_or] at hn
    have h1 : HasPrefix (ToUpper (TrimSpace line)) "COPY ".toList = false := by
      cases hc : HasPrefix (ToUpper (TrimSpace line)) "COPY ".toList with
      | false => rfl
      | true =>
        exfalso
        have := (keyword_firstWord "COPY".toList (TrimSpace line) (by decide) hc).1
        simp [ignorable, hn.1, hn.2, firstWord, ToUpper, this] at h
    have h2 : HasPrefix (ToUpper (TrimSpace line)) "ADD ".toList = false := by
      cases hc : HasPrefix (ToUpper (TrimSpace line)) "ADD ".toList with
      | false => rfl
      | true =>
        exfalso
        have := (keyword_firstWord "ADD".toList (TrimSpace line) (by decide) hc).1
        simp [ignorable, hn.1, hn.2, firstWord, ToUpper, this] at h
    simp only [h1, h2, Bool.not_false, Bool.and_self, if_true]

theorem flatMap_lineSources_nil (lines : List Str)
    (h : ∀ l ∈ lines, lineSources l = []) : lines.flatMap lineSources = [] := by
  induction lines with
  | nil => rfl
  | cons l lines ih =>
    simp [h l (List.mem_cons_self _ _), ih (fun x hx => h x (List.mem_cons_of_mem _ hx))]

/-- C13: a logical line that is empty, starts with `#`, or whose first word is
neither `COPY` nor `ADD` in any letter case hands nothing to `ExpandSource`:
removing it leaves the result of `ParseCOPYADDSources` unchanged, and a
Dockerfile made only of such lines yields the empty list and no error. -/
theorem ParseCOPYADDSources_ignores_other_lines (fs : FS) (ctx : Str) (line : Str)
    (h : ignorable line = true) :
    lineSources line = [] ∧
      (∀ content content1 pre post, SplitDockerfileLines content = pre ++ line :: post →
        SplitDockerfileLines content1 = pre ++ post →
        ParseCOPYADDSources fs content ctx = ParseCOPYADDSources fs content1 ctx) ∧
      (∀ content, (∀ l ∈ SplitDockerfileLines content, ignorable l = true) →
        ParseCOPYADDSources fs content ctx = ([], none)) := by
  have key : ∀ l, ignorable l = true → lineSources l = [] := by
    intro l hl
    simp [lineSources, instruction_none_of_ignorable l hl]
  refine ⟨key line h, fun content content1 pre post h1 h2 =>
    lineSources_nil_congr fs ctx line (key line h) content content1 pre post h1 h2, ?_⟩
  intro content hall
  rw [ParseCOPYADDSources_eq]
  have : survivors content = [] :=
    flatMap_lineSources_nil _ (fun l hl => key l (hall l hl))
  rw [this]
  rfl

/-- Witness for C13: a comment that holds the text of a `COPY` instruction,
between a `FROM` line and a real `COPY`. -/
theorem ParseCOPYADDSources_ignores_other_lines_witness :
    ignorable "# COPY ignored.py /app/".toList = true ∧
    lineSources "# COPY ignored.py /app/".toList = [] ∧
    ParseCOPYADDSources fsDemo
        "FROM ubuntu:20.04\n# COPY ignored.py /app/\nCOPY app.py /app/\n".toList "/ctx".toList
      = ParseCOPYADDSources fsDemo "FROM ubuntu:20.04\nCOPY app.py /app/\n".toList
          "/ctx".toList ∧
    ParseCOPYADDSources fsDemo "FROM ubuntu:20.04\n\n# COPY x /y\nRUN echo COPY a b\n".toList
        "/ctx".toList = ([], none) :=
  ⟨by decide,
    (ParseCOPYADDSources_ignores_other_lines fsDemo "/ctx".toList
      "# COPY ignored.py /app/".toList (by decide)).1,
    (ParseCOPYADDSources_ignores_other_lines fsDemo "/ctx".toList
      "# COPY ignored.py /app/".toList (by decide)).2.1
      "FROM ubuntu:20.04\n# COPY ignored.py /app/\nCOPY app.py /app/\n".toList
      "FROM ubuntu:20.04\nCOPY app.py /app/\n".toList
      ["FROM ubuntu:20.04".toList] ["COPY app.py /app/".toList] (by decide) (by decide),
    (ParseCOPYADDSources_ignores_other_lines fsDemo "/ctx".toList
      "# COPY ignored.py /app/".toList (by decide)).2.2
      "FROM ubuntu:20.04\n\n# COPY x /y\nRUN echo COPY a b\n".toList (by decide)⟩

theorem instruction_of_keyword (line kw : Str)
    (hk : kw = "COPY".toList ∨ kw = "ADD".toList)
    (h : HasPrefix (ToUpper (TrimSpace line)) (kw ++ [' ']) = true) :
    instruction line =
      some (decide (kw = "ADD".toList), TrimSpace ((TrimSpace line).drop (kw.length + 1))) := by
  have hkw : ∀ x ∈ kw, 65 ≤ x.toNat ∧ x.toNat ≤ 90 := by
    rcases hk with e | e <;> subst e <;> decide
  have hidx := (keyword_firstWord kw (TrimSpace line) hkw h).2
  unfold instruction
  simp only
  generalize TrimSpace line = l at h hidx
  have hne : l ≠ [] := by
    intro e
    subst e
    rcases hk with e | e <;> subst e <;> exact absurd h (by decide)
  have hhash : HasPrefix l ['#'] = false := by
    cases l with
    | nil => exact absurd rfl hne
    | cons c r =>
      cases hc : HasPrefix (c :: r) ['#'] with
      | false => rfl
      | true =>
        exfalso
        have e : c = '#' := by
          simp only [HasPrefix, List.isPrefixOf, Bool.and_eq_true, beq_iff_eq] at hc
          exact hc.1.symm
        subst e
        rcases hk with e | e <;> subst e <;>
          simp [HasPrefix, ToUpper, List.isPrefixOf] at h <;> exact absurd h.1 (by decide)
  rcases hk with e | e
  · subst e
    have h1 : HasPrefix (ToUpper l) "COPY ".toList = true := h
    have h2 : HasPrefix (ToUpper l) "ADD ".toList = false := by
      cases l with
      | nil => exact absurd rfl hne
      | cons c r =>
        cases hc : HasPrefix (ToUpper (c :: r)) "ADD ".toList with
        | false => rfl
        | true =>
          exfalso
          change (('C' == upperRune c) && _) = true at h1
          change (('A' == upperRune c) && _) = true at hc
          simp only [Bool.and_eq_true, beq_iff_eq] at h1 hc
          rw [← h1.1] at hc
          exact absurd hc.1 (by decide)
    simp only [hne, hhash, false_or, Bool.false_eq_true, if_false, h1, h2, Bool.not_true,
      Bool.false_and, hidx]
    rfl
  · subst e
    have h1 : HasPrefix (ToUpper l) "ADD ".toList = true := h
    simp only [hne, hhash, false_or, Bool.false_eq_true, if_false, h1, Bool.not_true,
      Bool.and_false, hidx]
    rfl

/-- C14 at a tab after the keyword: the first whitespace-delimited word of
`COPY<TAB>app.py /app/` is `COPY`, yet the line is skipped and contributes
nothing, while `COPY app.py /app/` and `copy app.py /app/` contribute
`/ctx/app.py`. -/
theorem instruction_tab_after_keyword_skipped :
    firstWord "COPY\tapp.py /app/".toList = "COPY".toList ∧
    instruction "COPY\tapp.py /app/".toList = none ∧
    ParseCOPYADDSources fsDemo "COPY\tapp.py /app/".toList "/ctx".toList = ([], none) ∧
    ParseCOPYADDSources fsDemo "COPY app.py /app/".toList "/ctx".toList
      = (["/ctx/app.py".toList], none) ∧
    ParseCOPYADDSources fsDemo "copy app.py /app/".toList "/ctx".toList
      = (["/ctx/app.py".toList], none) := by
  decide

/-- C17 at two consecutive blank lines, and at a whitespace-only line:
`SplitDockerfileLines` returns an empty string for the blank line. -/
theorem SplitDockerfileLines_keeps_blank_line :
    SplitDockerfileLines "a\n\n\nb".toList = ["a".toList, [], "b".toList] ∧
    SplitDockerfileLines "a\n \nb".toList = ["a".toList, [], "b".toList] ∧
    SplitDockerfileLines "a\r\n\r\nb".toList = ["a".toList, [], "b".toList] ∧
    SplitDockerfileLines "a\n\nb".toList = ["a".toList, "b".toList] ∧
    SplitDockerfileLines "a\n ".toList = ["a".toList] := by
  decide

/-- C18 at the first physical line of a logical line: a backslash followed by
a space is not taken for a continuation there, while the same ending on a
line that is already a continuation is. -/
theorem SplitDockerfileLines_backslash_space_first_line :
    SplitDockerfileLines "COPY a \\ \nb /d".toList
      = ["COPY a \\".toList, "b /d".toList] ∧
    SplitDockerfileLines "COPY a \\\nb /d".toList = ["COPY a b /d".toList] ∧
    SplitDockerfileLines "COPY a \\\nb \\ \nc /d".toList = ["COPY a b c /d".toList] := by
  decide

/-! ## `SplitDockerfileLines` on plain lines -/

theorem indexWhere_append (p : Char → Bool) (l : Str) (c : Char) (r : Str)
    (hl : ∀ x ∈ l, p x = false) (hc : p c = true) :
    indexWhere p (l ++ c :: r) = some l.length := by
  induction l with
  | nil => simp [indexWhere, hc]
  | cons a l ih =>
    have ha := hl a (List.mem_cons_self _ _)
    simp [indexWhere, ha, ih (fun x hx => hl x (List.mem_cons_of_mem _ hx))]

theorem indexWhere_none (p : Char → Bool) (l : Str) (hl : ∀ x ∈ l, p x = false) :
    indexWhere p l = none := by
  induction l with
  | nil => rfl
  | cons a l ih =>
    have ha := hl a (List.mem_cons_self _ _)
    simp [indexWhere, ha, ih (fun x hx => hl x (List.mem_cons_of_mem _ hx))]

theorem rdropWhile_of_all_false (p : Char → Bool) (l : Str) (hl : ∀ x ∈ l, p x = false) :
    l.rdropWhile p = l := by
  rw [List.rdropWhile_eq_self_iff]
  intro hne
  simp [hl _ (List.getLast_mem hne)]

theorem splitLoop_step (n : Nat) (s : Str) (lines : List Str) (idx : Nat)
    (hn : s.length < n) (hI : IndexAny s ['\n', '\r'] = some idx) :
    splitLoop n s lines =
      splitLoop
        ((joinContinued ((skipLineEnd (s.drop (idx + 1))).length + 1)
          (TrimRight (s.take idx) ['\r', '\n']) (skipLineEnd (s.drop (idx + 1)))).2.length + 1)
        (joinContinued ((skipLineEnd (s.drop (idx + 1))).length + 1)
          (TrimRight (s.take idx) ['\r', '\n']) (skipLineEnd (s.drop (idx + 1)))).2
        (lines ++ [TrimSpace (joinContinued ((skipLineEnd (s.drop (idx + 1))).length + 1)
          (TrimRight (s.take idx) ['\r', '\n']) (skipLineEnd (s.drop (idx + 1)))).1]) := by
  cases n with
  | zero => omega
  | succ n =>
    conv_lhs => rw [splitLoop]
    simp only [hI]
    have hlt := indexWhere_lt _ s idx hI
    have hsk := skipLineEnd_length_le (s.drop (idx + 1))
    rw [List.length_drop] at hsk
    have hj := joinContinued_length_le ((skipLineEnd (s.drop (idx + 1))).length + 1)
      (TrimRight (s.take idx) ['\r', '\n']) (skipLineEnd (s.drop (idx + 1)))
    apply splitLoop_fuel <;> omega

theorem splitLoop_last (n : Nat) (s : Str) (lines : List Str)
    (hI : IndexAny s ['\n', '\r'] = none) :
    splitLoop (n + 1) s lines = if TrimSpace s ≠ [] then lines ++ [TrimSpace s] else lines := by
  simp only [splitLoop, hI]

theorem joinContinued_no_backslash (n : Nat) (line s : Str)
    (h : HasSuffix line [backslash] = false) : joinContinued (n + 1) line s = (line, s) := by
  simp [joinContinued, h]

theorem plainLine_iff (l : Str) :
    plainLine l = true ↔
      (∀ c ∈ l, c ≠ '\n' ∧ c ≠ '\r') ∧ TrimSpace l ≠ [] ∧ HasSuffix l [backslash] = false := by
  simp [plainLine, and_assoc]

theorem plainLine_ne_nil (l : Str) (h : plainLine l = true) : l ≠ [] := by
  intro e
  subst e
  exact absurd h (by decide)

theorem startsLine_of_plain (l r : Str) (h : plainLine l = true) :
    startsLine (l ++ r) = true := by
  cases l with
  | nil => exact absurd rfl (plainLine_ne_nil [] h)
  | cons c l =>
    have := ((plainLine_iff _).1 h).1 c (List.mem_cons_self _ _)
    simp [startsLine, this.1, this.2]

theorem skipLineEnd_of_startsLine (s : Str) (h : startsLine s = true) :
    skipLineEnd s = s := by
  cases s with
  | nil => rfl
  | cons c s =>
    simp only [startsLine, Bool.and_eq_true, bne_iff_ne, ne_eq] at h
    simp [skipLineEnd, h.1, h.2]

theorem splitLoop_plain_line (n : Nat) (l e rest : Str) (lines : List Str)
    (hl : plainLine l = true) (he : e ∈ lineEndings) (hrest : startsLine rest = true)
    (hn : (l ++ e ++ rest).length < n) :
    splitLoop n (l ++ e ++ rest) lines
      = splitLoop (rest.length + 1) rest (lines ++ [TrimSpace l]) := by
  obtain ⟨h1, _, h3⟩ := (plainLine_iff l).1 hl
  have hnoend : ∀ x ∈ l, (['\n', '\r'].contains x) = false := by
    intro x hx
    have := h1 x hx
    simp [this.1, this.2]
  have htrim : TrimRight l ['\r', '\n'] = l := by
    apply rdropWhile_of_all_false
    intro x hx
    have := h1 x hx
    simp [this.1, this.2]
  have key : ∀ (c : Char) (tl : Str), (['\n', '\r'].contains c) = true →
      skipLineEnd (tl ++ rest) = rest → e = c :: tl →
      splitLoop n (l ++ e ++ rest) lines
        = splitLoop (rest.length + 1) rest (lines ++ [TrimSpace l]) := by
    intro c tl hc hskip hce
    subst hce
    have hI : IndexAny (l ++ (c :: tl) ++ rest) ['\n', '\r'] = some l.length := by
      rw [List.append_assoc, List.cons_append]
      exact indexWhere_append _ l c (tl ++ rest) hnoend hc
    rw [splitLoop_step n _ lines l.length hn hI]
    have htake : (l ++ (c :: tl) ++ rest).take l.length = l := by
      rw [List.append_assoc, List.take_left']
      rfl
    have hdrop : (l ++ (c :: tl) ++ rest).drop (l.length + 1) = tl ++ rest := by
      rw [List.append_assoc, List.cons_append, ← List.drop_drop, List.drop_left']
      · rfl
      · rfl
    rw [htake, hdrop, hskip, htrim, joinContinued_no_backslash _ _ _ h3]
  simp only [lineEndings, List.mem_cons, List.mem_singleton, List.not_mem_nil, or_false] at he
  rcases he with e1 | e1 | e1
  · exact key '\n' [] (by decide) (skipLineEnd_of_startsLine rest hrest) e1
  · exact key '\r' [] (by decide) (skipLineEnd_of_startsLine rest hrest) e1
  · exact key '\r' ['\n'] (by decide) (by simp [skipLineEnd]) e1

theorem startsLine_joinPhysical (ls : List (Str × Str)) (last : Str)
    (hls : ∀ p ∈ ls, plainLine p.1 = true ∧ p.2 ∈ lineEndings)
    (hlast : last = [] ∨ plainLine last = true) :
    startsLine (joinPhysical ls last) = true := by
  cases ls with
  | nil =>
    rcases hlast with e | e
    · subst e
      rfl
    · simpa [joinPhysical] using startsLine_of_plain last [] e
  | cons p ls =>
    have := (hls p (List.mem_cons_self _ _)).1
    simp only [joinPhysical, List.flatMap_cons, List.append_assoc]
    exact startsLine_of_plain p.1 _ this

theorem splitLoop_joinPhysical (ls : List (Str × Str)) (last : Str) (acc : List Str)
    (hls : ∀ p ∈ ls, plainLine p.1 = true ∧ p.2 ∈ lineEndings)
    (hlast : last = [] ∨ plainLine last = true) :
    splitLoop ((joinPhysical ls last).length + 1) (joinPhysical ls last) acc =
      acc ++ ls.map (fun p => TrimSpace p.1) ++ (if last = [] then [] else [TrimSpace last]) := by
  induction ls generalizing acc with
  | nil =>
    simp only [joinPhysical, List.flatMap_nil, List.nil_append, List.map_nil, List.append_nil]
    rcases hlast with e | e
    · subst e
      rw [splitLoop_last _ _ _ (by rfl)]
      simp [TrimSpace]
    · obtain ⟨h1, h2, _⟩ := (plainLine_iff last).1 e
      have hI : IndexAny last ['\n', '\r'] = none := by
        apply indexWhere_none
        intro x hx
        have := h1 x hx
        simp [this.1, this.2]
      rw [splitLoop_last _ _ _ hI]
      have hne : last ≠ [] := plainLine_ne_nil last e
      simp [h2, hne]
  | cons p ls ih =>
    obtain ⟨hp1, hp2⟩ := hls p (List.mem_cons_self _ _)
    have hls1 : ∀ q ∈ ls, plainLine q.1 = true ∧ q.2 ∈ lineEndings :=
      fun q hq => hls q (List.mem_cons_of_mem _ hq)
    have hj : joinPhysical (p :: ls) last = p.1 ++ p.2 ++ joinPhysical ls last := by
      simp [joinPhysical]
    rw [hj, splitLoop_plain_line _ p.1 p.2 _ acc hp1 hp2
      (startsLine_joinPhysical ls last hls1 hlast) (Nat.lt_succ_self _), ih _ hls1]
    simp

/-- C15: for physical lines that hold no line-ending character, are not blank
after trimming and do not end in a backslash, each followed by `\n`, `\r` or
`\r\n` (the last one optionally by nothing), `SplitDockerfileLines` returns
exactly those lines, trimmed, in their order. -/
theorem SplitDockerfileLines_plain_lines (ls : List (Str × Str)) (last : Str)
    (hls : ∀ p ∈ ls, plainLine p.1 = true ∧ p.2 ∈ lineEndings)
    (hlast : last = [] ∨ plainLine last = true) :
    SplitDockerfileLines (joinPhysical ls last) =
      ls.map (fun p => TrimSpace p.1) ++ (if last = [] then [] else [TrimSpace last]) := by
  have := splitLoop_joinPhysical ls last [] hls hlast
  simpa [SplitDockerfileLines] using this

/-- Witness for C15: a comment, an indented line and a last line without line
ending, with the three line endings mixed. -/
theorem SplitDockerfileLines_plain_lines_witness :
    joinPhysical [("# comment".toList, ['\r', '\n']), ("  FROM x ".toList, ['\r']),
        ("RUN b".toList, ['\n'])] "COPY a /b".toList
      = "# comment\r\n  FROM x \rRUN b\nCOPY a /b".toList ∧
    SplitDockerfileLines (joinPhysical [("# comment".toList, ['\r', '\n']),
        ("  FROM x ".toList, ['\r']), ("RUN b".toList, ['\n'])] "COPY a /b".toList)
      = [("# comment".toList, ['\r', '\n']), ("  FROM x ".toList, ['\r']),
          ("RUN b".toList, ['\n'])].map (fun p => TrimSpace p.1)
        ++ (if "COPY a /b".toList = [] then [] else [TrimSpace "COPY a /b".toList]) ∧
    SplitDockerfileLines "# comment\r\n  FROM x \rRUN b\nCOPY a /b".toList
      = ["# comment".toList, "FROM x".toList, "RUN b".toList, "COPY a /b".toList] :=
  ⟨by decide,
    SplitDockerfileLines_plain_lines _ _ (by decide) (by decide),
    by decide⟩

/-! ## `SplitDockerfileLines` on continued lines -/

theorem dropWhile_append_of_head_false (p : Char → Bool) (a : Str) (c : Char) (r : Str)
    (hc : p c = false) : (a ++ c :: r).dropWhile p = a.dropWhile p ++ c :: r := by
  induction a with
  | nil => simp [List.dropWhile_cons, hc]
  | cons x a ih =>
    rw [List.cons_append, List.dropWhile_cons, List.dropWhile_cons]
    split
    · exact ih
    · rfl

theorem dropWhile_append_of_ne_nil (p : Char → Bool) (u v : Str)
    (h : u.dropWhile p ≠ []) : (u ++ v).dropWhile p = u.dropWhile p ++ v := by
  induction u with
  | nil => exact absurd rfl h
  | cons x u ih =>
    rw [List.cons_append, List.dropWhile_cons, List.dropWhile_cons] at *
    split
    · next hx =>
      rw [if_pos hx] at h
      exact ih h
    · rfl

theorem rdropWhile_append_of_ne_nil (p : Char → Bool) (x b : Str)
    (h : b.rdropWhile p ≠ []) : (x ++ b).rdropWhile p = x ++ b.rdropWhile p := by
  have h1 : b.reverse.dropWhile p ≠ [] := by
    intro e
    apply h
    simp [List.rdropWhile, e]
  simp only [List.rdropWhile, List.reverse_append,
    dropWhile_append_of_ne_nil p b.reverse x.reverse h1, List.reverse_reverse]

theorem rdropWhile_cons_of_neg (p : Char → Bool) (c : Char) (v : Str) (hc : p c = false) :
    (c :: v).rdropWhile p = c :: v.rdropWhile p := by
  simp only [List.rdropWhile, List.reverse_cons,
    dropWhile_append_of_head_false p v.reverse c [] hc, List.reverse_append,
    List.reverse_reverse]
  rfl

theorem isSpace_of_blank (c : Char) (h : ([' ', '\t'].contains c) = true) :
    isSpace c = true := by
  simp only [List.contains_cons, List.contains_nil, Bool.or_false, Bool.or_eq_true,
    beq_iff_eq] at h
  rcases h with e | e <;> subst e <;> decide

theorem dropWhile_TrimRight_comm (a : Str) :
    (TrimRight a [' ', '\t']).dropWhile isSpace = piece a := by
  unfold piece TrimRight
  rcases hd : a.dropWhile isSpace with _ | ⟨c, v⟩
  · have hall : ∀ x ∈ a, isSpace x = true := by
      simpa [List.dropWhile_eq_nil_iff] using hd
    have hpre := List.rdropWhile_prefix (fun c => [' ', '\t'].contains c) a
    simp only [List.rdropWhile_nil]
    rw [List.dropWhile_eq_nil_iff]
    intro x hx
    exact hall x (hpre.subset hx)
  · have hc : isSpace c = false := dropWhile_head_false isSpace a c v hd
    have hcb : ([' ', '\t'].contains c) = false := by
      cases hb : ([' ', '\t'].contains c) with
      | false => rfl
      | true =>
        rw [isSpace_of_blank c hb] at hc
        exact Bool.noConfusion hc
    have ha : a = a.takeWhile isSpace ++ c :: v := by
      rw [← hd, List.takeWhile_append_dropWhile]
    have hr : (c :: v).rdropWhile (fun c => [' ', '\t'].contains c)
        = c :: v.rdropWhile (fun c => [' ', '\t'].contains c) :=
      rdropWhile_cons_of_neg _ c v hcb
    rw [hr]
    conv_lhs => rw [ha]
    rw [rdropWhile_append_of_ne_nil _ _ _ (by rw [hr]; simp), hr,
      dropWhile_append_of_head_false isSpace _ c _ hc]
    have : (a.takeWhile isSpace).dropWhile isSpace = [] := by
      rw [List.dropWhile_eq_nil_iff]
      intro x hx
      exact (List.mem_takeWhile_imp hx)
    rw [this]
    rfl

theorem HasSuffix_concat (x : Str) (c : Char) : HasSuffix (x ++ [c]) [c] = true := by
  simp [HasSuffix, List.isSuffixOf]

theorem TrimSuffix_concat (x : Str) (c : Char) : TrimSuffix (x ++ [c]) [c] = x := by
  simp [TrimSuffix, HasSuffix_concat]

theorem HasSuffix_singleton_iff (s : Str) (c : Char) :
    HasSuffix s [c] = true ↔ ∃ x, s = x ++ [c] := by
  simp only [HasSuffix, List.isSuffixOf_iff_suffix]
  constructor
  · rintro ⟨x, hx⟩
    exact ⟨x, hx.symm⟩
  · rintro ⟨x, hx⟩
    exact ⟨x, hx.symm⟩

theorem HasSuffix_append_of_ne_nil (a b : Str) (c : Char) (hb : b ≠ []) :
    HasSuffix (a ++ b) [c] = HasSuffix b [c] := by
  rw [Bool.eq_iff_iff, HasSuffix_singleton_iff, HasSuffix_singleton_iff]
  constructor
  · rintro ⟨x, hx⟩
    obtain ⟨y, hy⟩ : ∃ y, b = y ++ [b.getLast hb] := ⟨b.dropLast, (List.dropLast_append_getLast hb).symm⟩
    rw [hy, ← List.append_assoc] at hx
    have := List.append_inj' hx rfl
    have hc : [b.getLast hb] = [c] := this.2
    exact ⟨y, by rw [hy]; simp at hc; simp [hc]⟩
  · rintro ⟨x, hx⟩
    exact ⟨a ++ x, by rw [hx, List.append_assoc]⟩

theorem TrimSpace_concat_backslash (a : Str) :
    TrimSpace (a ++ [backslash]) = a.dropWhile isSpace ++ [backslash] := by
  have hb : isSpace backslash = false := by decide
  unfold TrimSpace
  rw [dropWhile_append_of_head_false isSpace a backslash [] hb,
    List.rdropWhile_concat_neg _ _ _ (by simp [hb])]

theorem TrimSpace_last_not_space (s : Str) (h : TrimSpace s ≠ []) :
    isSpace ((TrimSpace s).getLast h) = false := by
  have := List.rdropWhile_last_not isSpace (s.dropWhile isSpace) h
  simpa [TrimSpace] using this

theorem noLineEnd_iff (l : Str) :
    noLineEnd l = true ↔ ∀ x ∈ l, (['\n', '\r'].contains x) = false := by
  simp only [noLineEnd, List.all_eq_true, Bool.and_eq_true, bne_iff_ne, ne_eq,
    List.contains_cons, List.contains_nil, Bool.or_false, Bool.or_eq_false_iff,
    beq_eq_false_iff_ne]

theorem lineEnd_cut (l e rest : Str) (hl : noLineEnd l = true) (he : e ∈ lineEndings)
    (hrest : startsLine rest = true) :
    IndexAny (l ++ e ++ rest) ['\n', '\r'] = some l.length ∧
      (l ++ e ++ rest).take l.length = l ∧
      skipLineEnd ((l ++ e ++ rest).drop (l.length + 1)) = rest := by
  have hnoend := (noLineEnd_iff l).1 hl
  have key : ∀ (c : Char) (tl : Str), (['\n', '\r'].contains c) = true →
      skipLineEnd (tl ++ rest) = rest → e = c :: tl →
      IndexAny (l ++ e ++ rest) ['\n', '\r'] = some l.length ∧
        (l ++ e ++ rest).take l.length = l ∧
        skipLineEnd ((l ++ e ++ rest).drop (l.length + 1)) = rest := by
    intro c tl hc hskip hce
    subst hce
    refine ⟨?_, ?_, ?_⟩
    · rw [List.append_assoc, List.cons_append]
      exact indexWhere_append _ l c (tl ++ rest) hnoend hc
    · rw [List.append_assoc, List.take_left']
      rfl
    · rw [List.append_assoc, List.cons_append, ← List.drop_drop, List.drop_left']
      · exact hskip
      · rfl
  simp only [lineEndings, List.mem_cons, List.mem_singleton, List.not_mem_nil, or_false] at he
  rcases he with e1 | e1 | e1
  · exact key '\n' [] (by decide) (skipLineEnd_of_startsLine rest hrest) e1
  · exact key '\r' [] (by decide) (skipLineEnd_of_startsLine rest hrest) e1
  · exact key '\r' ['\n'] (by decide) (by simp [skipLineEnd]) e1

theorem joinContinued_step (n : Nat) (x s : Str) (idx : Nat)
    (hI : IndexAny s ['\n', '\r'] = some idx) :
    joinContinued (n + 1) (x ++ [backslash]) s =
      joinContinued n (TrimRight x [' ', '\t'] ++ ' ' :: TrimSpace (s.take idx))
        (skipLineEnd (s.drop (idx + 1))) := by
  rw [joinContinued]
  simp only [HasSuffix_concat, if_true, TrimSuffix_concat, hI]

theorem joinContinued_end (n : Nat) (x s : Str)
    (hI : IndexAny s ['\n', '\r'] = none) :
    joinContinued (n + 1) (x ++ [backslash]) s =
      (TrimRight x [' ', '\t'] ++ ' ' :: TrimSpace s, []) := by
  rw [joinContinued]
  simp only [HasSuffix_concat, if_true, TrimSuffix_concat, hI]

theorem joinContinued_done (n : Nat) (line s : Str)
    (h : HasSuffix line [backslash] = false) : joinContinued n line s = (line, s) := by
  cases n with
  | zero => rfl
  | succ n => exact joinContinued_no_backslash n line s h

theorem startsLine_append (l r : Str) (hl : noLineEnd l = true) (hne : l ≠ []) :
    startsLine (l ++ r) = true := by
  cases l with
  | nil => exact absurd rfl hne
  | cons c l =>
    have := (noLineEnd_iff _).1 hl c (List.mem_cons_self _ _)
    simp only [List.contains_cons, List.contains_nil, Bool.or_false, Bool.or_eq_false_iff,
      beq_eq_false_iff_ne, ne_eq] at this
    simp [startsLine, this.1, this.2]

theorem noLineEnd_concat_backslash (a : Str) (h : noLineEnd a = true) :
    noLineEnd (a ++ [backslash]) = true := by
  rw [noLineEnd_iff] at h ⊢
  intro x hx
  rcases List.mem_append.1 hx with h1 | h1
  · exact h x h1
  · rw [List.mem_singleton.1 h1]
    decide

theorem TrimSpace_ne_nil_ne_nil (l : Str) (h : TrimSpace l ≠ []) : l ≠ [] := by
  intro e
  subst e
  exact h (by decide)

theorem startsLine_continued (middle : List (Str × Str)) (lastLine tail : Str)
    (hmid : ∀ p ∈ middle, noLineEnd p.1 = true ∧ p.2 ∈ lineEndings ∧ piece p.1 ≠ [])
    (hl1 : noLineEnd lastLine = true) (hl2 : TrimSpace lastLine ≠ []) :
    startsLine (continuedText middle ++ lastLine ++ tail) = true := by
  cases middle with
  | nil =>
    simp only [continuedText, List.flatMap_nil, List.nil_append]
    exact startsLine_append _ _ hl1 (TrimSpace_ne_nil_ne_nil _ hl2)
  | cons p more =>
    have h1 := (hmid p (List.mem_cons_self _ _)).1
    have e : continuedText (p :: more) ++ lastLine ++ tail
        = (p.1 ++ [backslash]) ++ (p.2 ++ continuedText more ++ lastLine ++ tail) := by
      simp [continuedText]
    rw [e]
    exact startsLine_append _ _ (noLineEnd_concat_backslash _ h1) (by simp)

theorem joinContinued_run (middle : List (Str × Str)) (lastLine tail rest x : Str) (n : Nat)
    (hmid : ∀ p ∈ middle, noLineEnd p.1 = true ∧ p.2 ∈ lineEndings ∧ piece p.1 ≠ [])
    (hl1 : noLineEnd lastLine = true) (hl2 : TrimSpace lastLine ≠ [])
    (hl3 : HasSuffix (TrimSpace lastLine) [backslash] = false)
    (htail : (tail = [] ∧ rest = []) ∨
      ∃ e ∈ lineEndings, startsLine rest = true ∧ tail = e ++ rest)
    (hn : (continuedText middle ++ lastLine ++ tail).length < n) :
    joinContinued n (x ++ [backslash]) (continuedText middle ++ lastLine ++ tail) =
      (TrimRight x [' ', '\t'] ++ middle.flatMap (fun p => ' ' :: piece p.1)
        ++ ' ' :: TrimSpace lastLine, rest) := by
  induction middle generalizing x n with
  | nil =>
    simp only [continuedText, List.flatMap_nil, List.nil_append, List.append_nil] at hn ⊢
    cases n with
    | zero => omega
    | succ n =>
      rcases htail with ⟨e1, e2⟩ | ⟨e, he, hrest, e1⟩
      · subst e1
        subst e2
        rw [List.append_nil]
        rw [joinContinued_end n x lastLine (indexWhere_none _ _ ((noLineEnd_iff _).1 hl1))]
      · subst e1
        obtain ⟨c1, c2, c3⟩ := lineEnd_cut lastLine e rest hl1 he hrest
        rw [← List.append_assoc, joinContinued_step n x _ _ c1, c2, c3]
        apply joinContinued_done
        rw [show TrimRight x [' ', '\t'] ++ ' ' :: TrimSpace lastLine
            = (TrimRight x [' ', '\t'] ++ [' ']) ++ TrimSpace lastLine by simp,
          HasSuffix_append_of_ne_nil _ _ _ hl2]
        exact hl3
  | cons p more ih =>
    obtain ⟨hp1, hp2, hp3⟩ := hmid p (List.mem_cons_self _ _)
    have hmore : ∀ q ∈ more, noLineEnd q.1 = true ∧ q.2 ∈ lineEndings ∧ piece q.1 ≠ [] :=
      fun q hq => hmid q (List.mem_cons_of_mem _ hq)
    have e : continuedText (p :: more) ++ lastLine ++ tail
        = (p.1 ++ [backslash]) ++ p.2 ++ (continuedText more ++ lastLine ++ tail) := by
      simp [continuedText]
    rw [e] at hn ⊢
    cases n with
    | zero => omega
    | succ n =>
      obtain ⟨c1, c2, c3⟩ := lineEnd_cut (p.1 ++ [backslash]) p.2
        (continuedText more ++ lastLine ++ tail) (noLineEnd_concat_backslash _ hp1) hp2
        (startsLine_continued more lastLine tail hmore hl1 hl2)
      rw [joinContinued_step n x _ _ c1, c2, c3, TrimSpace_concat_backslash]
      have hlen : (continuedText more ++ lastLine ++ tail).length < n := by
        simp only [List.length_append, List.length_singleton] at hn ⊢
        omega
      have := ih (TrimRight x [' ', '\t'] ++ ' ' :: p.1.dropWhile isSpace) n hmore hlen
      rw [show TrimRight x [' ', '\t'] ++ ' ' :: (p.1.dropWhile isSpace ++ [backslash])
          = (TrimRight x [' ', '\t'] ++ ' ' :: p.1.dropWhile isSpace) ++ [backslash] by simp,
        this]
      have htr : TrimRight (TrimRight x [' ', '\t'] ++ ' ' :: p.1.dropWhile isSpace) [' ', '\t']
          = TrimRight x [' ', '\t'] ++ ' ' :: piece p.1 := by
        rw [show TrimRight x [' ', '\t'] ++ ' ' :: p.1.dropWhile isSpace
            = (TrimRight x [' ', '\t'] ++ [' ']) ++ p.1.dropWhile isSpace by simp]
        unfold piece TrimRight at hp3
        unfold TrimRight
        rw [rdropWhile_append_of_ne_nil _ _ _ hp3]
        simp [piece, TrimRight]
      rw [htr]
      simp

theorem splitLoop_acc (n : Nat) (s : Str) (acc : List Str) :
    splitLoop n s acc = acc ++ splitLoop n s [] := by
  induction n generalizing s acc with
  | zero => simp [splitLoop]
  | succ n ih =>
    rw [splitLoop, splitLoop]
    rcases IndexAny s ['\n', '\r'] with _ | idx
    · simp only
      split <;> simp
    · simp only
      rw [ih, ih _ ([] ++ _)]
      simp

theorem TrimSpace_joined (x m t : Str) (hx : piece x ≠ []) (ht : TrimSpace t ≠ []) :
    TrimSpace (TrimRight x [' ', '\t'] ++ m ++ ' ' :: TrimSpace t)
      = piece x ++ m ++ ' ' :: TrimSpace t := by
  have h1 : (TrimRight x [' ', '\t']).dropWhile isSpace ≠ [] := by
    rw [dropWhile_TrimRight_comm]
    exact hx
  have h2 : (TrimSpace t).rdropWhile isSpace = TrimSpace t := by
    rw [List.rdropWhile_eq_self_iff]
    intro hne
    simp [TrimSpace_last_not_space t hne]
  unfold TrimSpace at h2 ⊢
  rw [List.append_assoc, dropWhile_append_of_ne_nil _ _ _ h1, dropWhile_TrimRight_comm,
    show piece x ++ (m ++ ' ' :: (t.dropWhile isSpace).rdropWhile isSpace)
      = (piece x ++ m ++ [' ']) ++ (t.dropWhile isSpace).rdropWhile isSpace by simp,
    rdropWhile_append_of_ne_nil _ _ _ (by rw [h2]; exact ht), h2]
  simp

theorem splitLoop_continued_run (first : Str × Str) (middle : List (Str × Str))
    (lastLine tail rest : Str)
    (hf : noLineEnd first.1 = true ∧ first.2 ∈ lineEndings ∧ piece first.1 ≠ [])
    (hmid : ∀ p ∈ middle, noLineEnd p.1 = true ∧ p.2 ∈ lineEndings ∧ piece p.1 ≠ [])
    (hl1 : noLineEnd lastLine = true) (hl2 : TrimSpace lastLine ≠ [])
    (hl3 : HasSuffix (TrimSpace lastLine) [backslash] = false)
    (htail : (tail = [] ∧ rest = []) ∨
      ∃ e ∈ lineEndings, startsLine rest = true ∧ tail = e ++ rest) :
    splitLoop ((continuedRun first middle lastLine ++ tail).length + 1)
        (continuedRun first middle lastLine ++ tail) []
      = splitLoop (rest.length + 1) rest [joinedRun first middle lastLine] := by
  obtain ⟨hf1, hf2, hf3⟩ := hf
  have e : continuedRun first middle lastLine ++ tail
      = (first.1 ++ [backslash]) ++ first.2 ++ (continuedText middle ++ lastLine ++ tail) := by
    simp [continuedRun]
  rw [e]
  obtain ⟨c1, c2, c3⟩ := lineEnd_cut (first.1 ++ [backslash]) first.2
    (continuedText middle ++ lastLine ++ tail) (noLineEnd_concat_backslash _ hf1) hf2
    (startsLine_continued middle lastLine tail hmid hl1 hl2)
  rw [splitLoop_step _ _ [] _ (Nat.lt_succ_self _) c1, c2, c3]
  have htrim : TrimRight (first.1 ++ [backslash]) ['\r', '\n'] = first.1 ++ [backslash] := by
    apply rdropWhile_of_all_false
    intro x hx
    have := (noLineEnd_iff _).1 (noLineEnd_concat_backslash _ hf1) x hx
    simp only [List.contains_cons, List.contains_nil, Bool.or_false, Bool.or_eq_false_iff,
      beq_eq_false_iff_ne, ne_eq] at this ⊢
    exact ⟨this.2, this.1⟩
  rw [htrim, joinContinued_run middle lastLine tail rest first.1 _ hmid hl1 hl2 hl3 htail
    (Nat.lt_succ_self _)]
  simp only [List.nil_append]
  rw [TrimSpace_joined _ _ _ hf3 hl2]
  rfl

/-- C16 (as amended): for a run of physical lines in which every line but the
last ends with a backslash and the last one, trimmed, is not blank and does
not end with a backslash, `SplitDockerfileLines` returns a single logical
line for the run: the pieces joined by exactly one space, a piece being the
line without its final backslash, leading whitespace and trailing spaces and
tabs (for the last line: surrounding whitespace), provided no piece is
empty. The run may end the text or be followed by a line ending and further
lines. -/
theorem SplitDockerfileLines_continued_run (first : Str × Str) (middle : List (Str × Str))
    (lastLine : Str)
    (hf : noLineEnd first.1 = true ∧ first.2 ∈ lineEndings ∧ piece first.1 ≠ [])
    (hmid : ∀ p ∈ middle, noLineEnd p.1 = true ∧ p.2 ∈ lineEndings ∧ piece p.1 ≠ [])
    (hl1 : noLineEnd lastLine = true) (hl2 : TrimSpace lastLine ≠ [])
    (hl3 : HasSuffix (TrimSpace lastLine) [backslash] = false) :
    SplitDockerfileLines (continuedRun first middle lastLine)
        = [joinedRun first middle lastLine] ∧
      ∀ e ∈ lineEndings, ∀ rest, startsLine rest = true →
        SplitDockerfileLines (continuedRun first middle lastLine ++ e ++ rest)
          = joinedRun first middle lastLine :: SplitDockerfileLines rest := by
  constructor
  · have := splitLoop_continued_run first middle lastLine [] [] hf hmid hl1 hl2 hl3
      (Or.inl ⟨rfl, rfl⟩)
    rw [List.append_nil] at this
    rw [SplitDockerfileLines, this]
    rfl
  · intro e he rest hrest
    have := splitLoop_continued_run first middle lastLine (e ++ rest) rest hf hmid hl1 hl2 hl3
      (Or.inr ⟨e, he, hrest, rfl⟩)
    rw [← List.append_assoc] at this
    rw [SplitDockerfileLines, this, splitLoop_acc]
    rfl

/-- Witness for C16 (as amended): the repository's test case, and a run of
three lines followed by another line. -/
theorem SplitDockerfileLines_continued_run_witness :
    continuedRun ("COPY a b ".toList, ['\n']) [] "  c /dest/".toList
      = "COPY a b \\\n  c /dest/".toList ∧
    SplitDockerfileLines "COPY a b \\\n  c /dest/".toList = ["COPY a b c /dest/".toList] ∧
    joinedRun ("COPY a b ".toList, ['\n']) [] "  c /dest/".toList = "COPY a b c /dest/".toList ∧
    SplitDockerfileLines (continuedRun ("COPY a b ".toList, ['\n']) [] "  c /dest/".toList)
      = [joinedRun ("COPY a b ".toList, ['\n']) [] "  c /dest/".toList] ∧
    SplitDockerfileLines
        (continuedRun ("COPY a".toList, ['\r', '\n']) [("\tb  ".toList, ['\n'])] " /d ".toList
          ++ ['\n'] ++ "RUN x".toList)
      = joinedRun ("COPY a".toList, ['\r', '\n']) [("\tb  ".toList, ['\n'])] " /d ".toList
          :: SplitDockerfileLines "RUN x".toList :=
  ⟨by decide, by decide, by decide,
    (SplitDockerfileLines_continued_run ("COPY a b ".toList, ['\n']) [] "  c /dest/".toList
      (by decide) (by decide) (by decide) (by decide) (by decide)).1,
    (SplitDockerfileLines_continued_run ("COPY a".toList, ['\r', '\n'])
      [("\tb  ".toList, ['\n'])] " /d ".toList
      (by decide) (by decide) (by decide) (by decide) (by decide)).2
      ['\n'] (by decide) "RUN x".toList (by decide)⟩

/-- Counterexample to C16 as stated: a continued line that holds nothing but
its backslash leaves no piece and no extra space (`a b`, not `a  b`); a last
line that ends in a backslash followed by a space is still taken for a
continuation, so the line after the run is joined to it. -/
theorem SplitDockerfileLines_continued_run_edge_cases :
    SplitDockerfileLines "a \\\n\\\nb".toList = ["a b".toList] ∧
    SplitDockerfileLines "a \\\n\\\nb".toList ≠ ["a  b".toList] ∧
    SplitDockerfileLines "a\\\nb\\ \nc".toList = ["a b c".toList] ∧
    SplitDockerfileLines "a\\\nb\\ \nc".toList ≠ ["a b\\".toList, "c".toList] := by
  decide

/-! ## Shell-form tokens -/

theorem contains_blanks (c : Char) : ([' ', '\t'].contains c) = isBlank c := by
  simp [isBlank]

theorem not_blank_eq (c : Char) : (c ≠ ' ' && c ≠ '\t') = !isBlank c := by
  by_cases h1 : c = ' ' <;> by_cases h2 : c = '\t' <;> simp [isBlank, h1, h2]

theorem dropWhile_append_all (p : Char → Bool) (a y : Str) (h : ∀ x ∈ a, p x = true) :
    (a ++ y).dropWhile p = y.dropWhile p := by
  induction a with
  | nil => rfl
  | cons x a ih =>
    rw [List.cons_append, List.dropWhile_cons, if_pos (h x (List.mem_cons_self _ _))]
    exact ih (fun z hz => h z (List.mem_cons_of_mem _ hz))

theorem takeWhile_append_stop (p : Char → Bool) (s r : Str) (hs : ∀ x ∈ s, p x = true)
    (hr : ∀ c r1, r = c :: r1 → p c = false) : (s ++ r).takeWhile p = s := by
  induction s with
  | nil =>
    cases r with
    | nil => rfl
    | cons c r1 => simp [List.takeWhile_cons, hr c r1 rfl]
  | cons x s ih =>
    rw [List.cons_append, List.takeWhile_cons, if_pos (hs x (List.mem_cons_self _ _)),
      ih (fun z hz => hs z (List.mem_cons_of_mem _ hz))]

theorem shellLoop_token (n : Nat) (sep : Str) (tok : ShellTok) (r : Str) (acc : List Str)
    (hsep : ∀ x ∈ sep, isBlank x = true) (htok : tok.wellFormed = true)
    (hr : endsToken r = true) (hn : (sep ++ tok.text ++ r).length < n) :
    shellLoop n (sep ++ tok.text ++ r) acc
      = shellLoop (r.length + 1) r (acc ++ [tok.value]) := by
  cases n with
  | zero => omega
  | succ n =>
    have htrim : ∀ c tl, tok.text = c :: tl → isBlank c = false →
        TrimLeft (sep ++ tok.text ++ r) [' ', '\t'] = c :: (tl ++ r) := by
      intro c tl e hc
      unfold TrimLeft
      rw [List.append_assoc, dropWhile_append_all _ _ _
        (fun x hx => by rw [contains_blanks]; exact hsep x hx), e, List.cons_append,
        List.dropWhile_cons, contains_blanks, hc]
      rfl
    cases tok with
    | bare s =>
      cases s with
      | nil => exact absurd htok (by decide)
      | cons c s =>
        simp only [ShellTok.wellFormed, Bool.and_eq_true, Bool.not_eq_true',
          List.all_eq_true] at htok
        obtain ⟨hq, hall⟩ := htok
        have hc : isBlank c = false := hall c (List.mem_cons_self _ _)
        rw [shellLoop, htrim c s rfl hc]
        simp only [hq, Bool.false_eq_true, if_false]
        have htake : ((c :: (s ++ r)).takeWhile (fun x => x ≠ ' ' && x ≠ '\t')) = c :: s := by
          rw [← List.cons_append]
          apply takeWhile_append_stop
          · intro x hx
            rw [not_blank_eq, hall x hx]
            rfl
          · intro d r1 e
            subst e
            rw [not_blank_eq]
            simp only [endsToken] at hr
            simp [hr]
        rw [htake]
        have h1 : (c :: (s ++ r)).drop (c :: s).length = r := by
          rw [← List.cons_append, List.drop_left']
          rfl
        have h2 : (c :: (s ++ r)).take (c :: s).length = c :: s := by
          rw [← List.cons_append, List.take_left']
          rfl
        rw [h1, h2]
        apply shellLoop_fuel
        · simp only [ShellTok.text, List.length_append, List.length_cons] at hn
          omega
        · omega
    | quoted q content =>
      simp only [ShellTok.wellFormed, Bool.and_eq_true, Bool.not_eq_true'] at htok
      obtain ⟨hq, hnot⟩ := htok
      have hc : isBlank q = false := by
        simp only [isQuote, Bool.or_eq_true, decide_eq_true_eq] at hq
        rcases hq with e | e <;> subst e <;> decide
      rw [shellLoop, htrim q (content ++ [q]) rfl hc]
      simp only [hq, if_true]
      have hidx : IndexByte (content ++ [q] ++ r) q = some content.length := by
        rw [List.append_assoc, List.singleton_append]
        apply indexWhere_append
        · intro x hx
          have : x ≠ q := by
            intro e
            subst e
            have hmem : x ∈ content := hx
            simp only [List.contains, List.elem_eq_mem, decide_eq_false_iff_not] at hnot
            exact hnot hmem
          simp [this]
        · simp
      rw [hidx]
      simp only
      have h1 : (content ++ [q] ++ r).drop (content.length + 1) = r := by
        rw [List.drop_left']
        simp
      have h2 : (content ++ [q] ++ r).take content.length = content := by
        rw [List.append_assoc, List.take_left']
        rfl
      rw [h1, h2]
      apply shellLoop_fuel
      · simp only [ShellTok.text, List.length_append, List.length_cons] at hn
        omega
      · omega

theorem endsToken_items (more : List (Str × ShellTok))
    (hmore : ∀ p ∈ more, blankRun p.1 = true ∧ p.2.wellFormed = true) :
    endsToken (more.flatMap (fun p => p.1 ++ p.2.text)) = true := by
  cases more with
  | nil => rfl
  | cons p more =>
    have h := (hmore p (List.mem_cons_self _ _)).1
    simp only [blankRun, Bool.and_eq_true, bne_iff_ne, ne_eq, List.all_eq_true] at h
    rcases hs : p.1 with _ | ⟨c, s⟩
    · exact absurd hs h.1
    · have hc : isBlank c = true := h.2 c (by rw [hs]; exact List.mem_cons_self _ _)
      simp [hs, endsToken, hc]

theorem shellLoop_items (more : List (Str × ShellTok)) (acc : List Str)
    (hmore : ∀ p ∈ more, blankRun p.1 = true ∧ p.2.wellFormed = true) :
    shellLoop ((more.flatMap (fun p => p.1 ++ p.2.text)).length + 1)
        (more.flatMap (fun p => p.1 ++ p.2.text)) acc
      = (acc ++ more.map (fun p => p.2.value), none) := by
  induction more generalizing acc with
  | nil => simp [shellLoop, TrimLeft]
  | cons p more ih =>
    have hp := hmore p (List.mem_cons_self _ _)
    have hmore1 : ∀ q ∈ more, blankRun q.1 = true ∧ q.2.wellFormed = true :=
      fun q hq => hmore q (List.mem_cons_of_mem _ hq)
    have hsep : ∀ x ∈ p.1, isBlank x = true := by
      have := hp.1
      simp only [blankRun, Bool.and_eq_true, List.all_eq_true] at this
      exact this.2
    have e : (p :: more).flatMap (fun p => p.1 ++ p.2.text)
        = p.1 ++ p.2.text ++ more.flatMap (fun p => p.1 ++ p.2.text) := by
      simp
    rw [e, shellLoop_token _ p.1 p.2 _ acc hsep hp.2 (endsToken_items more hmore1)
      (Nat.lt_succ_self _), ih _ hmore1]
    simp

/-- C19: shell-form round trip. For tokens that are bare (non-empty, without
space or tab, not starting with a quote character) or written between two
identical quote characters that the content does not hold, joined by runs of
one or more spaces and tabs, in a text that does not start with `[`,
`TokenizeInstruction` returns exactly the contents of the tokens, in order;
the empty text gives no token. -/
theorem TokenizeInstruction_shell_round_trip (first : ShellTok) (more : List (Str × ShellTok))
    (hfirst : first.wellFormed = true)
    (hmore : ∀ p ∈ more, blankRun p.1 = true ∧ p.2.wellFormed = true)
    (hform : HasPrefix (shellText first more) ['['] = false) :
    TokenizeInstruction (shellText first more)
        = (first.value :: more.map (fun p => p.2.value), none) ∧
      TokenizeInstruction [] = ([], none) := by
  refine ⟨?_, by decide⟩
  simp only [TokenizeInstruction, hform, Bool.false_eq_true, if_false]
  have e : shellText first more = [] ++ first.text ++ more.flatMap (fun p => p.1 ++ p.2.text) := by
    simp [shellText]
  rw [e, shellLoop_token _ [] first _ [] (by simp) hfirst (endsToken_items more hmore)
    (Nat.lt_succ_self _), shellLoop_items more _ hmore]
  simp

/-- Witness for C19: a bare token, a double-quoted token with spaces, a
single-quoted token holding a double quote, an empty quoted token and a bare
token with a quote inside, separated by spaces and tabs. -/
theorem TokenizeInstruction_shell_round_trip_witness :
    shellText (.bare "app.py".toList)
        [(" ".toList, .quoted dquote "path with spaces".toList),
          (" \t ".toList, .quoted squote (dquote :: "x".toList)),
          ("\t".toList, .quoted dquote []),
          ("  ".toList, .bare ("a".toList ++ [squote] ++ "b".toList)),
          (" ".toList, .bare "/dest/".toList)]
      = "app.py ".toList ++ dquote :: "path with spaces".toList ++ dquote :: " \t ".toList
        ++ squote :: dquote :: "x".toList ++ squote :: "\t".toList ++ [dquote, dquote]
        ++ "  a".toList ++ squote :: "b /dest/".toList ∧
    TokenizeInstruction (shellText (.bare "app.py".toList)
        [(" ".toList, .quoted dquote "path with spaces".toList),
          (" \t ".toList, .quoted squote (dquote :: "x".toList)),
          ("\t".toList, .quoted dquote []),
          ("  ".toList, .bare ("a".toList ++ [squote] ++ "b".toList)),
          (" ".toList, .bare "/dest/".toList)])
      = (["app.py".toList, "path with spaces".toList, dquote :: "x".toList, [],
          "a".toList ++ [squote] ++ "b".toList, "/dest/".toList], none) :=
  ⟨by decide,
    (TokenizeInstruction_shell_round_trip (.bare "app.py".toList)
      [(" ".toList, .quoted dquote "path with spaces".toList),
        (" \t ".toList, .quoted squote (dquote :: "x".toList)),
        ("\t".toList, .quoted dquote []),
        ("  ".toList, .bare ("a".toList ++ [squote] ++ "b".toList)),
        (" ".toList, .bare "/dest/".toList)]
      (by decide) (by decide) (by decide)).1⟩

/-! ## Exec-form arrays -/

theorem contains_separators (c : Char) : ([' ', '\t', ','].contains c) = isSeparator c := by
  simp [isSeparator, Bool.or_assoc]

theorem isQuote_not_separator (q : Char) (h : isQuote q = true) :
    isSeparator q = false ∧ q ≠ ']' ∧ isSpace q = false := by
  simp only [isQuote, Bool.or_eq_true, decide_eq_true_eq] at h
  rcases h with e | e <;> subst e <;> decide

theorem indexByte_quote (content r : Str) (q : Char) (h : content.contains q = false) :
    IndexByte (content ++ [q] ++ r) q = some content.length := by
  rw [List.append_assoc, List.singleton_append]
  apply indexWhere_append
  · intro x hx
    have : x ≠ q := by
      intro e
      subst e
      have hmem : x ∈ content := hx
      simp only [List.contains, List.elem_eq_mem, decide_eq_false_iff_not] at h
      exact h hmem
    simp [this]
  · simp

theorem jsonLoop_body (items : List ExecItem) (fin : Str) (acc : List Str) (n : Nat)
    (hitems : ∀ i ∈ items, i.wellFormed = true) (hfin : ∀ x ∈ fin, isSeparator x = true)
    (hn : (execBody items fin).length < n) :
    jsonLoop n (execBody items fin) acc = (acc ++ items.map (fun i => i.content), none) := by
  induction items generalizing acc n with
  | nil =>
    cases n with
    | zero => omega
    | succ n =>
      have ht : TrimLeft (execBody [] fin) [' ', '\t', ','] = [']'] := by
        unfold TrimLeft
        simp only [execBody, List.flatMap_nil, List.nil_append]
        rw [dropWhile_append_all _ _ _
          (fun x hx => by rw [contains_separators]; exact hfin x hx)]
        rfl
      rw [jsonLoop, ht]
      simp
  | cons i items ih =>
    cases n with
    | zero => omega
    | succ n =>
      have hi := hitems i (List.mem_cons_self _ _)
      simp only [ExecItem.wellFormed, Bool.and_eq_true, Bool.not_eq_true',
        List.all_eq_true] at hi
      obtain ⟨⟨hsep, hq⟩, hnot⟩ := hi
      obtain ⟨q1, q2, _⟩ := isQuote_not_separator i.quote hq
      have e : execBody (i :: items) fin
          = i.sep ++ (i.quote :: (i.content ++ [i.quote] ++ execBody items fin)) := by
        simp [execBody, ExecItem.text]
      have ht : TrimLeft (execBody (i :: items) fin) [' ', '\t', ',']
          = i.quote :: (i.content ++ [i.quote] ++ execBody items fin) := by
        unfold TrimLeft
        rw [e, dropWhile_append_all _ _ _
          (fun x hx => by rw [contains_separators]; exact hsep x hx),
          List.dropWhile_cons, contains_separators, q1]
        rfl
      rw [jsonLoop, ht]
      simp only [q2, if_false, hq, Bool.not_true, Bool.false_eq_true,
        indexByte_quote i.content _ i.quote hnot]
      have h1 : (i.content ++ [i.quote] ++ execBody items fin).drop (i.content.length + 1)
          = execBody items fin := by
        rw [List.drop_left']
        simp
      have h2 : (i.content ++ [i.quote] ++ execBody items fin).take i.content.length
          = i.content := by
        rw [List.append_assoc, List.take_left']
        rfl
      rw [h1, h2, ih _ n (fun j hj => hitems j (List.mem_cons_of_mem _ hj))]
      · simp
      · rw [e] at hn
        simp only [List.length_append, List.length_cons] at hn
        omega

theorem isSeparator_dropWhile (sep : Str) (h : ∀ x ∈ sep, isSeparator x = true) :
    ∀ x ∈ sep.dropWhile isSpace, isSeparator x = true :=
  fun x hx => h x ((List.dropWhile_suffix isSpace).subset hx)

theorem TrimSpace_execBody (items : List ExecItem) (fin : Str)
    (hitems : ∀ i ∈ items, i.wellFormed = true) (hfin : ∀ x ∈ fin, isSeparator x = true) :
    ∃ items1 fin1, TrimSpace (execBody items fin) = execBody items1 fin1 ∧
      (∀ i ∈ items1, i.wellFormed = true) ∧ (∀ x ∈ fin1, isSeparator x = true) ∧
      items1.map (fun i => i.content) = items.map (fun i => i.content) := by
  have hright : ∀ y : Str, (y ++ [']']).rdropWhile isSpace = y ++ [']'] := by
    intro y
    rw [List.rdropWhile_concat_neg]
    decide
  cases items with
  | nil =>
    refine ⟨[], fin.dropWhile isSpace, ?_, by simp, isSeparator_dropWhile fin hfin, rfl⟩
    unfold TrimSpace
    simp only [execBody, List.flatMap_nil, List.nil_append]
    rw [dropWhile_append_of_head_false isSpace fin ']' [] (by decide), hright]
  | cons i items =>
    have hi := hitems i (List.mem_cons_self _ _)
    have hi0 := hi
    simp only [ExecItem.wellFormed, Bool.and_eq_true, Bool.not_eq_true',
      List.all_eq_true] at hi
    obtain ⟨⟨hsep, hq⟩, hnot⟩ := hi
    obtain ⟨_, _, q3⟩ := isQuote_not_separator i.quote hq
    refine ⟨⟨i.sep.dropWhile isSpace, i.quote, i.content⟩ :: items, fin, ?_, ?_, hfin, rfl⟩
    · unfold TrimSpace
      have e : execBody (i :: items) fin
          = i.sep ++ i.quote :: ((i.content ++ [i.quote] ++ items.flatMap ExecItem.text ++ fin)
              ++ [']']) := by
        simp [execBody, ExecItem.text]
      rw [e, dropWhile_append_of_head_false isSpace i.sep i.quote _ q3,
        show i.sep.dropWhile isSpace ++ i.quote ::
            ((i.content ++ [i.quote] ++ items.flatMap ExecItem.text ++ fin) ++ [']'])
          = (i.sep.dropWhile isSpace ++ i.quote ::
            (i.content ++ [i.quote] ++ items.flatMap ExecItem.text ++ fin)) ++ [']'] by simp,
        hright]
      simp [execBody, ExecItem.text]
    · intro j hj
      rcases List.mem_cons.1 hj with e | e
      · subst e
        simp only [ExecItem.wellFormed, Bool.and_eq_true, Bool.not_eq_true', List.all_eq_true]
        exact ⟨⟨isSeparator_dropWhile i.sep hsep, hq⟩, hnot⟩
      · exact hitems j (List.mem_cons_of_mem _ e)

/-- C20: exec-form round trip. For strings each written between two quote
characters of one kind that the string does not hold (double or single
quotes; the strings may be empty and may hold spaces, commas or `]`), with
runs of spaces, tabs and commas before each of them and before the closing
bracket (in particular a comma with optional spaces or tabs around it),
`TokenizeInstruction` applied to `[`, the entries and `]` returns exactly
the strings, in order. -/
theorem TokenizeInstruction_exec_round_trip (items : List ExecItem) (fin : Str)
    (hitems : ∀ i ∈ items, i.wellFormed = true) (hfin : ∀ x ∈ fin, isSeparator x = true) :
    TokenizeInstruction (execText items fin) = (items.map (fun i => i.content), none) := by
  have hpre : HasPrefix (execText items fin) ['['] = true := by
    simp [execText, HasPrefix, List.isPrefixOf]
  have htrim : TrimSpace (execText items fin) = execText items fin := by
    unfold TrimSpace execText
    rw [List.dropWhile_cons, if_neg (by decide)]
    have e : '[' :: execBody items fin
        = ('[' :: (items.flatMap ExecItem.text ++ fin)) ++ [']'] := by
      simp [execBody]
    rw [e, List.rdropWhile_concat_neg]
    decide
  obtain ⟨items1, fin1, h1, h2, h3, h4⟩ := TrimSpace_execBody items fin hitems hfin
  simp only [TokenizeInstruction, hpre, if_true, tokenizeJSONArray, htrim, Bool.not_true,
    Bool.false_eq_true, if_false]
  have hdrop : (execText items fin).drop 1 = execBody items fin := rfl
  rw [hdrop, h1, jsonLoop_body items1 fin1 [] _ h2 h3 (Nat.lt_succ_self _), h4]
  rfl

/-- Witness for C20: strings with a comma, a closing bracket, a space and the
empty string, in double quotes, and two strings in single quotes one of
which holds a double quote. -/
theorem TokenizeInstruction_exec_round_trip_witness :
    execText [⟨[], dquote, "a,b".toList⟩, ⟨", ".toList, dquote, "c]".toList⟩,
        ⟨" ,\t".toList, dquote, []⟩, ⟨",".toList, dquote, "d e".toList⟩] " ".toList
      = '[' :: dquote :: "a,b".toList ++ dquote :: ", ".toList ++ dquote :: "c]".toList
        ++ dquote :: " ,\t".toList ++ [dquote, dquote, ',', dquote] ++ "d e".toList
        ++ dquote :: " ]".toList ∧
    TokenizeInstruction (execText [⟨[], dquote, "a,b".toList⟩,
        ⟨", ".toList, dquote, "c]".toList⟩, ⟨" ,\t".toList, dquote, []⟩,
        ⟨",".toList, dquote, "d e".toList⟩] " ".toList)
      = (([⟨[], dquote, "a,b".toList⟩, ⟨", ".toList, dquote, "c]".toList⟩,
          ⟨" ,\t".toList, dquote, []⟩, ⟨",".toList, dquote, "d e".toList⟩] :
            List ExecItem).map (fun i => i.content), none) ∧
    TokenizeInstruction (execText [⟨" ".toList, squote, [dquote]⟩,
        ⟨",".toList, squote, "/app/".toList⟩] [])
      = ([[dquote], "/app/".toList], none) :=
  ⟨by decide,
    TokenizeInstruction_exec_round_trip _ _ (by decide) (by decide),
    TokenizeInstruction_exec_round_trip
      [⟨" ".toList, squote, [dquote]⟩, ⟨",".toList, squote, "/app/".toList⟩] []
      (by decide) (by decide)⟩

/-! ## URL sources, escaped quotes, names that begin with two dots -/

/-- C25: an `ADD` instruction whose first surviving source token begins with
`http://` or `https://` hands nothing to `ExpandSource`, however many
further source tokens follow, and the parse is the one of the Dockerfile
without the instruction, whatever the file system holds. -/
theorem lineSources_add_url_first (fs : FS) (ctx : Str) (line rest : Str)
    (tokens : List Str) (u : Str) (more : List Str)
    (hinstr : instruction line = some (true, rest))
    (htok : TokenizeInstruction rest = (tokens, none))
    (hfirst : filterSources tokens.dropLast = u :: more)
    (hu : IsURL u = true) :
    lineSources line = [] ∧
      ∀ content content1 pre post, SplitDockerfileLines content = pre ++ line :: post →
        SplitDockerfileLines content1 = pre ++ post →
        ParseCOPYADDSources fs content ctx = ParseCOPYADDSources fs content1 ctx := by
  have hl : lineSources line = [] := by
    simp [lineSources, hinstr, htok, sourcesOfTokens_eq, hfirst, hu]
  exact ⟨hl, fun content content1 pre post h1 h2 =>
    lineSources_nil_congr fs ctx line hl content content1 pre post h1 h2⟩

/-- Witness for C25: a URL followed by a local file that exists, and a URL
after a flag followed by a local file that does not exist. -/
theorem lineSources_add_url_first_witness :
    filterSources (["https://x/a".toList, "local.txt".toList, "/dst/".toList].dropLast)
      = "https://x/a".toList :: ["local.txt".toList] ∧
    lineSources "ADD https://x/a local.txt /dst/".toList = [] ∧
    ParseCOPYADDSources fsDemo "ADD https://x/a local.txt /dst/".toList "/ctx".toList
      = ParseCOPYADDSources fsDemo [] "/ctx".toList ∧
    ParseCOPYADDSources fsDemo [] "/ctx".toList = ([], none) ∧
    ParseCOPYADDSources fsDemo
        "ADD --chown=1:1 http://x/a missing.txt /dst/\nCOPY app.py /app/".toList "/ctx".toList
      = ParseCOPYADDSources fsDemo "COPY app.py /app/".toList "/ctx".toList :=
  ⟨by decide,
    (lineSources_add_url_first fsDemo "/ctx".toList "ADD https://x/a local.txt /dst/".toList
      "https://x/a local.txt /dst/".toList
      ["https://x/a".toList, "local.txt".toList, "/dst/".toList] "https://x/a".toList
      ["local.txt".toList] (by decide) (by decide) (by decide) (by decide)).1,
    (lineSources_add_url_first fsDemo "/ctx".toList "ADD https://x/a local.txt /dst/".toList
      "https://x/a local.txt /dst/".toList
      ["https://x/a".toList, "local.txt".toList, "/dst/".toList] "https://x/a".toList
      ["local.txt".toList] (by decide) (by decide) (by decide) (by decide)).2
      "ADD https://x/a local.txt /dst/".toList [] [] [] (by decide) (by decide),
    by decide,
    (lineSources_add_url_first fsDemo "/ctx".toList
      "ADD --chown=1:1 http://x/a missing.txt /dst/".toList
      "--chown=1:1 http://x/a missing.txt /dst/".toList
      ["--chown=1:1".toList, "http://x/a".toList, "missing.txt".toList, "/dst/".toList]
      "http://x/a".toList ["missing.txt".toList]
      (by decide) (by decide) (by decide) (by decide)).2
      "ADD --chown=1:1 http://x/a missing.txt /dst/\nCOPY app.py /app/".toList
      "COPY app.py /app/".toList [] ["COPY app.py /app/".toList] (by decide) (by decide)⟩

theorem rdropWhile_append (p : Char → Bool) (x b : Str) :
    (x ++ b).rdropWhile p
      = if b.rdropWhile p = [] then x.rdropWhile p else x ++ b.rdropWhile p := by
  split
  · next h =>
    have hall : ∀ c ∈ b.reverse, p c = true := by
      intro c hc
      have := List.rdropWhile_eq_nil_iff.1 h c (List.mem_reverse.1 hc)
      exact this
    simp only [List.rdropWhile, List.reverse_append, dropWhile_append_all p _ _ hall]
  · next h => exact rdropWhile_append_of_ne_nil p x b h

theorem rdropWhile_idem (p : Char → Bool) (l : Str) :
    (l.rdropWhile p).rdropWhile p = l.rdropWhile p := by
  rw [List.rdropWhile_eq_self_iff]
  intro hne
  simpa using List.rdropWhile_last_not p l hne

theorem rdropWhile_after_quote (z content after : Str) (q : Char) (hq : isSpace q = false) :
    (z ++ q :: content ++ q :: after).rdropWhile isSpace
      = z ++ q :: content ++ q :: after.rdropWhile isSpace := by
  rw [show z ++ q :: content ++ q :: after = (z ++ q :: content ++ [q]) ++ after by simp,
    rdropWhile_append]
  split
  · next h =>
    rw [List.rdropWhile_concat_neg _ _ _ (by simp [hq]), h]
  · simp

theorem jsonLoop_acc_prefix (n : Nat) (r : Str) (acc toks : List Str)
    (h : jsonLoop n r acc = (toks, none)) : ∃ more, toks = acc ++ more := by
  induction n generalizing r acc with
  | zero =>
    simp only [jsonLoop, Prod.mk.injEq, and_true] at h
    exact ⟨[], by simp [h]⟩
  | succ n ih =>
    rw [jsonLoop] at h
    split at h
    · simp only [Prod.mk.injEq, and_true] at h
      exact ⟨[], by simp [h]⟩
    · split at h
      · simp only [Prod.mk.injEq, and_true] at h
        exact ⟨[], by simp [h]⟩
      · split at h
        · simp at h
        · split at h
          · simp at h
          · next e _ =>
            obtain ⟨more, hm⟩ := ih _ _ h
            exact ⟨_ :: more, by rw [hm, List.append_assoc]; rfl⟩

theorem jsonLoop_entry (n : Nat) (q : Char) (content r : Str) (acc : List Str)
    (hq : isQuote q = true) (hnot : content.contains q = false)
    (hn : (q :: content ++ q :: r).length < n) :
    jsonLoop n (q :: content ++ q :: r) acc = jsonLoop (r.length + 1) r (acc ++ [content]) := by
  obtain ⟨q1, q2, _⟩ := isQuote_not_separator q hq
  cases n with
  | zero => omega
  | succ n =>
    have ht : TrimLeft (q :: content ++ q :: r) [' ', '\t', ',']
        = q :: (content ++ [q] ++ r) := by
      unfold TrimLeft
      rw [List.cons_append, List.dropWhile_cons, contains_separators, q1]
      simp
    rw [jsonLoop, ht]
    simp only [q2, if_false, hq, Bool.not_true, Bool.false_eq_true,
      indexByte_quote content r q hnot]
    have h1 : (content ++ [q] ++ r).drop (content.length + 1) = r := by
      rw [List.drop_left']
      simp
    have h2 : (content ++ [q] ++ r).take content.length = content := by
      rw [List.append_assoc, List.take_left']
      rfl
    rw [h1, h2]
    apply jsonLoop_fuel
    · simp only [List.length_append, List.length_cons] at hn
      omega
    · omega

/-- C24 (as amended): in exec form an array entry ends at the first later
occurrence of its opening quote character, whether or not a backslash stands
before it. For a first entry written `q content q` where `content` does not
hold `q`, the token is `content` (even when it ends with a backslash) and
the scan goes on right after that quote: every successful result starts
with `content`. -/
theorem TokenizeInstruction_exec_entry_ends_at_first_quote (q : Char) (content after : Str)
    (hq : isQuote q = true) (hnot : content.contains q = false) :
    TokenizeInstruction ('[' :: q :: content ++ q :: after)
        = jsonLoop ((after.rdropWhile isSpace).length + 1) (after.rdropWhile isSpace) [content] ∧
      ∀ toks, TokenizeInstruction ('[' :: q :: content ++ q :: after) = (toks, none) →
        ∃ more, toks = content :: more := by
  obtain ⟨_, _, q3⟩ := isQuote_not_separator q hq
  have main : TokenizeInstruction ('[' :: q :: content ++ q :: after)
      = jsonLoop ((after.rdropWhile isSpace).length + 1) (after.rdropWhile isSpace)
          [content] := by
    have hpre : HasPrefix ('[' :: q :: content ++ q :: after) ['['] = true := by
      simp [HasPrefix, List.isPrefixOf]
    have ht1 : TrimSpace ('[' :: q :: content ++ q :: after)
        = '[' :: (q :: content ++ q :: after.rdropWhile isSpace) := by
      unfold TrimSpace
      rw [List.cons_append, List.dropWhile_cons, if_neg (by decide)]
      have := rdropWhile_after_quote ['['] content after q q3
      simpa using this
    have ht2 : TrimSpace (q :: content ++ q :: after.rdropWhile isSpace)
        = q :: content ++ q :: after.rdropWhile isSpace := by
      unfold TrimSpace
      rw [List.cons_append, List.dropWhile_cons, if_neg (by simp [q3])]
      have := rdropWhile_after_quote [] content (after.rdropWhile isSpace) q q3
      rw [rdropWhile_idem] at this
      simpa using this
    have hpre2 : HasPrefix ('[' :: (q :: content ++ q :: after.rdropWhile isSpace)) ['[']
        = true := by
      simp [HasPrefix, List.isPrefixOf]
    simp only [TokenizeInstruction, hpre, if_true, tokenizeJSONArray, ht1, hpre2, Bool.not_true,
      Bool.false_eq_true, if_false, List.drop_succ_cons, List.drop_zero, ht2]
    have := jsonLoop_entry ((q :: content ++ q :: after.rdropWhile isSpace).length + 1) q
      content (after.rdropWhile isSpace) [] hq hnot (Nat.lt_succ_self _)
    simpa using this
  refine ⟨main, ?_⟩
  intro toks h
  rw [main] at h
  obtain ⟨more, hm⟩ := jsonLoop_acc_prefix _ _ _ _ h
  exact ⟨more, by simpa using hm⟩

/-- Witness for C24 (as amended): in `["a\"b", "c"]` the first entry is `a\`,
and the scan goes on at `b", "c"]`. -/
theorem TokenizeInstruction_exec_entry_ends_at_first_quote_witness :
    '[' :: dquote :: [ 'a', backslash] ++ dquote :: ('b' :: dquote :: ", ".toList
        ++ dquote :: 'c' :: dquote :: "]".toList)
      = "[".toList ++ dquote :: 'a' :: backslash :: dquote :: 'b' :: dquote :: ", ".toList
          ++ dquote :: 'c' :: dquote :: "]".toList ∧
    TokenizeInstruction ('[' :: dquote :: [ 'a', backslash] ++ dquote :: ('b' :: dquote ::
        ", ".toList ++ dquote :: 'c' :: dquote :: "]".toList))
      = jsonLoop ((('b' :: dquote :: ", ".toList ++ dquote :: 'c' :: dquote ::
            "]".toList).rdropWhile isSpace).length + 1)
          (('b' :: dquote :: ", ".toList ++ dquote :: 'c' :: dquote ::
            "]".toList).rdropWhile isSpace) [[ 'a', backslash]] ∧
    TokenizeInstruction ('[' :: dquote :: [ 'a', backslash] ++ dquote :: " ]".toList)
      = ([[ 'a', backslash]], none) :=
  ⟨by decide,
    (TokenizeInstruction_exec_entry_ends_at_first_quote dquote [ 'a', backslash]
      ('b' :: dquote :: ", ".toList ++ dquote :: 'c' :: dquote :: "]".toList)
      (by decide) (by decide)).1,
    by decide⟩

/-- Counterexample to C24 as stated: on `["a\"b", "c"]` the tokenizer ends the
first entry at the escaped quote and then fails at `b`; it does not return
the two tokens `a\"b` and `c`. -/
theorem TokenizeInstruction_exec_escaped_quote_fails :
    TokenizeInstruction ('[' :: dquote :: 'a' :: backslash :: dquote :: 'b' :: dquote ::
        ", ".toList ++ dquote :: 'c' :: dquote :: "]".toList)
      = ([], some (.errorf "expected quoted string in array".toList)) ∧
    TokenizeInstruction ('[' :: dquote :: 'a' :: backslash :: dquote :: 'b' :: dquote ::
        ", ".toList ++ dquote :: 'c' :: dquote :: "]".toList)
      ≠ (['a' :: backslash :: dquote :: "b".toList, "c".toList], none) := by
  decide

theorem relLoop_self_append (bs ts : List Str) : relLoop bs (bs ++ ts) = ([], ts, false) := by
  induction bs with
  | nil => cases ts <;> rfl
  | cons b bs ih => simp [relLoop, ih]

theorem Rel_beneath (root cand rest : Str) (hroot : IsAbs root = true)
    (hclean : Clean root = root) (hcc : Clean cand = cand) (hne : cand ≠ root)
    (h : cand = (if root = ['/'] then root else root ++ ['/']) ++ rest) :
    Rel root cand = some rest := by
  have hr := (IsAbs_iff root).1 hroot
  have hrne : root ≠ [] := by
    intro e
    rw [e] at hr
    simp at hr
  have hdot : root ≠ ['.'] := by
    intro e
    rw [e] at hr
    simp at hr
  have ht : cand.head? = some '/' := by
    rw [h]
    split
    · next e => rw [e]; rfl
    · cases root with
      | nil => exact absurd rfl hrne
      | cons c cs => simpa using hr
  have hloop : relLoop (relElems root) (relElems cand) = ([], splitSlash rest, false) := by
    by_cases hslash : root = ['/']
    · have hc : cand = '/' :: rest := by rw [h, hslash]; rfl
      have hc1 : cand ≠ ['/'] := by rw [hslash] at hne; exact hne
      have hc2 : cand ≠ [] := by rw [hc]; simp
      have e1 : relElems root = [[]] := by rw [hslash]; decide
      have e2 : relElems cand = [] :: splitSlash rest := by
        simp only [relElems, hc2, hc1, if_false]
        rw [hc]
        simp [splitSlash]
      rw [e1, e2]
      exact relLoop_self_append [[]] (splitSlash rest)
    · have hc : cand = root ++ '/' :: rest := by
        rw [h]
        simp [hslash]
      have hc2 : cand ≠ [] := by rw [hc]; simp [hrne]
      have hc1 : cand ≠ ['/'] := by
        intro e
        rw [hc] at e
        cases root with
        | nil => exact absurd rfl hrne
        | cons c cs =>
          simp only [List.cons_append, List.cons.injEq] at e
          have := e.2
          cases cs <;> simp at this
      have e1 : relElems root = splitSlash root := by simp [relElems, hrne, hslash]
      have e2 : relElems cand = splitSlash root ++ splitSlash rest := by
        simp only [relElems, hc2, hc1, if_false]
        rw [hc, splitSlash_append_slash]
      rw [e1, e2]
      exact relLoop_self_append _ _
  simp only [Rel, hclean, hcc, hne, hdot, if_false, hr, ht, ne_eq, not_true_eq_false, hloop,
    Bool.false_eq_true, false_and, joinSlash_splitSlash]

/-- The escape test of `ExpandSource` on a candidate that is the root or lies
beneath it: it fires exactly when the text of the candidate after the root
and its separator begins with the two characters `..`. -/
theorem relEscapes_within (root cand : Str) (hroot : IsAbs root = true)
    (hclean : Clean root = root) (hcc : Clean cand = cand)
    (hw : within root cand = true) :
    relEscapes (Rel root cand) = true ↔
      ∃ rest, cand = (if root = ['/'] then root else root ++ ['/']) ++ rest ∧
        HasPrefix rest ['.', '.'] = true := by
  by_cases hne : cand = root
  · subst hne
    have hrel : Rel cand cand = some ['.'] := by simp [Rel]
    rw [hrel]
    constructor
    · intro h
      exact absurd h (by decide)
    · rintro ⟨rest, h1, h2⟩
      exfalso
      split at h1
      · next e =>
        rw [e] at h1
        have : rest = [] := by
          cases rest with
          | nil => rfl
          | cons c r => simp at h1
        rw [this] at h2
        exact absurd h2 (by decide)
      · have := congrArg List.length h1
        simp at this
  · rw [within_iff] at hw
    rcases hw with e | ⟨rest, hrest⟩
    · exact absurd e hne
    · have hrel := Rel_beneath root cand rest hroot hclean hcc hne hrest.symm
      rw [hrel]
      constructor
      · intro h
        exact ⟨rest, hrest.symm, h⟩
      · rintro ⟨rest1, h1, h2⟩
        have : rest1 = rest := by
          rw [← hrest] at h1
          exact (List.append_cancel_left h1).symm
        rw [← this]
        exact h2

/-- C23 at names that begin with two dots: for the tokens `..data/cfg` and
`...` the candidate lies beneath the root `/ctx` and the first segment of
its path relative to the root is not `..`, yet `ExpandSource` answers with
the context-escape error, whatever the file system holds. -/
theorem ExpandSource_escape_false_positive (fs : FS) :
    within "/ctx".toList (Clean (Join "/ctx".toList "..data/cfg".toList)) = true ∧
    Rel "/ctx".toList (Clean (Join "/ctx".toList "..data/cfg".toList))
      = some "..data/cfg".toList ∧
    (splitSlash "..data/cfg".toList).head? = some "..data".toList ∧
    ExpandSource fs "/ctx".toList "..data/cfg".toList
      = ([], some (.errorf "source path escapes context: ..data/cfg".toList)) ∧
    within "/ctx".toList (Clean (Join "/ctx".toList "...".toList)) = true ∧
    ExpandSource fs "/ctx".toList "...".toList
      = ([], some (.errorf "source path escapes context: ...".toList)) := by
  refine ⟨by decide, by decide, by decide, ?_, by decide, ?_⟩
  · have h1 : IsAbs (Clean "..data/cfg".toList) = false := by decide
    have h2 : relEscapes (Rel "/ctx".toList
        (Clean (Join "/ctx".toList (Clean "..data/cfg".toList)))) = true := by decide
    have h3 : Clean "..data/cfg".toList = "..data/cfg".toList := by decide
    simp only [ExpandSource, h1, h2, if_true, Bool.false_eq_true, if_false]
    rw [h3]
    rfl
  · have h1 : IsAbs (Clean "...".toList) = false := by decide
    have h2 : relEscapes (Rel "/ctx".toList
        (Clean (Join "/ctx".toList (Clean "...".toList)))) = true := by decide
    have h3 : Clean "...".toList = "...".toList := by decide
    simp only [ExpandSource, h1, h2, if_true, Bool.false_eq_true, if_false]
    rw [h3]
    rfl
/-- When `ExpandSource` answers with the context-escape error: for an absolute,
cleaned root and a non-absolute token, exactly when the candidate is outside
the root, or lies beneath it with a first segment that begins with the two
characters `..` (the segment `..` itself cannot occur in a cleaned candidate
beneath the root, so the second case is always a name such as `..data`). -/
theorem ExpandSource_escape_iff (fs : FS) (root tok : Str)
    (hroot : IsAbs root = true) (hclean : Clean root = root) (hrel : IsAbs tok = false) :
    ExpandSource fs root tok
        = ([], some (.errorf ("source path escapes context: ".toList ++ Clean tok))) ↔
      (within root (Clean (Join root tok)) = false ∨
        ∃ rest, Clean (Join root tok) = (if root = ['/'] then root else root ++ ['/']) ++ rest ∧
          HasPrefix rest ['.', '.'] = true) := by
  have habs : IsAbs (Clean tok) = false := by rw [Clean_isAbs, hrel]
  have hpat := Clean_join_Clean root tok hroot hrel
  have hcc := pattern_clean root tok hroot
  have stepA : ExpandSource fs root tok
      = ([], some (.errorf ("source path escapes context: ".toList ++ Clean tok))) ↔
      relEscapes (Rel root (Clean (Join root tok))) = true := by
    constructor
    · intro h
      cases hE : relEscapes (Rel root (Clean (Join root tok))) with
      | true => rfl
      | false =>
        exfalso
        simp only [ExpandSource, habs, hpat, hE, Bool.false_eq_true, if_false] at h
        split at h
        · split at h
          · simp at h
          · obtain ⟨m, hm⟩ := globLoop_error fs _ _ _ _ h
            exact GoError.noConfusion hm
        · split at h
          · split at h
            · simp at h
            · simp at h
          · split at h
            · obtain ⟨m, hm⟩ := walkLoop_error _ _ _ _ h
              exact GoError.noConfusion hm
            · simp at h
    · intro hE
      simp [ExpandSource, habs, hpat, hE]
  rw [stepA]
  cases hw : within root (Clean (Join root tok)) with
  | true =>
    rw [relEscapes_within root _ hroot hclean hcc hw]
    simp
  | false =>
    constructor
    · intro _
      exact Or.inl rfl
    · intro _
      cases hE : relEscapes (Rel root (Clean (Join root tok))) with
      | true => rfl
      | false =>
        have := pattern_within root tok hroot hclean hE
        rw [hw] at this
        exact Bool.noConfusion this

/-! ## `RelativePathForUpload` -/

theorem joinSlash_ne_nil (x : Str) (l : List Str) (hx : x ≠ []) : joinSlash (x :: l) ≠ [] := by
  cases x with
  | nil => exact absurd rfl hx
  | cons c cs =>
    intro e
    have := joinSlash_head (c :: cs) l c cs rfl
    rw [e] at this
    simp at this

theorem root_elems (root : Str) (hroot : IsAbs root = true) (hclean : Clean root = root) :
    ∃ rs, Canon rs ∧ root = '/' :: joinSlash rs ∧
      cleanElems true (splitSlash root) [] = rs.reverse := by
  have hr := (IsAbs_iff root).1 hroot
  have h := Clean_rooted_eq root hr
  rw [hclean] at h
  have hcanon : Canon (cleanElems true (splitSlash root) []) :=
    cleanElems_canon _ _ (by simp [Canon]) (splitSlash_noSlash root)
  exact ⟨(cleanElems true (splitSlash root) []).reverse,
    fun seg hseg => hcanon seg (List.mem_reverse.1 hseg), h, by simp⟩

theorem relative_elems (r : Str) (hr : Clean r = r) (hrel : IsAbs r = false)
    (hseg : ∀ seg ∈ splitSlash r, seg ≠ ['.'] ∧ seg ≠ ['.', '.']) :
    ∃ segs, segs ≠ [] ∧ Canon segs ∧ r = joinSlash segs ∧ splitSlash r = segs := by
  have hne : r ≠ [] := by
    intro e
    rw [e] at hr
    exact absurd hr (by decide)
  have h := Clean_relative_eq r hne hrel
  rw [hr] at h
  have hcanon : RelCanon (cleanElems false (splitSlash r) []) :=
    cleanElems_relCanon _ _ (by simp [RelCanon]) (splitSlash_noSlash r)
  generalize cleanElems false (splitSlash r) [] = S at h hcanon
  by_cases hS : S = []
  · exfalso
    simp only [hS, if_true] at h
    have := (hseg ['.'] (by rw [h]; decide)).1
    exact this rfl
  · simp only [hS, if_false] at h
    have hrev : S.reverse ≠ [] := by simpa using hS
    have hsplit : splitSlash r = S.reverse := by
      conv_lhs => rw [h]
      exact splitSlash_joinSlash S.reverse hrev
        (fun seg hs => (hcanon seg (List.mem_reverse.1 hs)).2.2)
    refine ⟨S.reverse, hrev, ?_, h, hsplit⟩
    intro seg hs
    obtain ⟨c1, c2, c3⟩ := hcanon seg (List.mem_reverse.1 hs)
    exact ⟨c1, c2, (hseg seg (by rw [hsplit]; exact hs)).2, c3⟩

theorem Join_beneath (root r : Str) (hroot : IsAbs root = true) (hclean : Clean root = root)
    (hr : Clean r = r) (hrel : IsAbs r = false)
    (hseg : ∀ seg ∈ splitSlash r, seg ≠ ['.'] ∧ seg ≠ ['.', '.']) :
    Join root r = (if root = ['/'] then root else root ++ ['/']) ++ r := by
  obtain ⟨rs, hrs, hroot_eq, hstk⟩ := root_elems root hroot hclean
  obtain ⟨segs, hsegs, hcanon, hr_eq, hsplit⟩ := relative_elems r hr hrel hseg
  rw [Join_eq root r hroot, Clean_rooted_eq _ (append_slash_head root r hroot),
    splitSlash_append_slash, cleanElems_append, hstk, hsplit,
    cleanElems_of_canon segs _ hcanon]
  simp only [List.reverse_append, List.reverse_reverse]
  cases rs with
  | nil =>
    have e : root = ['/'] := by rw [hroot_eq]; rfl
    simp only [e, if_true, List.nil_append]
    rw [hr_eq]
    rfl
  | cons x rs =>
    have hx : x ≠ [] := (hrs x (List.mem_cons_self _ _)).1
    have e : root ≠ ['/'] := by
      intro e
      rw [hroot_eq] at e
      simp only [List.cons.injEq, true_and] at e
      exact joinSlash_ne_nil x rs hx e
    simp only [e, if_false]
    rw [joinSlash_append _ _ (by simp) hsegs, ← hr_eq, hroot_eq]
    simp

/-- C22: for an absolute, cleaned context root and a cleaned relative path `r`
with no `.` or `..` segment, `RelativePathForUpload(root, Join(root, r))`
succeeds and returns `r` (whose separators are forward slashes). -/
theorem RelativePathForUpload_round_trip (root r : Str)
    (hroot : IsAbs root = true) (hclean : Clean root = root)
    (hr : Clean r = r) (hrel : IsAbs r = false)
    (hseg : ∀ seg ∈ splitSlash r, seg ≠ ['.'] ∧ seg ≠ ['.', '.']) :
    RelativePathForUpload root (Join root r) = some r := by
  have hj := Join_beneath root r hroot hclean hr hrel hseg
  have hne : r ≠ [] := by
    intro e
    rw [e] at hr
    exact absurd hr (by decide)
  have hcc : Clean (Join root r) = Join root r := by
    rw [Join_eq root r hroot]
    exact Clean_idem_rooted _ (append_slash_head root r hroot)
  have hne2 : Join root r ≠ root := by
    intro e
    have := congrArg List.length e
    rw [hj] at this
    split at this
    · simp at this
      exact hne this
    · simp at this
  have hrel1 := Rel_beneath root (Join root r) r hroot hclean hcc hne2 hj
  simp [RelativePathForUpload, hrel1, ToSlash]

/-- Witness for C22: the two cases of the repository's test, a file in a
subdirectory and a file directly in the root. -/
theorem RelativePathForUpload_round_trip_witness :
    Join "/tmp/ctx".toList "code/app.py".toList = "/tmp/ctx/code/app.py".toList ∧
    RelativePathForUpload "/tmp/ctx".toList (Join "/tmp/ctx".toList "code/app.py".toList)
      = some "code/app.py".toList ∧
    RelativePathForUpload "/tmp/ctx".toList (Join "/tmp/ctx".toList "root.txt".toList)
      = some "root.txt".toList ∧
    RelativePathForUpload "/".toList (Join "/".toList "..data/x".toList)
      = some "..data/x".toList :=
  ⟨by decide,
    RelativePathForUpload_round_trip "/tmp/ctx".toList "code/app.py".toList
      (by decide) (by decide) (by decide) (by decide) (by decide),
    RelativePathForUpload_round_trip "/tmp/ctx".toList "root.txt".toList
      (by decide) (by decide) (by decide) (by decide) (by decide),
    RelativePathForUpload_round_trip "/".toList "..data/x".toList
      (by decide) (by decide) (by decide) (by decide) (by decide)⟩

/-! ## When the tokenizer fails -/

theorem TrimLeft_blanks (r : Str) : TrimLeft r [' ', '\t'] = r.dropWhile isBlank := by
  unfold TrimLeft
  congr 1
  funext c
  exact contains_blanks c

theorem TrimLeft_separators (r : Str) :
    TrimLeft r [' ', '\t', ','] = r.dropWhile isSeparator := by
  unfold TrimLeft
  congr 1
  funext c
  exact contains_separators c

theorem drop_takeWhile_length (p : Char → Bool) (l : Str) :
    l.drop (l.takeWhile p).length = l.dropWhile p := by
  induction l with
  | nil => rfl
  | cons a l ih =>
    rw [List.takeWhile_cons, List.dropWhile_cons]
    split
    · simpa using ih
    · rfl

theorem IndexByte_none (tl : Str) (q : Char) (h : IndexByte tl q = none) : q ∉ tl := by
  induction tl with
  | nil => simp
  | cons a tl ih =>
    simp only [IndexByte, indexWhere] at h
    split at h
    · simp at h
    · next ha =>
      have ha1 : a ≠ q := by simpa using ha
      have h1 : IndexByte tl q = none := by
        simp only [IndexByte]
        cases hi : indexWhere (fun x => decide (x = q)) tl with
        | none => rfl
        | some j => simp [hi] at h
      intro hm
      rcases List.mem_cons.1 hm with e | e
      · exact ha1 e.symm
      · exact ih h1 e

theorem IndexByte_some (tl : Str) (q : Char) (e : Nat) (h : IndexByte tl q = some e) :
    tl = tl.take e ++ q :: tl.drop (e + 1) ∧ q ∉ tl.take e := by
  induction tl generalizing e with
  | nil => simp [IndexByte, indexWhere] at h
  | cons a tl ih =>
    simp only [IndexByte, indexWhere] at h
    split at h
    · next ha =>
      have ha1 : a = q := by simpa using ha
      simp only [Option.some.injEq] at h
      subst h
      subst ha1
      simp
    · next ha =>
      have ha1 : a ≠ q := by simpa using ha
      cases hi : indexWhere (fun x => decide (x = q)) tl with
      | none => simp [hi] at h
      | some j =>
        simp only [hi, Option.map_some', Option.some.injEq] at h
        subst h
        obtain ⟨h1, h2⟩ := ih j hi
        constructor
        · simp only [List.take_succ_cons, List.drop_succ_cons, List.cons_append,
            List.cons.injEq, true_and]
          exact h1
        · simp only [List.take_succ_cons, List.mem_cons, not_or]
          exact ⟨fun e => ha1 e.symm, h2⟩

theorem split_at_first (q : Char) (c1 a1 c2 a2 : Str)
    (h : c1 ++ q :: a1 = c2 ++ q :: a2) (h1 : q ∉ c1) (h2 : q ∉ c2) : c1 = c2 ∧ a1 = a2 := by
  induction c1 generalizing c2 with
  | nil =>
    cases c2 with
    | nil => simpa using h
    | cons y c2 =>
      simp only [List.nil_append, List.cons_append, List.cons.injEq] at h
      exact absurd (by rw [h.1]; exact List.mem_cons_self _ _) h2
  | cons x c1 ih =>
    cases c2 with
    | nil =>
      simp only [List.nil_append, List.cons_append, List.cons.injEq] at h
      exact absurd (by rw [← h.1]; exact List.mem_cons_self _ _) h1
    | cons y c2 =>
      simp only [List.cons_append, List.cons.injEq] at h
      obtain ⟨e1, e2⟩ := ih c2 h.2 (fun hm => h1 (List.mem_cons_of_mem _ hm))
        (fun hm => h2 (List.mem_cons_of_mem _ hm))
      exact ⟨by rw [h.1, e1], e2⟩

theorem shellLoop_outcome (n : Nat) (r : Str) (acc : List Str) (hn : r.length < n) :
    (ShellUnclosed r ∧ shellLoop n r acc = ([], some (.errorf "unclosed quote".toList))) ∨
      (¬ ShellUnclosed r ∧ (shellLoop n r acc).2 = none) := by
  induction n generalizing r acc with
  | zero => omega
  | succ n ih =>
    rw [shellLoop, TrimLeft_blanks]
    have hlen := dropWhile_length_le isBlank r
    rcases hT : r.dropWhile isBlank with _ | ⟨c, tl⟩
    · right
      refine ⟨?_, rfl⟩
      intro h
      cases h with
      | here _ q tl h1 _ _ => rw [hT] at h1; exact List.noConfusion h1
      | afterQuoted _ q content after h1 _ _ _ => rw [hT] at h1; exact List.noConfusion h1
      | afterBare _ c tl h1 _ _ => rw [hT] at h1; exact List.noConfusion h1
    · rw [hT, List.length_cons] at hlen
      simp only
      cases hq : isQuote c with
      | true =>
        simp only [if_true]
        rcases hI : IndexByte tl c with _ | e
        · left
          exact ⟨ShellUnclosed.here r c tl hT hq (IndexByte_none tl c hI), rfl⟩
        · obtain ⟨hs1, hs2⟩ := IndexByte_some tl c e hI
          simp only
          have hiff : ShellUnclosed r ↔ ShellUnclosed (tl.drop (e + 1)) := by
            constructor
            · intro h
              cases h with
              | here _ q tl1 h1 _ h3 =>
                rw [hT] at h1
                simp only [List.cons.injEq] at h1
                exfalso
                apply h3
                rw [← h1.1, ← h1.2, hs1]
                simp
              | afterQuoted _ q content after h1 _ h3 h4 =>
                rw [hT] at h1
                simp only [List.cons.injEq] at h1
                obtain ⟨e1, e2⟩ := h1
                subst e1
                rw [hs1] at e2
                obtain ⟨_, e4⟩ := split_at_first c _ _ _ _ e2 hs2 h3
                rw [e4]
                exact h4
              | afterBare _ c1 tl1 h1 h2 _ =>
                rw [hT] at h1
                simp only [List.cons.injEq] at h1
                rw [← h1.1, hq] at h2
                exact Bool.noConfusion h2
            · intro h
              exact ShellUnclosed.afterQuoted r c (tl.take e) (tl.drop (e + 1))
                (by rw [hT, ← hs1]) hq hs2 h
          rw [hiff]
          apply ih
          rw [List.length_drop]
          omega
      | false =>
        simp only [Bool.false_eq_true, if_false]
        have hp : (fun x : Char => x ≠ ' ' && x ≠ '\t') = (fun x => !isBlank x) := by
          funext x
          simpa using not_blank_eq x
        have hdrop : (c :: tl).drop ((c :: tl).takeWhile
            (fun x => x ≠ ' ' && x ≠ '\t')).length
            = (c :: tl).dropWhile (fun x => !isBlank x) := by
          rw [drop_takeWhile_length, hp]
        rw [hdrop]
        have hc : isBlank c = false := dropWhile_head_false isBlank r c tl hT
        have hiff : ShellUnclosed r ↔
            ShellUnclosed ((c :: tl).dropWhile (fun x => !isBlank x)) := by
          constructor
          · intro h
            cases h with
            | here _ q tl1 h1 h2 _ =>
              rw [hT] at h1
              simp only [List.cons.injEq] at h1
              rw [← h1.1, hq] at h2
              exact Bool.noConfusion h2
            | afterQuoted _ q content after h1 h2 _ _ =>
              rw [hT] at h1
              simp only [List.cons.injEq] at h1
              rw [← h1.1, hq] at h2
              exact Bool.noConfusion h2
            | afterBare _ c1 tl1 h1 _ h3 =>
              rw [hT] at h1
              simp only [List.cons.injEq] at h1
              rw [h1.1, h1.2]
              exact h3
          · intro h
            exact ShellUnclosed.afterBare r c tl hT hq h
        rw [hiff]
        apply ih
        have : ((c :: tl).dropWhile (fun x => !isBlank x)).length ≤ tl.length := by
          rw [List.dropWhile_cons]
          simp only [hc, Bool.not_false, if_true]
          exact dropWhile_length_le _ tl
        omega
theorem jsonLoop_outcome (n : Nat) (r : Str) (acc : List Str) (hn : r.length < n) :
    (ExecUnclosed r ∧ ¬ ExecUnquoted r ∧
        jsonLoop n r acc = ([], some (.errorf "unclosed quote".toList))) ∨
      (ExecUnquoted r ∧ ¬ ExecUnclosed r ∧
        jsonLoop n r acc = ([], some (.errorf "expected quoted string in array".toList))) ∨
      (¬ ExecUnclosed r ∧ ¬ ExecUnquoted r ∧ (jsonLoop n r acc).2 = none) := by
  induction n generalizing r acc with
  | zero => omega
  | succ n ih =>
    rw [jsonLoop, TrimLeft_separators]
    have hlen := dropWhile_length_le isSeparator r
    rcases hT : r.dropWhile isSeparator with _ | ⟨c, tl⟩
    · right
      right
      refine ⟨?_, ?_, rfl⟩
      · intro h
        cases h with
        | here _ q tl h1 _ _ => rw [hT] at h1; exact List.noConfusion h1
        | afterEntry _ q content after h1 _ _ _ => rw [hT] at h1; exact List.noConfusion h1
      · intro h
        cases h with
        | here _ q tl h1 _ _ => rw [hT] at h1; exact List.noConfusion h1
        | afterEntry _ q content after h1 _ _ _ => rw [hT] at h1; exact List.noConfusion h1
    · rw [hT, List.length_cons] at hlen
      simp only
      by_cases hb : c = ']'
      · simp only [hb, if_true]
        have hqb : isQuote ']' = false := by decide
        right
        right
        refine ⟨?_, ?_, trivial⟩
        · intro h
          cases h with
          | here _ q tl1 h1 h2 _ =>
            rw [hT, hb] at h1
            simp only [List.cons.injEq] at h1
            rw [← h1.1, hqb] at h2
            exact Bool.noConfusion h2
          | afterEntry _ q content after h1 h2 _ _ =>
            rw [hT, hb] at h1
            simp only [List.cons.injEq] at h1
            rw [← h1.1, hqb] at h2
            exact Bool.noConfusion h2
        · intro h
          cases h with
          | here _ c1 tl1 h1 h2 _ =>
            rw [hT, hb] at h1
            simp only [List.cons.injEq] at h1
            exact h2 h1.1.symm
          | afterEntry _ q content after h1 h2 _ _ =>
            rw [hT, hb] at h1
            simp only [List.cons.injEq] at h1
            rw [← h1.1, hqb] at h2
            exact Bool.noConfusion h2
      · simp only [hb, if_false]
        cases hq : isQuote c with
        | false =>
          simp only [Bool.not_false, if_true]
          right
          left
          refine ⟨ExecUnquoted.here r c tl hT hb hq, ?_, trivial⟩
          intro h
          cases h with
          | here _ q tl1 h1 h2 _ =>
            rw [hT] at h1
            simp only [List.cons.injEq] at h1
            rw [← h1.1, hq] at h2
            exact Bool.noConfusion h2
          | afterEntry _ q content after h1 h2 _ _ =>
            rw [hT] at h1
            simp only [List.cons.injEq] at h1
            rw [← h1.1, hq] at h2
            exact Bool.noConfusion h2
        | true =>
          simp only [Bool.not_true, Bool.false_eq_true, if_false]
          rcases hI : IndexByte tl c with _ | e
          · left
            have hnot := IndexByte_none tl c hI
            refine ⟨ExecUnclosed.here r c tl hT hq hnot, ?_, rfl⟩
            intro h
            cases h with
            | here _ c1 tl1 h1 _ h3 =>
              rw [hT] at h1
              simp only [List.cons.injEq] at h1
              rw [← h1.1, hq] at h3
              exact Bool.noConfusion h3
            | afterEntry _ q content after h1 _ _ _ =>
              rw [hT] at h1
              simp only [List.cons.injEq] at h1
              apply hnot
              rw [h1.2, h1.1]
              simp
          · obtain ⟨hs1, hs2⟩ := IndexByte_some tl c e hI
            simp only
            have hiff1 : ExecUnclosed r ↔ ExecUnclosed (tl.drop (e + 1)) := by
              constructor
              · intro h
                cases h with
                | here _ q tl1 h1 _ h3 =>
                  rw [hT] at h1
                  simp only [List.cons.injEq] at h1
                  exfalso
                  apply h3
                  rw [← h1.1, ← h1.2, hs1]
                  simp
                | afterEntry _ q content after h1 _ h3 h4 =>
                  rw [hT] at h1
                  simp only [List.cons.injEq] at h1
                  obtain ⟨e1, e2⟩ := h1
                  subst e1
                  rw [hs1] at e2
                  obtain ⟨_, e4⟩ := split_at_first c _ _ _ _ e2 hs2 h3
                  rw [e4]
                  exact h4
              · intro h
                exact ExecUnclosed.afterEntry r c (tl.take e) (tl.drop (e + 1))
                  (by rw [hT, ← hs1]) hq hs2 h
            have hiff2 : ExecUnquoted r ↔ ExecUnquoted (tl.drop (e + 1)) := by
              constructor
              · intro h
                cases h with
                | here _ c1 tl1 h1 _ h3 =>
                  rw [hT] at h1
                  simp only [List.cons.injEq] at h1
                  rw [← h1.1, hq] at h3
                  exact Bool.noConfusion h3
                | afterEntry _ q content after h1 _ h3 h4 =>
                  rw [hT] at h1
                  simp only [List.cons.injEq] at h1
                  obtain ⟨e1, e2⟩ := h1
                  subst e1
                  rw [hs1] at e2
                  obtain ⟨_, e4⟩ := split_at_first c _ _ _ _ e2 hs2 h3
                  rw [e4]
                  exact h4
              · intro h
                exact ExecUnquoted.afterEntry r c (tl.take e) (tl.drop (e + 1))
                  (by rw [hT, ← hs1]) hq hs2 h
            rw [hiff1, hiff2]
            apply ih
            rw [List.length_drop]
            omega

theorem TokenizeInstruction_exec_eq (rest : Str) (h : HasPrefix rest ['['] = true) :
    TokenizeInstruction rest
      = jsonLoop ((execScanned rest).length + 1) (execScanned rest) [] := by
  have hpre : HasPrefix (TrimSpace rest) ['['] = true := by
    cases rest with
    | nil => exact absurd h (by decide)
    | cons c t =>
      have hc : c = '[' := by
        simp only [HasPrefix, List.isPrefixOf, Bool.and_true, beq_iff_eq] at h
        exact h.symm
      subst hc
      unfold TrimSpace
      rw [List.dropWhile_cons, if_neg (by decide),
        rdropWhile_cons_of_neg isSpace '[' t (by decide)]
      simp [HasPrefix, List.isPrefixOf]
  simp only [TokenizeInstruction, h, if_true, tokenizeJSONArray, hpre, Bool.not_true,
    Bool.false_eq_true, if_false, execScanned]

/-- C21: `TokenizeInstruction` fails with `unclosed quote` exactly when the
left-to-right scan reaches a shell-form token or an exec-form array entry
that opens with a quote character which has no later occurrence, it fails
with `expected quoted string in array` exactly when, in exec form, the scan
reaches an entry that starts with neither a quote character nor `]`, and on
every other input it succeeds. Exec form is the form the code selects: the
argument string begins with `[`. -/
theorem TokenizeInstruction_fails_iff (rest : Str) :
    (TokenizeInstruction rest = ([], some (.errorf "unclosed quote".toList)) ↔
        (HasPrefix rest ['['] = false ∧ ShellUnclosed rest) ∨
          (HasPrefix rest ['['] = true ∧ ExecUnclosed (execScanned rest))) ∧
      (TokenizeInstruction rest
          = ([], some (.errorf "expected quoted string in array".toList)) ↔
        HasPrefix rest ['['] = true ∧ ExecUnquoted (execScanned rest)) ∧
      ((TokenizeInstruction rest).2 = none ∨
        TokenizeInstruction rest = ([], some (.errorf "unclosed quote".toList)) ∨
        TokenizeInstruction rest
          = ([], some (.errorf "expected quoted string in array".toList))) := by
  have hdiff : (([] : List Str), some (GoError.errorf "unclosed quote".toList))
      ≠ ([], some (.errorf "expected quoted string in array".toList)) := by decide
  cases hp : HasPrefix rest ['['] with
  | false =>
    have he : TokenizeInstruction rest = shellLoop (rest.length + 1) rest [] := by
      simp [TokenizeInstruction, hp]
    rcases shellLoop_outcome (rest.length + 1) rest [] (Nat.lt_succ_self _) with
      ⟨h1, h2⟩ | ⟨h1, h2⟩
    · rw [he, h2]
      refine ⟨?_, ?_, Or.inr (Or.inl rfl)⟩
      · simp [h1]
      · simp only [Bool.false_eq_true, false_and, iff_false]
        exact hdiff
    · rw [he]
      refine ⟨?_, ?_, Or.inl h2⟩
      · simp only [h1, and_false, Bool.false_eq_true, false_and, or_false, iff_false]
        intro e
        rw [e] at h2
        simp at h2
      · simp only [Bool.false_eq_true, false_and, iff_false]
        intro e
        rw [e] at h2
        simp at h2
  | true =>
    rw [TokenizeInstruction_exec_eq rest hp]
    rcases jsonLoop_outcome ((execScanned rest).length + 1) (execScanned rest) []
      (Nat.lt_succ_self _) with ⟨h1, h2, h3⟩ | ⟨h1, h2, h3⟩ | ⟨h1, h2, h3⟩
    · rw [h3]
      refine ⟨?_, ?_, Or.inr (Or.inl rfl)⟩
      · simp [h1]
      · simp only [h2, and_false, iff_false]
        exact hdiff
    · rw [h3]
      refine ⟨?_, ?_, Or.inr (Or.inr rfl)⟩
      · simp only [h2, and_false, Bool.true_eq_false, false_and, or_false, iff_false]
        exact fun e => hdiff e.symm
      · simp [h1]
    · refine ⟨?_, ?_, Or.inl h3⟩
      · simp only [h1, and_false, Bool.true_eq_false, false_and, or_false, iff_false]
        intro e
        rw [e] at h3
        simp at h3
      · simp only [h2, and_false, iff_false]
        intro e
        rw [e] at h3
        simp at h3

/-- The outcomes of `TokenizeInstruction` on concrete argument strings: the
unit test's unclosed shell token, an exec-form array whose second entry has
no closing quote, an exec-form array with a bare entry, an exec-form array
without its closing bracket, and a quote opened after the closing bracket. -/
theorem TokenizeInstruction_outcome_examples :
    TokenizeInstruction (dquote :: "unclosed".toList)
        = ([], some (.errorf "unclosed quote".toList)) ∧
      TokenizeInstruction ('[' :: dquote :: 'a' :: dquote :: ',' :: ' ' :: dquote :: "b]".toList)
        = ([], some (.errorf "unclosed quote".toList)) ∧
      TokenizeInstruction ('[' :: dquote :: 'a' :: dquote :: ", b]".toList)
        = ([], some (.errorf "expected quoted string in array".toList)) ∧
      TokenizeInstruction ('[' :: dquote :: 'a' :: dquote :: ',' :: ' ' :: dquote :: 'b' :: [dquote])
        = (["a".toList, "b".toList], none) ∧
      TokenizeInstruction ('[' :: dquote :: 'a' :: dquote :: ']' :: ' ' :: dquote :: "b".toList)
        = (["a".toList], none) := by
  refine ⟨?_, ?_, ?_, ?_, ?_⟩ <;> decide

end DockerfileParser
